import Mathlib

/-!
# A segmented commit log: store, index, segment and log

Shallow embedding of the Go package `log` (files `store.go`, `index.go`,
`segment.go`, `log.go`) and proofs of its documented properties.

Conventions of the embedding.

* A Go `uint64` is a `Nat` reduced modulo `2^64` wherever the Go arithmetic
  can wrap; `uint32` likewise modulo `2^32`; an `int64` obtained by converting
  a `uint64` is an `Int` computed by `toInt64`.
* A byte is a `Fin 256`, a byte slice or a file content is a `List Byte`.
* A method with a pointer receiver becomes a function that returns the new
  receiver state first, followed by the Go results.
* Failures of the operating system (disk full, permission, a failing `stat`)
  are not part of the model: the file operations fail only for the reasons
  that depend on their arguments (reading past the end of a file, a negative
  offset, mapping an empty file, a negative length) and on a file handle that
  was closed before.
-/

namespace CommitLog

/-! ## Bytes and the big endian encoding (`enc = binary.BigEndian`) -/

/-- One byte. -/
abbrev Byte := Fin 256

/-- A byte slice (`[]byte`), also used for the content of a file. -/
abbrev Bytes := List Byte

/-- The range of a Go `uint64`. -/
def u64 : Nat := 2 ^ 64

/-- The range of a Go `uint32`. -/
def u32 : Nat := 2 ^ 32

/-- Conversion `int64(x)` of a `uint64` value `x` (reinterpretation of the bits). -/
def toInt64 (x : Nat) : Int :=
  if x % u64 < 2 ^ 63 then ((x % u64 : Nat) : Int) else ((x % u64 : Nat) : Int) - (2 ^ 64 : Int)

/-- Conversion `uint32(x)` of a signed 64 bit value (keeps the low 32 bits). -/
def toUint32 (x : Int) : Nat := (x % (2 ^ 32 : Int)).toNat

/-- The byte number `i` (counted from the least significant one) of `v`. -/
def byteAt (v : Nat) (i : Nat) : Byte := ⟨v / 2 ^ (8 * i) % 256, Nat.mod_lt _ (by decide)⟩

/-- The call `enc.PutUint64(b, v)`: the eight bytes of `v`, most significant first. -/
def putUint64 (v : Nat) : Bytes :=
  [byteAt v 7, byteAt v 6, byteAt v 5, byteAt v 4, byteAt v 3, byteAt v 2, byteAt v 1, byteAt v 0]

/-- The call `enc.PutUint32(b, v)`: the four bytes of `v`, most significant first. -/
def putUint32 (v : Nat) : Bytes :=
  [byteAt v 3, byteAt v 2, byteAt v 1, byteAt v 0]

/-- Big endian value of a byte sequence; `enc.Uint64` on eight bytes and
`enc.Uint32` on four bytes. -/
def beValue (b : Bytes) : Nat := b.foldl (fun acc x => acc * 256 + x.val) 0

/-- The call `enc.Uint64(b)` on a slice of eight bytes. -/
def uint64Of (b : Bytes) : Nat := beValue b

/-- The call `enc.Uint32(b)` on a slice of four bytes. -/
def uint32Of (b : Bytes) : Nat := beValue b

/-- The slice expression `b[lo:hi]` for `lo ≤ hi ≤ len(b)`. -/
def slice (b : Bytes) (lo hi : Nat) : Bytes := (b.drop lo).take (hi - lo)

/-- Overwrite `b[lo : lo + len(src)]` with `src`, as `copy` or `PutUint` into a
sub-slice does; requires `lo + len(src) ≤ len(b)`. -/
def overwrite (b : Bytes) (lo : Nat) (src : Bytes) : Bytes :=
  b.take lo ++ src ++ b.drop (lo + src.length)

/-! ## Errors -/

/-- The error values that the package returns or that the runtime raises. -/
inductive Err where
  /-- The value `io.EOF`. -/
  | EOF
  /-- The value `fmt.Errorf("offset out of range: %d", off)`. -/
  | offsetOutOfRange (off : Nat)
  /-- A positioned read with a negative offset. -/
  | negativeOffset
  /-- An invalid argument refused by the operating system (`EINVAL`). -/
  | invalidArgument
  /-- A file that should be removed does not exist (`ENOENT`). -/
  | notExist
  /-- Use of a file that is already closed (`os.ErrClosed`). -/
  | closed
  /-- An error of the record codec. -/
  | codec
  /-- A run time panic (slice bounds out of range, nil dereference, allocation
  of an impossible size). -/
  | fault
  deriving DecidableEq, Repr

deriving instance DecidableEq for Except

/-! ## The operating system file and the buffered writer -/

/-- The call `f.ReadAt(b, off)` on a file with content `file`, for a buffer of
`n` bytes: the bytes read and the error. It reads `n` bytes at `off`; when the
file ends before, it returns the bytes that are there and `io.EOF`; a buffer
of length zero reads nothing and succeeds. -/
def fileReadAt (file : Bytes) (n : Nat) (off : Int) : Bytes × Option Err :=
  if off < 0 then ([], some Err.negativeOffset)
  else if n = 0 then ([], none)
  else
    let got := (file.drop off.toNat).take n
    if got.length < n then (got, some Err.EOF) else (got, none)

/-- The call `f.ReadAt(b, off)` on a file that was closed, for a buffer of `n`
bytes: the offset is checked first, a buffer of length zero reads nothing and
succeeds, and the read itself fails. -/
def closedReadAt (n : Nat) (off : Int) : Bytes × Option Err :=
  if off < 0 then ([], some Err.negativeOffset)
  else if n = 0 then ([], none)
  else ([], some Err.closed)

/-- The call `f.Truncate(n)` for `n ≥ 0`: the file is cut to `n` bytes or
extended with zero bytes up to `n` bytes. -/
def fileTruncate (file : Bytes) (n : Nat) : Bytes :=
  file.take n ++ List.replicate (n - file.length) 0

/-- Default size of the buffer of a `bufio.Writer`. -/
def defaultBufSize : Nat := 4096

/-- The call `buf.Write(p)` of a `bufio.Writer` of the default size over a file
opened for appending: the new file content and the new buffered bytes. When
`p` does not fit the free room of the buffer, a buffer that holds bytes is
filled up and written to the file, and a payload larger than the empty buffer
is written to the file directly. -/
def bufioWrite (file buf p : Bytes) : Bytes × Bytes :=
  if p.length ≤ defaultBufSize - buf.length then (file, buf ++ p)
  else if buf.length = 0 then (file ++ p, [])
  else
    let k := defaultBufSize - buf.length
    let file1 := file ++ (buf ++ p.take k)
    let rest := p.drop k
    if rest.length ≤ defaultBufSize then (file1, rest) else (file1 ++ rest, [])

/-! ## The configuration and the record

The file `config.go` and the package `api/v1` are not among the sources. -/

/-- Modelled from the spec: the fields `Config.Segment` of the configuration
(section 6, configuration surface): three unsigned 64 bit values. -/
structure SegmentConfig where
  MaxStoreBytes : Nat
  MaxIndexBytes : Nat
  InitialOffset : Nat
  deriving DecidableEq, Repr

/-- Modelled from the spec: the type `Config`, which holds the segment settings. -/
structure Config where
  Segment : SegmentConfig
  deriving DecidableEq, Repr

/-- Modelled from the spec: the type `api.Record` (section 3): an opaque
value and the offset that the segment assigns. -/
structure Record where
  Value : Bytes
  Offset : Nat
  deriving DecidableEq, Repr

/-- The record codec, `json.Marshal` and `json.Unmarshal` in the source, an
external collaborator: both directions may fail. -/
structure Codec where
  Marshal : Record → Option Bytes
  Unmarshal : Bytes → Option Record

/-- The codec round-trips on a record: what `Marshal` yields, `Unmarshal`
reads back as the same record. -/
def Codec.RoundTrips (cd : Codec) (r : Record) : Prop :=
  ∀ p, cd.Marshal r = some p → cd.Unmarshal p = some r

/-- A concrete codec for the examples: the offset in eight bytes followed by
the value. -/
def plainCodec : Codec where
  Marshal := fun r => some (putUint64 r.Offset ++ r.Value)
  Unmarshal := fun p =>
    if p.length < 8 then none else some { Value := p.drop 8, Offset := uint64Of (p.take 8) }

/-! ## store.go -/

/-- The constant `lenWidth`: the number of bytes used to store the length of a record. -/
def lenWidth : Nat := 8

/-- The state of the file handle of a store together with the error field of
its buffered writer. A write to an open file does not fail in the model, so
the writer records an error only once the file is closed; from then on every
`Write` and `Flush` of the writer returns that error. -/
inductive Handle where
  /-- The file is open and the writer holds no error. -/
  | live
  /-- The file was closed and the writer holds no error. -/
  | shut
  /-- The file was closed and a write of the writer to the file has failed:
  the writer holds the error. -/
  | failed
  deriving DecidableEq, Repr

/-- The type `store`: a file and a buffered writer over it.
`file` is the content of the backing file, `buf` the bytes that the buffered
writer still holds, `size` the field `size`, `handle` the state of the file
handle and of the error field of the writer. -/
structure store where
  file : Bytes
  buf : Bytes
  size : Nat
  handle : Handle
  deriving DecidableEq, Repr

/-- Whether the file handle of the store was closed. -/
def store.closed (s : store) : Bool := s.handle != Handle.live

/-- The function `newStore`: a store for a file with the given content. -/
def newStore (f : Bytes) : store :=
  { file := f, buf := [], size := f.length % u64, handle := Handle.live }

/-- The call `s.buf.Flush()` on an open file. -/
def store.flush (s : store) : store :=
  { s with file := s.file ++ s.buf, buf := [] }

/-- The call `s.buf.Flush()` once the file is closed: with no buffered byte
and no error the call does nothing and succeeds; otherwise the write to the
closed file fails, or has failed before, the bytes stay in the buffer and the
writer holds the error. -/
def store.flushClosed (s : store) : store :=
  if s.buf = [] then s else { s with handle := Handle.failed }

/-- The call `buf.Write(p)` of a `bufio.Writer` of the default size that holds
no error, over a closed file: the new buffered bytes and whether the call
failed. Bytes that fit the free room of the buffer are taken; otherwise a
buffer that holds bytes is filled up and the write of the buffer to the file
fails, and a payload larger than the empty buffer is written to the file
directly, which fails. -/
def bufioWriteClosed (buf p : Bytes) : Bytes × Bool :=
  if p.length ≤ defaultBufSize - buf.length then (buf ++ p, false)
  else if buf.length = 0 then (buf, true)
  else (buf ++ p.take (defaultBufSize - buf.length), true)

/-- The method `store.Append`: the new store, `n`, `pos` and the error.
The method does not look at the file handle: on a closed store the two writes
go to the buffer of the writer and succeed while they fit it; the first write
that has to reach the file fails, and so does every later one. -/
def store.Append (s : store) (p : Bytes) : store × Nat × Nat × Option Err :=
  if s.closed then
    if s.handle = Handle.failed then (s, 0, 0, some Err.closed)
    else
      -- binary.Write(s.buf, enc, uint64(len(p)))
      let w1 := bufioWriteClosed s.buf (putUint64 p.length)
      if w1.2 then ({ s with buf := w1.1, handle := Handle.failed }, 0, 0, some Err.closed)
      else
        -- w, writeErr := s.buf.Write(p)
        let w2 := bufioWriteClosed w1.1 p
        if w2.2 then ({ s with buf := w2.1, handle := Handle.failed }, 0, 0, some Err.closed)
        else
          let n := (p.length + lenWidth) % u64
          ({ s with buf := w2.1, size := (s.size + n) % u64 }, n, s.size, none)
  else
    let pos := s.size
    -- binary.Write(s.buf, enc, uint64(len(p)))
    let w1 := bufioWrite s.file s.buf (putUint64 p.length)
    -- w, writeErr := s.buf.Write(p)
    let w2 := bufioWrite w1.1 w1.2 p
    -- w += lenWidth; n = uint64(w); s.size += n
    let n := (p.length + lenWidth) % u64
    ({ s with file := w2.1, buf := w2.2, size := (s.size + n) % u64 }, n, pos, none)

/-- The method `store.Read`: the new store (the buffer is flushed) and the
bytes of the record at `pos`, or the error. On a closed store the flush or,
with an empty buffer, the read of the eight length bytes fails. A length that
the file does not hold ends in `io.EOF`; whether the machine can allocate a
slice of that length is, like the other failures of the operating system, not
modelled. -/
def store.Read (s : store) (pos : Nat) : store × Except Err Bytes :=
  if s.closed then
    let s1 := s.flushClosed
    if s1.handle = Handle.failed then (s1, .error Err.closed)
    else
      match closedReadAt lenWidth (toInt64 pos) with
      | (_, some e) => (s1, .error e)
      | (_, none) => (s1, .error Err.closed)
  else
    let s1 := s.flush
    match fileReadAt s1.file lenWidth (toInt64 pos) with
    | (_, some e) => (s1, .error e)
    | (size, none) =>
      -- make([]byte, enc.Uint64(size)): a slice holds fewer than 2^63 bytes
      if 2 ^ 63 ≤ uint64Of size then (s1, .error Err.fault)
      else
        match fileReadAt s1.file (uint64Of size) (toInt64 ((pos + lenWidth) % u64)) with
        | (_, some e) => (s1, .error e)
        | (b, none) => (s1, .ok b)

/-- The method `store.ReadAt` for a destination of `n` bytes: the new store,
the bytes copied into the destination and the error. On a closed store the
flush fails when the buffer holds bytes or the writer holds an error;
otherwise the read goes to the closed file. -/
def store.ReadAt (s : store) (n : Nat) (offset : Int) : store × Bytes × Option Err :=
  if s.closed then
    let s1 := s.flushClosed
    if s1.handle = Handle.failed then (s1, [], some Err.closed)
    else
      let r := closedReadAt n offset
      (s1, r.1, r.2)
  else
    let s1 := s.flush
    let r := fileReadAt s1.file n offset
    (s1, r.1, r.2)

/-- The method `store.Close`: the buffer is flushed and the file closed; the
field `file` of the result is the final content of the backing file. On a
closed store the flush or, with an empty buffer, the second close of the file
fails. -/
def store.Close (s : store) : store × Option Err :=
  if s.closed then (s.flushClosed, some Err.closed)
  else ({ s.flush with handle := Handle.shut }, none)

/-! ## index.go -/

/-- The variable `offWidth`: entry offsets take four bytes. -/
def offWidth : Nat := 4

/-- The variable `posWidth`: entry positions take eight bytes. -/
def posWidth : Nat := 8

/-- The variable `entWidth`: the width of an index entry. -/
def entWidth : Nat := offWidth + posWidth

/-- The type `index`: `mmap` is the mapped region, which is the content of the
backing file while the index is open, `size` the field `size`, `closed`
whether `Close` has run. `Close` does not unmap the region: `Read` and `Write`
work on it afterwards as they do before (a signal of the operating system for
a mapped page that lies beyond the end of the file once `Close` has cut it is
not modelled). -/
structure index where
  mmap : Bytes
  size : Nat
  closed : Bool
  deriving DecidableEq, Repr

/-- The function `newIndex` for a file with content `f`: the size is the
length of the file, the file is resized to `MaxIndexBytes` and mapped as a
whole. Resizing to a negative length and mapping an empty file both fail. -/
def newIndex (f : Bytes) (c : Config) : Except Err index :=
  let size := f.length % u64
  if toInt64 c.Segment.MaxIndexBytes < 0 then .error Err.invalidArgument
  else
    let grown := fileTruncate f (toInt64 c.Segment.MaxIndexBytes).toNat
    if grown.length = 0 then .error Err.invalidArgument
    else .ok { mmap := grown, size := size, closed := false }

/-- The method `index.Read`: the relative offset and the position stored in
entry `in`, or in the last entry when `in` is `-1`. A slice expression beyond
the mapped region makes the program panic. -/
def index.Read (i : index) (inp : Int) : Except Err (Nat × Nat) :=
  if i.size = 0 then .error Err.EOF
  else
    let out := if inp = -1 then ((i.size / entWidth + u64 - 1) % u64) % u32 else toUint32 inp
    let pos := out * entWidth
    if i.size < pos + entWidth then .error Err.EOF
    else if i.mmap.length < pos + entWidth then .error Err.fault
    else
      .ok (uint32Of (slice i.mmap pos (pos + offWidth)),
           uint64Of (slice i.mmap (pos + offWidth) (pos + entWidth)))

/-- The method `index.Write`: the new index and the error. A slice expression
beyond the mapped region, which needs a size that wraps around, makes the
program panic. -/
def index.Write (i : index) (off pos : Nat) : index × Option Err :=
  if i.mmap.length < (i.size + entWidth) % u64 then (i, some Err.EOF)
  else if i.mmap.length < i.size + entWidth then (i, some Err.fault)
  else
    let m1 := overwrite i.mmap i.size (putUint32 off)
    let m2 := overwrite m1 (i.size + offWidth) (putUint64 pos)
    ({ i with mmap := m2, size := (i.size + entWidth) % u64 }, none)

/-- The method `index.Close`: the new index, the final content of the backing
file (the mapped bytes, resized to `size`) and the error. On a closed index
the synchronisation of the closed file fails. -/
def index.Close (i : index) : index × Bytes × Option Err :=
  if i.closed then (i, [], some Err.closed)
  else if toInt64 i.size < 0 then (i, i.mmap, some Err.invalidArgument)
  else ({ i with closed := true }, fileTruncate i.mmap i.size, none)

/-! ## The directory of the log -/

/-- The directory `l.Dir`: the names of its files, each with its content.
While a file is open, what is written to it lives in the store or index that
opened it, and the directory keeps the content that the file had when it was
opened, for an index file after `newIndex` resized it; the writes of an open
store or index are not seen by another one that opens the same file. -/
abbrev Dir := List (String × Bytes)

/-- The call `os.OpenFile(name, os.O_RDWR|os.O_CREATE, 0644)`: the directory,
where the file now exists, and the content of the file. -/
def openCreate (dir : Dir) (name : String) : Dir × Bytes :=
  match dir.lookup name with
  | some f => (dir, f)
  | none => (dir ++ [(name, [])], [])

/-- The directory once the file `name`, which stays where it is in the
listing, holds the content `f`. -/
def setFile (dir : Dir) (name : String) (f : Bytes) : Dir :=
  dir.map (fun e => if e.1 = name then (e.1, f) else e)

/-- The content of an index file with content `f` once `newIndex` has run:
`os.Truncate` resizes the file to `MaxIndexBytes`, unless it refuses that
length as negative. -/
def resizedIndexFile (f : Bytes) (c : Config) : Bytes :=
  if toInt64 c.Segment.MaxIndexBytes < 0 then f
  else fileTruncate f (toInt64 c.Segment.MaxIndexBytes).toNat

/-- The call `os.Remove(name)`. -/
def removeFile (dir : Dir) (name : String) : Dir × Option Err :=
  match dir.lookup name with
  | some _ => (dir.filter (fun e => e.1 != name), none)
  | none => (dir, some Err.notExist)

/-- The name `fmt.Sprintf("%d%s", baseOffset, ".store")` of the store file. -/
def storeName (baseOffset : Nat) : String := Nat.repr baseOffset ++ ".store"

/-- The name `fmt.Sprintf("%d%s", baseOffset, ".index")` of the index file. -/
def indexName (baseOffset : Nat) : String := Nat.repr baseOffset ++ ".index"

/-! ## segment.go -/

/-- The type `segment`. -/
structure segment where
  store : store
  index : index
  baseOffset : Nat
  nextOffset : Nat
  config : Config
  deriving DecidableEq, Repr

/-- The function `newSegment` of `segment.go`: the directory afterwards (the
two files exist and the index file is resized) and the segment or the error.
Every error that `index.Read(-1)` returns is taken as an empty index; a panic
of `index.Read`, on an index file that is longer than the mapped region, ends
the call. -/
def newSegment (dir : Dir) (baseOffset : Nat) (c : Config) : Dir × Except Err segment :=
  let o1 := openCreate dir (storeName baseOffset)
  let st := newStore o1.2
  let o2 := openCreate o1.1 (indexName baseOffset)
  let d := setFile o2.1 (indexName baseOffset) (resizedIndexFile o2.2 c)
  match newIndex o2.2 c with
  | .error e => (d, .error e)
  | .ok idx =>
    -- off, _, err := s.index.Read(-1)
    match idx.Read (-1) with
    | .error Err.fault => (d, .error Err.fault)
    | .error _ =>
      (d, .ok { store := st, index := idx, baseOffset := baseOffset,
                nextOffset := baseOffset, config := c })
    | .ok (off, _) =>
      (d, .ok { store := st, index := idx, baseOffset := baseOffset,
                nextOffset := (baseOffset + off + 1) % u64, config := c })

/-- The method `segment.Append`: the new segment, the offset and the error. -/
def segment.Append (cd : Codec) (s : segment) (record : Record) : segment × Nat × Option Err :=
  let cur := s.nextOffset
  -- record.Offset = cur; p, err := json.Marshal(record)
  match cd.Marshal { record with Offset := cur } with
  | none => (s, 0, some Err.codec)
  | some p =>
    match s.store.Append p with
    | (st, _, _, some e) => ({ s with store := st }, 0, some e)
    | (st, _, pos, none) =>
      let relativeOffset := ((s.nextOffset + u64 - s.baseOffset) % u64) % u32
      match s.index.Write relativeOffset pos with
      | (idx, some e) => ({ s with store := st, index := idx }, 0, some e)
      | (idx, none) =>
        ({ s with store := st, index := idx, nextOffset := (s.nextOffset + 1) % u64 }, cur, none)

/-- The method `segment.Read`: the new segment (the store buffer is flushed)
and the record or the error. -/
def segment.Read (cd : Codec) (s : segment) (off : Nat) : segment × Except Err Record :=
  let relativeOffset := toInt64 ((off + u64 - s.baseOffset) % u64)
  match s.index.Read relativeOffset with
  | .error e => (s, .error e)
  | .ok (_, pos) =>
    match s.store.Read pos with
    | (st, .error e) => ({ s with store := st }, .error e)
    | (st, .ok p) =>
      match cd.Unmarshal p with
      | none => ({ s with store := st }, .error Err.codec)
      | some record => ({ s with store := st }, .ok record)

/-- The method `segment.IsMaxed`. -/
def segment.IsMaxed (s : segment) : Bool :=
  let storeSize := s.store.size
  let maxStoreBytes := s.config.Segment.MaxStoreBytes
  let indexSize := s.index.size
  let maxIndexBytes := s.config.Segment.MaxIndexBytes
  decide (storeSize ≥ maxStoreBytes) || decide (indexSize ≥ maxIndexBytes)

/-- The method `segment.Close`: the index is closed, then the store. -/
def segment.Close (s : segment) : segment × Option Err :=
  match s.index.Close with
  | (idx, _, some e) => ({ s with index := idx }, some e)
  | (idx, _, none) =>
    match s.store.Close with
    | (st, some e) => ({ s with index := idx, store := st }, some e)
    | (st, none) => ({ s with index := idx, store := st }, none)

/-- The method `segment.Remove`: the segment is closed and its two files are
removed from the directory. -/
def segment.Remove (dir : Dir) (s : segment) : Dir × segment × Option Err :=
  match s.Close with
  | (s1, some e) => (dir, s1, some e)
  | (s1, none) =>
    match removeFile dir (indexName s.baseOffset) with
    | (d1, some e) => (d1, s1, some e)
    | (d1, none) =>
      match removeFile d1 (storeName s.baseOffset) with
      | (d2, some e) => (d2, s1, some e)
      | (d2, none) => (d2, s1, none)

/-! ## log.go -/

/-- The call `path.Ext(name)` on the characters of a name, given in reverse
order: the number of characters of the extension (the final dot included), or
zero when the last path element has no dot. -/
def extLength : List Char → Nat → Nat
  | [], _ => 0
  | c :: rest, n =>
    if c = '/' then 0 else if c = '.' then n + 1 else extLength rest (n + 1)

/-- The expression `strings.TrimSuffix(name, path.Ext(name))`. -/
def trimExt (name : String) : List Char :=
  name.data.take (name.data.length - extLength name.data.reverse 0)

/-- The loop of `strconv.ParseUint(s, 10, 0)` over the characters that remain,
with the value `n` read so far; the result is the first result of the call: zero
on a character that is not a digit, the largest value once the number leaves
the 64 bit range. -/
def parseUintLoop : List Char → Nat → Nat
  | [], n => n
  | c :: rest, n =>
    if '0' ≤ c ∧ c ≤ '9' then
      let d := c.toNat - '0'.toNat
      if n ≥ (u64 - 1) / 10 + 1 then u64 - 1
      else if n * 10 + d > u64 - 1 then u64 - 1
      else parseUintLoop rest (n * 10 + d)
    else 0

/-- The expression `off, _ := strconv.ParseUint(offStr, 10, 0)`: the value, with
the error dropped. -/
def parseUint (s : List Char) : Nat := parseUintLoop s 0

/-- Insertion of a value into an ascending list. -/
def insertSorted (x : Nat) : List Nat → List Nat
  | [] => [x]
  | y :: ys => if x ≤ y then x :: y :: ys else y :: insertSorted x ys

/-- The call `sort.Slice(baseOffsets, less)` with `less` the order of the
numbers: the ascending rearrangement. -/
def sortOffsets : List Nat → List Nat
  | [] => []
  | x :: xs => insertSorted x (sortOffsets xs)

/-- The type `Log`. The segment objects live in `heap`; a pointer to a segment
is its position in `heap`. `dir` is the content of the directory `l.Dir`. -/
structure Log where
  dir : Dir
  Config : Config
  heap : List segment
  activeSegment : Option Nat
  segments : List Nat
  deriving DecidableEq, Repr

/-- The method `Log.newSegment`. -/
def Log.newSegment (l : Log) (off : Nat) : Log × Option Err :=
  match CommitLog.newSegment l.dir off l.Config with
  | (d, .error e) => ({ l with dir := d }, some e)
  | (d, .ok s) =>
    ({ l with dir := d, heap := l.heap ++ [s], segments := l.segments ++ [l.heap.length],
              activeSegment := some l.heap.length }, none)

/-- The loop of `setup` over the sorted base offsets: a segment for the first
of every two, since the loop body advances the position a second time. -/
def Log.setupLoop (l : Log) : List Nat → Log × Option Err
  | [] => (l, none)
  | [b] => l.newSegment b
  | b :: _ :: rest =>
    match l.newSegment b with
    | (l1, some e) => (l1, some e)
    | (l1, none) => Log.setupLoop l1 rest

/-- The method `Log.setup`. -/
def Log.setup (l : Log) : Log × Option Err :=
  let baseOffsets := sortOffsets (l.dir.map (fun file => parseUint (trimExt file.1)))
  match l.setupLoop baseOffsets with
  | (l1, some e) => (l1, some e)
  | (l1, none) =>
    if l1.segments = [] then l1.newSegment l1.Config.Segment.InitialOffset
    else (l1, none)

/-- The function `NewLog` on a directory with content `dir`. -/
def NewLog (dir : Dir) (c : Config) : Log × Option Err :=
  let c1 : Config :=
    if c.Segment.MaxStoreBytes = 0 then { c with Segment := { c.Segment with MaxStoreBytes := 1024 } }
    else c
  let c2 : Config :=
    if c1.Segment.MaxIndexBytes = 0 then { c1 with Segment := { c1.Segment with MaxIndexBytes := 1024 } }
    else c1
  Log.setup { dir := dir, Config := c2, heap := [], activeSegment := none, segments := [] }

/-- The method `Log.Append`: the new log, the offset and the error. -/
def Log.Append (cd : Codec) (l : Log) (record : Record) : Log × Nat × Option Err :=
  match l.activeSegment with
  | none => (l, 0, some Err.fault)
  | some a =>
    match l.heap.get? a with
    | none => (l, 0, some Err.fault)
    | some seg =>
      match seg.Append cd record with
      | (seg1, _, some e) => ({ l with heap := l.heap.set a seg1 }, 0, some e)
      | (seg1, off, none) =>
        let l1 := { l with heap := l.heap.set a seg1 }
        if seg1.IsMaxed then
          match l1.newSegment ((off + 1) % u64) with
          | (l2, err) => (l2, off, err)
        else (l1, off, none)

/-- The loop of `Log.Read`: the first segment of the list whose range holds `off`. -/
def Log.findSegment (l : Log) (off : Nat) : List Nat → Option (Nat × segment)
  | [] => none
  | p :: rest =>
    match l.heap.get? p with
    | none => Log.findSegment l off rest
    | some seg =>
      if seg.baseOffset ≤ off ∧ off < seg.nextOffset then some (p, seg)
      else Log.findSegment l off rest

/-- The method `Log.Read`: the new log and the record or the error. -/
def Log.Read (cd : Codec) (l : Log) (off : Nat) : Log × Except Err Record :=
  match l.findSegment off l.segments with
  | none => (l, .error (Err.offsetOutOfRange off))
  | some (p, s) =>
    if s.nextOffset ≤ off then (l, .error (Err.offsetOutOfRange off))
    else
      match s.Read cd off with
      | (s1, r) => ({ l with heap := l.heap.set p s1 }, r)

/-- The method `Log.LowestOffset`; an empty segment list makes the program panic. -/
def Log.LowestOffset (l : Log) : Except Err Nat :=
  match l.segments.head? with
  | none => .error Err.fault
  | some p =>
    match l.heap.get? p with
    | none => .error Err.fault
    | some seg => .ok seg.baseOffset

/-- The method `Log.HighestOffset`; an empty segment list makes the program panic. -/
def Log.HighestOffset (l : Log) : Except Err Nat :=
  match l.segments.getLast? with
  | none => .error Err.fault
  | some p =>
    match l.heap.get? p with
    | none => .error Err.fault
    | some seg =>
      let off := seg.nextOffset
      if off = 0 then .ok 0 else .ok (off - 1)

/-- The loop of `Log.Truncate` over the segments that remain to visit, with the
pointers kept so far: the log (directory and segment objects) after the loop,
and the kept pointers or the error that ended the loop. -/
def Log.truncateLoop (lowest : Nat) (l : Log) : List Nat → List Nat → Log × Except Err (List Nat)
  | [], kept => (l, .ok kept)
  | p :: rest, kept =>
    match l.heap.get? p with
    | none => (l, .error Err.fault)
    | some s =>
      if s.nextOffset ≤ (lowest + 1) % u64 then
        match s.Remove l.dir with
        | (d, s1, some e) => ({ l with dir := d, heap := l.heap.set p s1 }, .error e)
        | (d, s1, none) =>
          Log.truncateLoop lowest { l with dir := d, heap := l.heap.set p s1 } rest kept
      else Log.truncateLoop lowest l rest (kept ++ [p])

/-- The method `Log.Truncate`. -/
def Log.Truncate (l : Log) (lowest : Nat) : Log × Option Err :=
  match l.truncateLoop lowest l.segments [] with
  | (l1, .error e) => (l1, some e)
  | (l1, .ok segments) => ({ l1 with segments := segments }, none)

/-! ## Test drivers -/

/-- The logical content of a store: the file followed by the buffered bytes. -/
def store.content (s : store) : Bytes := s.file ++ s.buf

/-- Successive `Append` calls, one per payload, as the loop of `testAppend`
does: the final store and the results `(n, pos, err)` of the calls in order. -/
def store.appendAll (s : store) : List Bytes → store × List (Nat × Nat × Option Err)
  | [] => (s, [])
  | p :: ps =>
    let r := s.Append p
    let rs := store.appendAll r.1 ps
    (rs.1, r.2 :: rs.2)

/-- The number of bytes that the frames of the payloads take in a store. -/
def framedLength (ps : List Bytes) : Nat := (ps.map (fun p => lenWidth + p.length)).sum

/-- A frame of payload `p` starts at byte `pos` of the content `c`. -/
def FrameAt (c : Bytes) (pos : Nat) (p : Bytes) : Prop :=
  pos ≤ c.length ∧ (putUint64 p.length ++ p) <+: c.drop pos


/-- Value of a string of decimal digits. -/
def digitsVal (cs : List Char) : Nat := cs.foldl (fun acc c => acc * 10 + (c.toNat - 48)) 0

/-- An index entry with relative offset `off` and position `pos` is stored as
entry number `k` of the mapped bytes `m`. -/
def EntryAt (m : Bytes) (k off pos : Nat) : Prop :=
  (m.drop (entWidth * k)).take entWidth = putUint32 off ++ putUint64 pos

/-- The offset range of a segment: its base offset and its next offset. -/
def segment.range (s : segment) : Nat × Nat := (s.baseOffset, s.nextOffset)

/-- Whether both files of a segment are open. -/
def segment.isOpen (s : segment) : Prop := s.store.closed = false ∧ s.index.closed = false

instance (s : segment) : Decidable s.isOpen := by
  unfold segment.isOpen
  infer_instance

/-- A call on the log, for the description of the runs of the program. -/
inductive Op where
  | append (record : Record)
  | read (off : Nat)
  | truncate (lowest : Nat)
  deriving DecidableEq, Repr

/-- One call of a run: the log after the call and, for an `Append` that
returned no error, the offset it returned with the record it was given. -/
def Log.step (cd : Codec) (l : Log) : Op → Log × List (Nat × Record)
  | .append r =>
    match l.Append cd r with
    | (l1, off, none) => (l1, [(off, r)])
    | (l1, _, some _) => (l1, [])
  | .read off => ((l.Read cd off).1, [])
  | .truncate lowest => ((l.Truncate lowest).1, [])

/-- A run of calls on the log, in order: the log after the run and the list
of the offsets returned by the successful `Append` calls, in order, each with
the record that was appended. -/
def Log.run (cd : Codec) (l : Log) : List Op → Log × List (Nat × Record)
  | [] => (l, [])
  | op :: ops =>
    let r := l.step cd op
    let rs := Log.run cd r.1 ops
    (rs.1, r.2 ++ rs.2)

/-- The offset `off` lies in the range of a segment of the segment list. -/
def Log.Holds (l : Log) (off : Nat) : Prop :=
  ∃ p ∈ l.segments, ∃ s ∈ l.heap[p]?, s.baseOffset ≤ off ∧ off < s.nextOffset

instance (l : Log) (off : Nat) : Decidable (l.Holds off) := by
  unfold Log.Holds
  infer_instance

/-- Consecutive non-empty offset ranges that lead from offset `a` to offset `b`. -/
def FullChain : List (Nat × Nat) → Nat → Nat → Prop
  | [], a, b => a = b
  | r :: rest, a, b => r.1 = a ∧ a < r.2 ∧ FullChain rest r.2 b

/-- Every file of the directory is a store or index file of a base offset
that is at most `B`. -/
def DirBelow (dir : Dir) (B : Nat) : Prop :=
  ∀ e ∈ dir, ∃ b, b ≤ B ∧ (e.1 = storeName b ∨ e.1 = indexName b)


/-- The length of the mapped region of an index opened under the configuration. -/
def mapLen (c : Config) : Nat := (toInt64 c.Segment.MaxIndexBytes).toNat

/-- The index file can be resized and mapped under the configuration: the
maximum index size, as a signed number, is positive. -/
def Mappable (c : Config) : Prop :=
  0 ≤ toInt64 c.Segment.MaxIndexBytes ∧ mapLen c ≠ 0

/-- The content of a segment agrees with the acknowledged appends `acks` of a
log whose first offset is `o`: the size fields are those of the content, and
for every offset of the range of the segment the index entry of the offset
holds the position of the frame of the record appended at that offset. -/
structure SegOK (cd : Codec) (o : Nat) (acks : List (Nat × Record)) (s : segment) : Prop where
  storeSize : s.store.size = s.store.content.length % u64
  indexSize : s.index.size = entWidth * (s.nextOffset - s.baseOffset)
  indexCap : s.index.size ≤ s.index.mmap.length
  mapCap : s.index.mmap.length < 2 ^ 63
  records : ∀ off, s.baseOffset ≤ off → off < s.nextOffset →
    ∃ r p pos, acks[off - o]? = some (off, r) ∧ cd.Marshal { r with Offset := off } = some p ∧
      EntryAt s.index.mmap (off - s.baseOffset) ((off - s.baseOffset) % u32) (pos % u64) ∧
      FrameAt s.store.content pos p

/-- The segment that `newSegment` builds on two files that did not exist. -/
def freshSegment (b : Nat) (c : Config) : segment :=
  { store := newStore [],
    index := { mmap := List.replicate (mapLen c) 0, size := 0, closed := false },
    baseOffset := b, nextOffset := b, config := c }

/-- The invariant of a log that was created on an empty directory with first
offset `o` and has acknowledged the appends `acks`: the ranges of the segment
objects follow one another from `o` to `o + len(acks)`, all but the last one
non-empty; the active segment is the last object; the offsets acknowledged
are `o, o + 1, ...`; every file of the directory is named after a base offset
that is at most the last base offset; the content of every segment whose
files are open agrees with `acks`; and no file of the directory is longer
than the mapped region of an index. -/
structure Log.Inv (cd : Codec) (o : Nat) (l : Log) (acks : List (Nat × Record)) : Prop where
  shape : ∃ rinit lb, l.heap.map segment.range = rinit ++ [(lb, o + acks.length)] ∧
    FullChain rinit o lb ∧ lb ≤ o + acks.length ∧ DirBelow l.dir lb
  active : l.activeSegment = some (l.heap.length - 1)
  offsets : acks.map Prod.fst = List.range' o acks.length
  config : ∀ s ∈ l.heap, s.config = l.Config
  mappable : Mappable l.Config
  content : ∀ s ∈ l.heap, s.isOpen → SegOK cd o acks s
  sized : ∀ e ∈ l.dir, e.2.length ≤ mapLen l.Config

/-- The segment `s1` is `s` or `s` with a file closed. -/
def Closing (s s1 : segment) : Prop :=
  s1 = s ∨ (¬ s1.isOpen ∧ s1.range = s.range ∧ s1.config = s.config)


/-- A configuration for the examples: the store threshold of one byte makes
the log rotate after every append; the index holds two entries; the first
offset is 5. -/
def rotatingConfig : Config := ⟨⟨1, 24, 5⟩⟩

/-- Whether `Truncate(lowest)` keeps the segment at pointer `p`: its next
offset is above `lowest + 1`, computed in 64 bits as the program does. -/
def Log.keeps (l : Log) (lowest : Nat) (p : Nat) : Bool :=
  match l.heap[p]? with
  | some s => decide ((lowest + 1) % u64 < s.nextOffset)
  | none => false

/-- A configuration for the examples: the log rotates after every append and
starts at offset 0. -/
def rotatingConfig0 : Config := ⟨⟨1, 24, 0⟩⟩

/-- The log of the examples after three appends, one record per segment:
segments with ranges `[0,1)`, `[1,2)`, `[2,3)` and the empty active segment
at offset 3. -/
def threeSegments : Log :=
  ((NewLog [] rotatingConfig0).1.run plainCodec
    [.append ⟨[10], 0⟩, .append ⟨[11], 0⟩, .append ⟨[12], 0⟩]).1

/-- A directory that holds an empty index file of base offset 0 and an index
file of base offset 1 with one entry (twelve zero bytes): the entry has
relative offset 0. -/
def strayIndexDir : Dir := [("0.index", []), ("1.index", List.replicate 12 0)]

/-- Whether an error is the offset out of range error of `Log.Read`. -/
def Err.isRange : Err → Bool
  | .offsetOutOfRange _ => true
  | _ => false

/-- Whether a call is a `Truncate`. -/
def Op.isTruncate : Op → Bool
  | .truncate _ => true
  | _ => false

/-- Every segment of the segment list is open and its two files are in the
directory, and no pointer occurs twice in the list. -/
structure Log.Live (l : Log) : Prop where
  live : ∀ p ∈ l.segments, ∃ s, l.heap[p]? = some s ∧ s.isOpen ∧
    (l.dir.lookup (indexName s.baseOffset)).isSome ∧
    (l.dir.lookup (storeName s.baseOffset)).isSome
  nodup : l.segments.Nodup

/-- A configuration whose thresholds of `2^40` bytes let one segment take
more than `2^32` small records. -/
def bigConfig : Config := ⟨⟨2 ^ 40, 2 ^ 40, 0⟩⟩

/-- One record of value `[1]` followed by `n` records of empty value. -/
def recordsOf (n : Nat) : List Record := ⟨[1], 0⟩ :: List.replicate n ⟨[], 0⟩

/-- The records of the long run: one record of value `[1]`, then `2^32`
records of empty value. -/
def manyRecords : List Record := recordsOf (2 ^ 32)

/-- The number of bytes that the frames of the records take in a store under
the codec of the examples: eight bytes of length, eight bytes of offset and
the value. -/
def plainWeight (rs : List Record) : Nat := (rs.map (fun r => 16 + r.Value.length)).sum

/-- The log that `NewLog` builds on an empty directory under a configuration
whose size thresholds are set. -/
def emptyDirLog (c : Config) : Log :=
  { dir := [(storeName c.Segment.InitialOffset, []),
      (indexName c.Segment.InitialOffset, List.replicate (mapLen c) 0)],
    Config := c, heap := [freshSegment c.Segment.InitialOffset c],
    activeSegment := some 0, segments := [0] }

/-! ## log.go: the reader of the whole log -/

/-- The addition `a + b` of two `int64` values, with wrap-around. -/
def addInt64 (a b : Int) : Int := (a + b + 2 ^ 63) % 2 ^ 64 - 2 ^ 63

/-- The type `originReader`. The field `store` is the pointer of the segment
whose store the reader wraps: a segment keeps the store it was built with.
The field `off` is the position of the next read. -/
structure originReader where
  store : Nat
  off : Int
  deriving DecidableEq, Repr

/-- The method `originReader.Read` for a buffer of `n` bytes: the new heap
(the read flushes the buffer of the store), the new reader, the bytes read
and the error. -/
def originReader.Read (heap : List segment) (o : originReader) (n : Nat) :
    List segment × originReader × Bytes × Option Err :=
  match heap.get? o.store with
  | none => (heap, o, [], some Err.fault)
  | some seg =>
    match seg.store.ReadAt n o.off with
    | (st, bs, err) =>
      (heap.set o.store { seg with store := st },
        { o with off := addInt64 o.off (bs.length : Int) }, bs, err)

/-- The method `Log.Reader`: the readers that `io.MultiReader` is given, one
per segment of the list, each at position 0 of the store. -/
def Log.Reader (l : Log) : List originReader :=
  l.segments.map (fun p => { store := p, off := 0 })

/-- The method `Read` of the reader that `io.MultiReader` builds, for a buffer
of `n` bytes, on the readers that remain: the new heap, the readers that
remain afterwards, the bytes read and the error. A reader that reports
`io.EOF` is dropped; the call goes on to the next reader when it got no
byte, and reports `io.EOF` itself only when no reader remains. -/
def multiRead (heap : List segment) :
    List originReader → Nat → List segment × List originReader × Bytes × Option Err
  | [], _ => (heap, [], [], some Err.EOF)
  | r :: rest, n =>
    match r.Read heap n with
    | (heap1, r1, bs, err) =>
      if err = some Err.EOF then
        if 0 < bs.length then (heap1, rest, bs, if rest.isEmpty then some Err.EOF else none)
        else multiRead heap1 rest n
      else (heap1, r1 :: rest, bs, err)

/-- Reading a stream to its end, as `io.ReadAll` and `io.Copy` do: one call
of `Read` per buffer size of `ks`, in order, until a call reports an error;
`io.EOF` ends the stream and is not reported. The result is the new heap,
the bytes read and the error, or `none` when the calls of `ks` do not reach
the end of the stream. -/
def readToEnd (heap : List segment) (rs : List originReader) :
    List Nat → Option (List segment × Bytes × Option Err)
  | [] => none
  | k :: ks =>
    match multiRead heap rs k with
    | (heap1, rs1, bs, err) =>
      if err = some Err.EOF then some (heap1, bs, none)
      else if err.isSome then some (heap1, bs, err)
      else
        match readToEnd heap1 rs1 ks with
        | none => none
        | some (heap2, bs2, err2) => some (heap2, bs ++ bs2, err2)

/-- What a read of a store depends on and leaves as it is: the logical
content and whether the file is closed. -/
def storeView (s : segment) : Bytes × Bool := (s.store.content, s.store.closed)

/-- The store contents of the segments of the list, in list order, one after
the other. -/
def Log.storeContents (l : Log) : Bytes :=
  l.segments.flatMap (fun p => ((l.heap[p]?).map (fun s => s.store.content)).getD [])

/-- The frame of an appended record in a store: the length of the encoded
record, in eight bytes, and the encoded record, which carries the offset
that the append assigned. -/
def frameOf (cd : Codec) (a : Nat × Record) : Bytes :=
  match cd.Marshal { a.2 with Offset := a.1 } with
  | some p => putUint64 p.length ++ p
  | none => []

/-- The frames of the appended records, in order. -/
def framesOf (cd : Codec) (acks : List (Nat × Record)) : Bytes := acks.flatMap (frameOf cd)

/-- The bytes that a reader still has to deliver, given the views of the
stores of the heap. -/
def originReader.rest (v : List (Bytes × Bool)) (r : originReader) : Bytes :=
  (((v[r.store]?).map Prod.fst).getD []).drop r.off.toNat

/-- A reader over an open store of fewer than `2^63` bytes, at a position
inside the store. -/
def originReader.Valid (v : List (Bytes × Bool)) (r : originReader) : Prop :=
  ∃ x ∈ v[r.store]?, x.2 = false ∧ x.1.length < 2 ^ 63 ∧ 0 ≤ r.off ∧ r.off.toNat ≤ x.1.length

/-- The reader `r` after it delivered `k` bytes. -/
def originReader.advance (r : originReader) (k : Nat) : originReader :=
  { r with off := r.off + (k : Int) }

/-- The base offsets of the segments of the list, in list order. -/
def Log.bases (l : Log) : List Nat :=
  l.segments.map (fun p => ((l.heap[p]?).map segment.baseOffset).getD 0)

/-! ## Drivers for the store and the index -/

/-- The frames of the payloads, one after the other: for each payload its
length in eight bytes, most significant first, and the payload. -/
def framed (ps : List Bytes) : Bytes := ps.flatMap (fun p => putUint64 p.length ++ p)

/-- Successive `Write` calls, one per pair of relative offset and position,
as the loop of `TestIndex` does: the final index and the errors of the calls
in order. -/
def index.writeAll (i : index) : List (Nat × Nat) → index × List (Option Err)
  | [] => (i, [])
  | e :: es =>
    let r := i.Write e.1 e.2
    let rs := index.writeAll r.1 es
    (rs.1, r.2 :: rs.2)

/-- The entry number that `index.Read` looks up for the argument `inp`: the
number of whole entries less one for `-1`, the argument otherwise, each as a
`uint32`. -/
def index.slot (i : index) (inp : Int) : Nat :=
  if inp = -1 then ((i.size / entWidth + u64 - 1) % u64) % u32 else toUint32 inp

/-- The state of an open index with a mapped region of `L` bytes to which the
entries `es` were written, in order, since it was opened on an empty file:
the entries fill the first `12 * len(es)` bytes and the rest is zero. -/
structure IndexOK (i : index) (es : List (Nat × Nat)) (L : Nat) : Prop where
  isOpen : i.closed = false
  size : i.size = entWidth * es.length
  cap : i.mmap.length = L
  room : i.size ≤ L
  small : L < 2 ^ 63
  entries : ∀ k e, es[k]? = some e → EntryAt i.mmap k e.1 e.2
  zeros : i.mmap.drop i.size = List.replicate (L - i.size) 0

/-- A configuration for the examples of the index: the mapped region has room
for three entries. -/
def threeEntryConfig : Config := ⟨⟨0, 36, 0⟩⟩

/-- The index that `newIndex` builds on an empty file: the mapped region is
the file grown to the maximum index size, all zero. -/
def emptyIndex (c : Config) : index := ⟨List.replicate (mapLen c) 0, 0, false⟩

/-- One entry `(1, 7)`, then `2^32` entries `(0, 0)`. -/
def manyEntries : List (Nat × Nat) := (1, 7) :: List.replicate (2 ^ 32) (0, 0)

/-- The offset ranges of the segments of the list, in list order. -/
def Log.ranges (l : Log) : List (Nat × Nat) :=
  l.segments.map (fun p => ((l.heap[p]?).map segment.range).getD (0, 0))

/-- The segment list holds the pointers of the last segment objects, in the
order of their creation. -/
def Log.Suffix (l : Log) : Prop :=
  ∃ k, k ≤ l.heap.length ∧ l.segments = (List.range l.heap.length).drop k

/-- The log of the examples after two appends under `threeEntryConfig`: one
segment with range `[0,2)`, which is the active segment. -/
def twoRecords : Log :=
  ((NewLog [] threeEntryConfig).1.run plainCodec [.append ⟨[10], 0⟩, .append ⟨[11], 0⟩]).1

/-- A configuration with the maximum index size 1024, the value that `NewLog`
applies when the field is not set, and a maximum store size of 4096 bytes. -/
def defaultIndexConfig : Config := ⟨⟨4096, 1024, 0⟩⟩

/-- The records of the example of the full index: `n` records of empty value. -/
def emptyRecords (n : Nat) : List Record := List.replicate n ⟨[], 0⟩

/-- Successive `Append` calls on a segment, one per record: the final segment
and the results, offset and error, of the calls in order. -/
def segment.appendAll (cd : Codec) (s : segment) : List Record → segment × List (Nat × Option Err)
  | [] => (s, [])
  | r :: rs =>
    let a := s.Append cd r
    let t := segment.appendAll cd a.1 rs
    (t.1, a.2 :: t.2)

/-- The directory once the file `name` was closed with the content `f`. -/
def writeFile (dir : Dir) (name : String) (f : Bytes) : Dir :=
  (name, f) :: dir.filter (fun e => e.1 != name)

/-- A clean restart of a segment: `Close`, which closes the index and then
the store and leaves the two files with their final contents, followed by
`newSegment` with the same base offset and configuration. -/
def segment.reopen (dir : Dir) (s : segment) : Dir × Except Err segment :=
  match s.index.Close with
  | (_, _, some e) => (dir, .error e)
  | (_, indexFile, none) =>
    match s.store.Close with
    | (_, some e) => (dir, .error e)
    | (st, none) =>
      newSegment
        (writeFile (writeFile dir (storeName s.baseOffset) st.file)
          (indexName s.baseOffset) indexFile)
        s.baseOffset s.config

/-- The relative offset stored in the last whole entry of an index file. -/
def lastRelative (f : Bytes) : Nat :=
  uint32Of (slice f (entWidth * (f.length / entWidth - 1))
    (entWidth * (f.length / entWidth - 1) + offWidth))

/-- The state of a segment that was created on empty files with base offset
`b` and configuration `c` and has taken `k` records since: both files are
open, and the index holds `k` entries, entry `j` with the relative offset `j`
as a 32 bit number. -/
structure SegRun (b : Nat) (c : Config) (s : segment) (k : Nat) : Prop where
  base : s.baseOffset = b
  next : s.nextOffset = b + k
  config : s.config = c
  storeOpen : s.store.closed = false
  idx : ∃ es, IndexOK s.index es (mapLen c) ∧ es.length = k ∧
    ∀ j e, es[j]? = some e → e.1 = j % u32

/-- The elements at the positions 0, 2, 4, ... of a list: the base offsets for
which the loop of `setup` builds a segment. -/
def evens : List Nat → List Nat
  | [] => []
  | [b] => [b]
  | b :: _ :: rest => b :: evens rest

/-- The numeric prefixes of the names of the files of a directory, in the
order of the listing, as `setup` parses them. -/
def Dir.offsets (dir : Dir) : List Nat := dir.map (fun file => parseUint (trimExt file.1))

/-- The argument that `segment.Read` passes to `index.Read` for the offset
`off`: the difference `off - baseOffset` of the 64 bit numbers, as an `int64`. -/
def segment.relative (s : segment) (off : Nat) : Int :=
  toInt64 ((off + u64 - s.baseOffset) % u64)

/-- The state of a segment that was created on empty files with base offset
`b` and has taken the records `done`, in order: both files are open, and the
index and the store hold record number `j` as the record of offset `b + j`. -/
structure SegFull (cd : Codec) (b : Nat) (s : segment) (done : List Record) : Prop where
  base : s.baseOffset = b
  next : s.nextOffset = b + done.length
  isOpen : s.isOpen
  content : ∃ acks : List (Nat × Record), acks.map Prod.fst = List.range' b acks.length ∧
    acks.map Prod.snd = done ∧ SegOK cd b acks s

/-- The segment of the examples: base offset 5, created on empty files, with
the two records of values `[1]` and `[2, 3]` at the offsets 5 and 6. -/
def twoRecordSegment : segment :=
  ((freshSegment 5 threeEntryConfig).appendAll plainCodec [⟨[1], 0⟩, ⟨[2, 3], 0⟩]).1
/-! ## Lemmas: encodings -/

theorem putUint64_length (v : Nat) : (putUint64 v).length = 8 := rfl

theorem putUint32_length (v : Nat) : (putUint32 v).length = 4 := rfl

theorem uint64Of_putUint64 (v : Nat) : uint64Of (putUint64 v) = v % u64 := by
  simp only [uint64Of, beValue, putUint64, byteAt, List.foldl, u64]
  omega

theorem uint32Of_putUint32 (v : Nat) : uint32Of (putUint32 v) = v % u32 := by
  simp only [uint32Of, beValue, putUint32, byteAt, List.foldl, u32]
  omega

theorem toInt64_of_lt {x : Nat} (h : x < 2 ^ 63) : toInt64 x = (x : Int) := by
  unfold toInt64 u64
  have h1 : x % 2 ^ 64 = x := Nat.mod_eq_of_lt (by omega)
  rw [h1, if_pos h]

/-! ## Lemmas: the buffered writer and the file -/

theorem bufioWrite_content (file buf p : Bytes) :
    (bufioWrite file buf p).1 ++ (bufioWrite file buf p).2 = file ++ buf ++ p := by
  unfold bufioWrite
  split
  · simp
  · split
    · rename_i h; simp [List.length_eq_zero.mp h]
    · simp only []
      split
      · simp [List.append_assoc]
      · simp [List.append_assoc]

theorem FrameAt.append {c : Bytes} {pos : Nat} {p : Bytes} (h : FrameAt c pos p) (x : Bytes) :
    FrameAt (c ++ x) pos p := by
  obtain ⟨h1, h2⟩ := h
  refine ⟨by simp; omega, ?_⟩
  rw [List.drop_append_of_le_length h1]
  exact h2.trans (List.prefix_append _ _)

theorem FrameAt.end_le {c : Bytes} {pos : Nat} {p : Bytes} (h : FrameAt c pos p) :
    pos + 8 + p.length ≤ c.length := by
  obtain ⟨h1, h2⟩ := h
  have := h2.length_le
  simp [putUint64_length] at this
  omega

theorem FrameAt.new (c p x : Bytes) : FrameAt (c ++ (putUint64 p.length ++ p) ++ x) c.length p := by
  refine ⟨by simp, ?_⟩
  rw [List.append_assoc, List.drop_left]
  exact List.prefix_append _ _

theorem fileReadAt_header {c : Bytes} {pos : Nat} {p : Bytes} (h : FrameAt c pos p) :
    fileReadAt c 8 (pos : Int) = (putUint64 p.length, none) := by
  obtain ⟨_, t, ht⟩ := h
  unfold fileReadAt
  have h0 : ¬ ((pos : Int) < 0) := by omega
  simp only [h0, if_false, Int.toNat_ofNat]
  rw [← ht]
  simp [List.take_append_eq_append_take, putUint64_length, List.take_of_length_le]

theorem fileReadAt_payload {c : Bytes} {pos : Nat} {p : Bytes} (h : FrameAt c pos p) :
    fileReadAt c p.length ((pos + 8 : Nat) : Int) = (p, none) := by
  obtain ⟨_, t, ht⟩ := h
  unfold fileReadAt
  have h0 : ¬ (((pos + 8 : Nat) : Int) < 0) := by omega
  simp only [h0, if_false, Int.toNat_ofNat]
  by_cases hp : p.length = 0
  · simp [hp, List.length_eq_zero.mp hp]
  · simp only [hp, if_false]
    have hd : List.drop (pos + 8) c = p ++ t := by
      rw [← List.drop_drop, ← ht, List.append_assoc]
      exact List.drop_left' (putUint64_length _)
    rw [hd]
    simp

/-! ## Lemmas: the store -/

theorem store.flush_content (s : store) : s.flush.content = s.content := by
  simp [store.flush, store.content]

theorem store.flush_size (s : store) : s.flush.size = s.size := rfl

theorem store.flush_closed (s : store) : s.flush.closed = s.closed := rfl

theorem store.flush_file (s : store) : s.flush.file = s.content := rfl

theorem store.flushClosed_content (s : store) : s.flushClosed.content = s.content := by
  unfold store.flushClosed
  split <;> rfl

theorem store.flushClosed_size (s : store) : s.flushClosed.size = s.size := by
  unfold store.flushClosed
  split <;> rfl

theorem store.flushClosed_closed {s : store} (h : s.closed = true) :
    s.flushClosed.closed = true := by
  unfold store.flushClosed
  split
  · exact h
  · rfl

theorem store.closed_handle {s t : store} (h : t.handle = s.handle) : t.closed = s.closed := by
  unfold store.closed
  rw [h]

theorem store.Append_open {s : store} (h : s.closed = false) (p : Bytes) :
    (s.Append p).2 = ((p.length + lenWidth) % u64, s.size, none) ∧
    (s.Append p).1.content = s.content ++ (putUint64 p.length ++ p) ∧
    (s.Append p).1.size = (s.size + (p.length + lenWidth) % u64) % u64 ∧
    (s.Append p).1.closed = false := by
  unfold store.Append
  simp only [h, Bool.false_eq_true, if_false, store.content, true_and]
  rw [bufioWrite_content, ← List.append_assoc, bufioWrite_content]
  simp only [List.append_assoc, true_and]
  exact h

/-- A successful `Append`, on an open or on a closed store: the position is
the size before, the count is the length of the frame, the size grows by the
count, and the file handle is in the state it was in. -/
theorem store.Append_result {s s1 : store} {p : Bytes} {n pos : Nat}
    (h : s.Append p = (s1, n, pos, none)) :
    pos = s.size ∧ n = (p.length + lenWidth) % u64 ∧ s1.size = (s.size + n) % u64 ∧
    s1.closed = s.closed := by
  cases hc : s.closed with
  | false =>
    obtain ⟨hr, _, hsize, hopen⟩ := store.Append_open hc p
    rw [h] at hr hsize hopen
    simp only [Prod.mk.injEq, and_true] at hr
    obtain ⟨hn, hpos⟩ := hr
    exact ⟨hpos, hn, by rw [hsize, hn], hopen⟩
  | true =>
    unfold store.Append at h
    simp only [hc, if_true] at h
    split_ifs at h
    · simp at h
    · simp at h
    · simp at h
    · simp only [Prod.mk.injEq, and_true] at h
      obtain ⟨h1, h2, h3⟩ := h
      subst h1 h2 h3
      exact ⟨rfl, rfl, rfl, hc⟩

theorem bufioWriteClosed_ok {buf p : Bytes} (h : (bufioWriteClosed buf p).2 = false) :
    (bufioWriteClosed buf p).1 = buf ++ p := by
  unfold bufioWriteClosed at h ⊢
  split_ifs at h ⊢
  · rfl

/-- A successful `Append`, on an open or on a closed store, adds the frame of
the payload to the logical content. -/
theorem store.Append_frame {s s1 : store} {p : Bytes} {n pos : Nat}
    (h : s.Append p = (s1, n, pos, none)) :
    s1.content = s.content ++ (putUint64 p.length ++ p) := by
  cases hc : s.closed with
  | false =>
    have := (store.Append_open hc p).2.1
    rw [h] at this
    exact this
  | true =>
    unfold store.Append at h
    simp only [hc, if_true] at h
    split_ifs at h with h1 h2 h3
    · simp at h
    · simp at h
    · simp at h
    · simp only [Prod.mk.injEq, and_true] at h
      obtain ⟨e1, _, _⟩ := h
      subst e1
      simp only [Bool.not_eq_true] at h2 h3
      simp only [store.content]
      rw [bufioWriteClosed_ok h3, bufioWriteClosed_ok h2]
      simp

/-- `Append` fails on a closed store only, and leaves the size as it is. -/
theorem store.Append_fail {s s1 : store} {p : Bytes} {n pos : Nat} {e : Err}
    (h : s.Append p = (s1, n, pos, some e)) :
    s.closed = true ∧ s1.closed = true ∧ s1.size = s.size := by
  cases hc : s.closed with
  | false =>
    have := (store.Append_open hc p).1
    rw [h] at this
    simp at this
  | true =>
    unfold store.Append at h
    simp only [hc, if_true] at h
    split_ifs at h
    · simp only [Prod.mk.injEq] at h
      rw [← h.1]
      exact ⟨rfl, hc, rfl⟩
    · simp only [Prod.mk.injEq] at h
      rw [← h.1]
      exact ⟨rfl, rfl, rfl⟩
    · simp only [Prod.mk.injEq] at h
      rw [← h.1]
      exact ⟨rfl, rfl, rfl⟩
    · simp at h

theorem store.Append_closed_eq (s : store) (p : Bytes) : (s.Append p).1.closed = s.closed := by
  generalize h : s.Append p = r
  obtain ⟨s1, n, pos, e⟩ := r
  cases e with
  | none => exact (store.Append_result h).2.2.2
  | some e =>
    obtain ⟨h1, h2, _⟩ := store.Append_fail h
    rw [h1]
    exact h2

theorem store.Read_frame {s : store} {pos : Nat} {p : Bytes} (ho : s.closed = false)
    (hf : FrameAt s.content pos p) (hl : s.content.length < 2 ^ 63) :
    s.Read pos = (s.flush, .ok p) := by
  have hend := hf.end_le
  unfold store.Read
  simp only [ho, Bool.false_eq_true, if_false, store.flush_file, lenWidth]
  rw [toInt64_of_lt (by omega), fileReadAt_header hf]
  simp only [uint64Of_putUint64]
  have h1 : p.length % u64 = p.length := Nat.mod_eq_of_lt (by unfold u64; omega)
  have h2 : (pos + 8) % u64 = pos + 8 := Nat.mod_eq_of_lt (by unfold u64; omega)
  rw [h1, h2, toInt64_of_lt (by omega), fileReadAt_payload hf]
  have h3 : ¬ (2 ^ 63 ≤ p.length) := by omega
  rw [if_neg h3]

theorem store.ReadAt_header {s : store} {pos : Nat} {p : Bytes} (ho : s.closed = false)
    (hf : FrameAt s.content pos p) :
    s.ReadAt 8 (pos : Int) = (s.flush, putUint64 p.length, none) := by
  unfold store.ReadAt
  simp only [ho, Bool.false_eq_true, if_false, store.flush_file, fileReadAt_header hf]

theorem store.ReadAt_payload {s : store} {pos : Nat} {p : Bytes} (ho : s.closed = false)
    (hf : FrameAt s.content pos p) :
    s.ReadAt p.length ((pos + 8 : Nat) : Int) = (s.flush, p, none) := by
  unfold store.ReadAt
  simp only [ho, Bool.false_eq_true, if_false, store.flush_file, fileReadAt_payload hf]

theorem framedLength_nil : framedLength [] = 0 := rfl

theorem framedLength_cons (p : Bytes) (ps : List Bytes) :
    framedLength (p :: ps) = lenWidth + p.length + framedLength ps := by
  simp [framedLength]

theorem framedLength_const {ps : List Bytes} {L : Nat} (h : ∀ p ∈ ps, p.length = L) :
    framedLength ps = ps.length * (L + lenWidth) := by
  induction ps with
  | nil => simp [framedLength]
  | cons p ps ih =>
    have hp : p.length = L := h p (List.mem_cons_self _ _)
    have ih1 := ih (fun q hq => h q (List.mem_cons_of_mem _ hq))
    rw [framedLength_cons, ih1, hp, List.length_cons]
    ring

/-- The effect of a run of appends on an open store whose size field is the
length of its content modulo `2^64`. -/
theorem store.appendAll_spec (ps : List Bytes) : ∀ (s : store), s.closed = false →
    s.size = s.content.length % u64 →
    (s.appendAll ps).1.closed = false ∧
    (s.appendAll ps).1.size = (s.content.length + framedLength ps) % u64 ∧
    (s.appendAll ps).1.content.length = s.content.length + framedLength ps ∧
    (∃ t, (s.appendAll ps).1.content = s.content ++ t) ∧
    (s.appendAll ps).2.length = ps.length ∧
    ∀ i p, ps[i]? = some p →
      (s.appendAll ps).2[i]? =
        some ((p.length + lenWidth) % u64,
              (s.content.length + framedLength (ps.take i)) % u64, none) ∧
      FrameAt (s.appendAll ps).1.content (s.content.length + framedLength (ps.take i)) p := by
  induction ps with
  | nil =>
    intro s ho hc
    refine ⟨ho, by simpa [store.appendAll, framedLength] using hc, by simp [store.appendAll, framedLength],
      ⟨[], by simp [store.appendAll]⟩, rfl, ?_⟩
    intro i p h
    simp at h
  | cons q qs ih =>
    intro s ho hc
    obtain ⟨hr, hcont, hsize, hopen⟩ := store.Append_open ho q
    have hc1 : (s.Append q).1.size = (s.Append q).1.content.length % u64 := by
      rw [hsize, hcont, hc]
      simp only [List.length_append, putUint64_length, lenWidth, u64]
      omega
    obtain ⟨i1, i2, i3, ⟨t, i4⟩, i5, i6⟩ := ih (s.Append q).1 hopen hc1
    have hlen1 : (s.Append q).1.content.length = s.content.length + (lenWidth + q.length) := by
      rw [hcont]
      simp [putUint64_length, lenWidth]
    simp only [store.appendAll]
    refine ⟨i1, ?_, ?_, ⟨(putUint64 q.length ++ q) ++ t, ?_⟩, by simp [i5], ?_⟩
    · rw [i2, hlen1, framedLength_cons]
      congr 1
      omega
    · rw [i3, hlen1, framedLength_cons]
      omega
    · rw [i4, hcont, List.append_assoc]
    · intro i p h
      cases i with
      | zero =>
        simp only [List.getElem?_cons_zero, Option.some.injEq] at h
        subst h
        refine ⟨?_, ?_⟩
        · simp only [List.getElem?_cons_zero, hr, List.take_zero, framedLength_nil, Nat.add_zero, hc]
        · simp only [List.take_zero, framedLength_nil, Nat.add_zero]
          rw [i4, hcont]
          exact FrameAt.new _ _ _
      | succ j =>
        simp only [List.getElem?_cons_succ] at h
        obtain ⟨j1, j2⟩ := i6 j p h
        have e : s.content.length + framedLength (List.take (j + 1) (q :: qs)) =
            (s.Append q).1.content.length + framedLength (List.take j qs) := by
          rw [hlen1, List.take_succ_cons, framedLength_cons]
          omega
        refine ⟨?_, ?_⟩
        · simp only [List.getElem?_cons_succ]
          rw [j1, e]
        · rw [e]
          exact j2

/-! # The claims -/

/-- C9. Result of `store.Append`: a successful `Append(p)` on a store of size
`s`, whether its file is open or closed, returns `pos = s` and `n = 8 + len(p)` and leaves the size at
`s + 8 + len(p)`, in the 64 bit arithmetic of the program and exactly as
numbers when the sum stays below `2^64`; and the call number `i` (from 1) of a
run of appends of payloads of one length `L` to an empty store returns
`pos + n = (L + 8) * i`. -/
theorem store_Append_result :
    (∀ (s s1 : store) (p : Bytes) (n pos : Nat), s.Append p = (s1, n, pos, none) →
      pos = s.size ∧ n = (lenWidth + p.length) % u64 ∧
      s1.size = (s.size + lenWidth + p.length) % u64 ∧
      (s.size + lenWidth + p.length < u64 →
        n = lenWidth + p.length ∧ s1.size = s.size + lenWidth + p.length)) ∧
    (∀ (ps : List Bytes) (L i n pos : Nat) (e : Option Err), (∀ p ∈ ps, p.length = L) →
      ((newStore []).appendAll ps).2[i]? = some (n, pos, e) →
      e = none ∧ (pos + n) % u64 = ((L + lenWidth) * (i + 1)) % u64 ∧
      ((L + lenWidth) * (i + 1) < u64 → pos + n = (L + lenWidth) * (i + 1))) := by
  constructor
  · intro s s1 p n pos h
    obtain ⟨hpos, hn, hsize, _⟩ := store.Append_result h
    rw [hn] at hsize
    refine ⟨hpos, by rw [hn, Nat.add_comm], by rw [hsize]; simp only [u64]; omega, ?_⟩
    intro hb
    have hb2 : lenWidth + p.length < u64 := by omega
    refine ⟨by rw [hn, Nat.add_comm, Nat.mod_eq_of_lt hb2], ?_⟩
    rw [hsize, Nat.add_comm p.length, Nat.mod_eq_of_lt hb2, ← Nat.add_assoc, Nat.mod_eq_of_lt hb]
  · intro ps L i n pos e hL h
    have hs := store.appendAll_spec ps (newStore []) rfl rfl
    obtain ⟨_, _, _, _, hlen, hres⟩ := hs
    have hi : i < ps.length := by
      rw [← hlen]
      exact (List.getElem?_eq_some_iff.mp h).1
    obtain ⟨hri, _⟩ := hres i ps[i] (List.getElem?_eq_getElem hi)
    rw [h] at hri
    simp only [Option.some.injEq, Prod.mk.injEq] at hri
    obtain ⟨hn, hpos, he⟩ := hri
    have hpi : ps[i].length = L := hL _ (List.getElem_mem _)
    have htake : framedLength (ps.take i) = i * (L + lenWidth) := by
      have := @framedLength_const (ps.take i) L
        (fun p hp => hL p (List.mem_of_mem_take hp))
      rw [this, List.length_take, Nat.min_eq_left (Nat.le_of_lt hi)]
    have hz : (newStore ([] : Bytes)).content.length = 0 := rfl
    rw [hz, htake, Nat.zero_add] at hpos
    rw [hpi] at hn
    have key : i * (L + lenWidth) + (L + lenWidth) = (L + lenWidth) * (i + 1) := by ring
    refine ⟨he, ?_, ?_⟩
    · rw [hn, hpos, Nat.add_mod_mod, Nat.mod_add_mod, key]
    · intro hb
      have h1 : i * (L + lenWidth) < u64 := by
        have : i * (L + lenWidth) ≤ (L + lenWidth) * (i + 1) := by rw [← key]; omega
        omega
      have h2 : L + lenWidth < u64 := by
        have : L + lenWidth ≤ (L + lenWidth) * (i + 1) := by rw [← key]; omega
        omega
      rw [hn, hpos, Nat.mod_eq_of_lt h1, Nat.mod_eq_of_lt h2, key]

/-- Witness of C9: two bytes appended to a new store on an empty file. -/
theorem store_Append_result_witness :
    (newStore []).Append [1, 2] = ({ file := [], buf := putUint64 2 ++ [1, 2], size := 10, handle := Handle.live }, 10, 0, none) ∧
    (0 = (newStore []).size ∧ 10 = (lenWidth + ([1, 2] : Bytes).length) % u64 ∧
      (10 : Nat) = ((newStore []).size + lenWidth + ([1, 2] : Bytes).length) % u64 ∧
      ((newStore []).size + lenWidth + ([1, 2] : Bytes).length < u64 →
        10 = lenWidth + ([1, 2] : Bytes).length ∧
        (10 : Nat) = (newStore []).size + lenWidth + ([1, 2] : Bytes).length)) :=
  ⟨by decide, store_Append_result.1 (newStore [])
    { file := [], buf := putUint64 2 ++ [1, 2], size := 10, handle := Handle.live } [1, 2] 10 0 (by decide)⟩

/-- C10. Store round trip: after a run of appends to an open store whose size
field is the length of its content, with all content below `2^63` bytes (the
range of a file offset), `Read` at the position returned by the append number
`i` yields the payload number `i`, whatever was appended later and with no
flush by the caller; `ReadAt` at that position yields the eight bytes of the
length, and `ReadAt` eight bytes further, for as many bytes as the payload
has, yields the payload. -/
theorem store_round_trip (s : store) (ps : List Bytes) (ho : s.closed = false)
    (hc : s.size = s.content.length) (hb : s.content.length + framedLength ps < 2 ^ 63)
    (i n pos : Nat) (p : Bytes) (e : Option Err) (hp : ps[i]? = some p)
    (hr : (s.appendAll ps).2[i]? = some (n, pos, e)) :
    e = none ∧
    ((s.appendAll ps).1.Read pos).2 = .ok p ∧
    ((s.appendAll ps).1.ReadAt lenWidth (pos : Int)).2 = (putUint64 p.length, none) ∧
    ((s.appendAll ps).1.ReadAt p.length ((pos + lenWidth : Nat) : Int)).2 = (p, none) := by
  have hc1 : s.size = s.content.length % u64 := by
    rw [hc, Nat.mod_eq_of_lt]
    unfold u64
    omega
  obtain ⟨hopen, _, hlen, _, _, hres⟩ := store.appendAll_spec ps s ho hc1
  obtain ⟨hri, hframe⟩ := hres i p hp
  rw [hr] at hri
  simp only [Option.some.injEq, Prod.mk.injEq] at hri
  obtain ⟨_, hpos, he⟩ := hri
  have hle := hframe.end_le
  have hpos1 : pos = s.content.length + framedLength (List.take i ps) := by
    rw [hpos, Nat.mod_eq_of_lt]
    unfold u64
    omega
  rw [← hpos1] at hframe
  refine ⟨he, ?_, ?_, ?_⟩
  · rw [store.Read_frame hopen hframe (by omega)]
  · rw [show lenWidth = 8 from rfl, store.ReadAt_header hopen hframe]
  · rw [show lenWidth = 8 from rfl, store.ReadAt_payload hopen hframe]

/-- Witness of C10: two payloads appended to a new store on an empty file, the
first one read back. -/
theorem store_round_trip_witness :
    ((newStore []).closed = false ∧ (newStore []).size = (newStore []).content.length ∧
      (newStore []).content.length + framedLength [[1, 2], [3]] < 2 ^ 63 ∧
      ([[1, 2], [3]] : List Bytes)[0]? = some [1, 2] ∧
      ((newStore []).appendAll [[1, 2], [3]]).2[0]? = some (10, 0, none)) ∧
    ((none : Option Err) = none ∧
     (((newStore []).appendAll [[1, 2], [3]]).1.Read 0).2 = .ok [1, 2] ∧
     (((newStore []).appendAll [[1, 2], [3]]).1.ReadAt lenWidth ((0 : Nat) : Int)).2
        = (putUint64 ([1, 2] : Bytes).length, none) ∧
     (((newStore []).appendAll [[1, 2], [3]]).1.ReadAt ([1, 2] : Bytes).length
        ((0 + lenWidth : Nat) : Int)).2 = ([1, 2], none)) :=
  ⟨by decide, store_round_trip (newStore []) [[1, 2], [3]] (by decide) (by decide) (by decide)
    0 10 0 [1, 2] none (by decide) (by decide)⟩


/-! ## Lemmas: file names -/

theorem digitsVal_foldl (cs : List Char) (a : Nat) :
    cs.foldl (fun acc c => acc * 10 + (c.toNat - 48)) a = a * 10 ^ cs.length + digitsVal cs := by
  induction cs generalizing a with
  | nil => simp [digitsVal]
  | cons c cs ih =>
    simp only [List.foldl_cons, digitsVal, List.length_cons]
    rw [ih, ih (0 * 10 + _)]
    ring

theorem digitsVal_cons (c : Char) (cs : List Char) :
    digitsVal (c :: cs) = (c.toNat - 48) * 10 ^ cs.length + digitsVal cs := by
  simp only [digitsVal, List.foldl_cons]
  rw [digitsVal_foldl]
  simp [digitsVal]

theorem digitChar_val (d : Nat) (h : d < 10) : (Nat.digitChar d).toNat - 48 = d := by
  interval_cases d <;> rfl

theorem toDigitsCore_val (fuel : Nat) : ∀ (n : Nat) (ds : List Char), n < fuel →
    digitsVal (Nat.toDigitsCore 10 fuel n ds) = n * 10 ^ ds.length + digitsVal ds := by
  induction fuel with
  | zero => intro n ds h; omega
  | succ f ih =>
    intro n ds h
    simp only [Nat.toDigitsCore]
    split
    · rw [digitsVal_cons, digitChar_val _ (Nat.mod_lt _ (by decide))]
      have : n % 10 = n := by omega
      rw [this]
    · rw [ih (n / 10) _ (by omega), digitsVal_cons, digitChar_val _ (Nat.mod_lt _ (by decide))]
      simp only [List.length_cons, pow_succ]
      have h1 := Nat.div_add_mod n 10
      generalize 10 ^ ds.length = P
      generalize n / 10 = q at h1 ⊢
      generalize n % 10 = r at h1 ⊢
      subst h1
      ring

theorem toDigits_val (n : Nat) : digitsVal (Nat.toDigits 10 n) = n := by
  unfold Nat.toDigits
  rw [toDigitsCore_val _ _ _ (Nat.lt_succ_self n)]
  simp [digitsVal]

theorem repr_data (n : Nat) : (Nat.repr n).data = Nat.toDigits 10 n := by
  simp [Nat.repr, List.asString]

theorem storeName_data (b : Nat) : (storeName b).data = Nat.toDigits 10 b ++ ".store".data := by
  simp [storeName, repr_data]

theorem indexName_data (b : Nat) : (indexName b).data = Nat.toDigits 10 b ++ ".index".data := by
  simp [indexName, repr_data]

theorem storeName_inj {a b : Nat} (h : storeName a = storeName b) : a = b := by
  have h1 := congrArg String.data h
  rw [storeName_data, storeName_data] at h1
  have h2 := congrArg digitsVal (List.append_cancel_right h1)
  simpa [toDigits_val] using h2

theorem indexName_inj {a b : Nat} (h : indexName a = indexName b) : a = b := by
  have h1 := congrArg String.data h
  rw [indexName_data, indexName_data] at h1
  have h2 := congrArg digitsVal (List.append_cancel_right h1)
  simpa [toDigits_val] using h2

theorem storeName_ne_indexName (a b : Nat) : storeName a ≠ indexName b := by
  intro h
  have h1 := congrArg (fun s => s.data.getLast?) h
  simp only [storeName_data, indexName_data] at h1
  simp [List.getLast?_append] at h1

/-! ## Lemmas: the index -/

theorem overwrite_entry (m : Bytes) (size off pos : Nat) (h : size + entWidth ≤ m.length) :
    overwrite (overwrite m size (putUint32 off)) (size + offWidth) (putUint64 pos) =
      m.take size ++ (putUint32 off ++ putUint64 pos) ++ m.drop (size + entWidth) := by
  have hE : entWidth = 12 := rfl
  have hO : offWidth = 4 := rfl
  rw [hE] at h
  have hA : (m.take size ++ putUint32 off).length = size + offWidth := by
    simp [putUint32_length, hO]
    omega
  unfold overwrite
  rw [List.take_left' hA, putUint32_length, putUint64_length]
  have hd : List.drop (size + offWidth + 8) (List.take size m ++ putUint32 off ++ List.drop (size + 4) m)
      = List.drop (size + entWidth) m := by
    rw [← hA, List.drop_append, List.drop_drop, hE]
  rw [hd]
  simp [List.append_assoc]

theorem EntryAt.write_new (m E : Bytes) (rest : Bytes) (k off pos : Nat)
    (hk : entWidth * k ≤ m.length) (hE : E = putUint32 off ++ putUint64 pos) :
    EntryAt (m.take (entWidth * k) ++ E ++ rest) k off pos := by
  unfold EntryAt
  have hl : (m.take (entWidth * k)).length = entWidth * k := by simp; omega
  rw [List.append_assoc, List.drop_left' hl]
  have hEl : E.length = entWidth := by rw [hE]; rfl
  rw [List.take_left' hEl, hE]

theorem EntryAt.write_old {m : Bytes} {j o p : Nat} (h : EntryAt m j o p) (size : Nat) (X : Bytes)
    (hj : entWidth * j + entWidth ≤ size) (hs : size ≤ m.length) :
    EntryAt (m.take size ++ X) j o p := by
  unfold EntryAt at h ⊢
  have hl : (m.take size).length = size := by simp; omega
  rw [List.drop_append_of_le_length (by omega)]
  rw [List.take_append_of_le_length (by simp; omega)]
  rw [List.drop_take, List.take_take, ← h]
  congr 1
  omega

theorem EntryAt.slices {m : Bytes} {k off pos : Nat} (h : EntryAt m k off pos) :
    slice m (k * entWidth) (k * entWidth + offWidth) = putUint32 off ∧
    slice m (k * entWidth + offWidth) (k * entWidth + entWidth) = putUint64 pos := by
  unfold EntryAt at h
  rw [Nat.mul_comm] at h
  have hE : entWidth = 12 := rfl
  have hO : offWidth = 4 := rfl
  unfold slice
  constructor
  · have h1 := congrArg (List.take 4) h
    rw [List.take_take] at h1
    simp only [hE, hO] at h1 ⊢
    have e : k * 12 + 4 - k * 12 = 4 := by omega
    rw [e]
    simpa [putUint32] using h1
  · have h1 := congrArg (List.drop 4) h
    rw [List.drop_take, List.drop_drop] at h1
    simp only [hE, hO] at h1 ⊢
    have e : k * 12 + 12 - (k * 12 + 4) = 8 := by omega
    rw [e]
    simpa [putUint32] using h1

theorem toUint32_of_lt {k : Nat} (h : k < 2 ^ 32) : toUint32 (k : Int) = k := by
  unfold toUint32
  have : ((k : Int) % (2 ^ 32 : Int)) = (k : Int) := Int.emod_eq_of_lt (by omega) (by omega)
  rw [this]
  simp

theorem toUint32_natCast (n : Nat) : toUint32 (n : Int) = n % 2 ^ 32 := by
  unfold toUint32
  omega

/-- Reading with the argument `n` yields the entry number `n mod 2^32`. -/
theorem index.Read_entry {i : index} {n k off pos : Nat} (hn : k = n % 2 ^ 32)
    (he : EntryAt i.mmap k off pos) (hk : entWidth * k + entWidth ≤ i.size)
    (hs : i.size ≤ i.mmap.length) :
    i.Read (n : Int) = .ok (off % u32, pos % u64) := by
  have hE : entWidth = 12 := rfl
  unfold index.Read
  have h1 : ¬ ((n : Int) = -1) := by omega
  have h2 : ¬ (i.size = 0) := by omega
  simp only [if_false, h1, h2, toUint32_natCast, ← hn]
  have h3 : ¬ (i.size < k * entWidth + entWidth) := by rw [Nat.mul_comm]; omega
  have h4 : ¬ (i.mmap.length < k * entWidth + entWidth) := by rw [Nat.mul_comm]; omega
  simp only [h3, h4, if_false]
  obtain ⟨s1, s2⟩ := he.slices
  rw [s1, s2, uint32Of_putUint32, uint64Of_putUint64]

theorem index.Write_closed (i : index) (off pos : Nat) : (i.Write off pos).1.closed = i.closed := by
  unfold index.Write
  split
  · rfl
  · split <;> rfl

theorem index.Write_fail {i : index} {off pos : Nat} {e : Err} {i1 : index}
    (h : i.Write off pos = (i1, some e)) : i1 = i := by
  unfold index.Write at h
  split at h
  · simp at h; exact h.1.symm
  · split at h
    · simp at h; exact h.1.symm
    · simp at h

theorem index.Write_ok {i : index} {off pos : Nat} {i1 : index}
    (h : i.Write off pos = (i1, none)) (hm : i.mmap.length < u64) :
    i.size + entWidth ≤ i.mmap.length ∧ i1.size = i.size + entWidth ∧
    i1.closed = i.closed ∧
    i1.mmap = i.mmap.take i.size ++ (putUint32 off ++ putUint64 pos) ++ i.mmap.drop (i.size + entWidth) := by
  unfold index.Write at h
  split at h
  · simp at h
  · split at h
    · simp at h
    · rename_i h2 h3
      simp only [Prod.mk.injEq, and_true] at h
      subst h
      have h3' : i.size + entWidth ≤ i.mmap.length := by omega
      refine ⟨h3', ?_, rfl, ?_⟩
      · simp only
        exact Nat.mod_eq_of_lt (by omega)
      · simp only
        exact overwrite_entry _ _ _ _ h3'

/-! ## Lemmas: the directory -/


/-! ## Lemmas: the directory and new segments -/

theorem DirBelow.lookup_none {dir : Dir} {B b : Nat} (h : DirBelow dir B) (hb : B < b) :
    dir.lookup (storeName b) = none ∧ dir.lookup (indexName b) = none := by
  constructor
  · rw [List.lookup_eq_none_iff]
    intro e he
    obtain ⟨b1, hb1, h1 | h1⟩ := h e he
    · rw [h1]
      simp only [bne_iff_ne, ne_eq]
      intro hh
      have := storeName_inj hh
      omega
    · rw [h1]
      simp only [bne_iff_ne, ne_eq]
      exact storeName_ne_indexName _ _
  · rw [List.lookup_eq_none_iff]
    intro e he
    obtain ⟨b1, hb1, h1 | h1⟩ := h e he
    · rw [h1]
      simp only [bne_iff_ne, ne_eq]
      exact fun hh => storeName_ne_indexName _ _ hh.symm
    · rw [h1]
      simp only [bne_iff_ne, ne_eq]
      intro hh
      have := indexName_inj hh
      omega

theorem DirBelow.mono_bound {dir : Dir} {B C : Nat} (h : DirBelow dir B) (hb : B ≤ C) : DirBelow dir C := by
  intro e he
  obtain ⟨b, hb1, h1⟩ := h e he
  exact ⟨b, by omega, h1⟩

theorem DirBelow.filter {dir : Dir} {B : Nat} (h : DirBelow dir B) (f : String × Bytes → Bool) :
    DirBelow (dir.filter f) B :=
  fun e he => h e (List.mem_of_mem_filter he)

theorem removeFile_below {dir : Dir} {B : Nat} (h : DirBelow dir B) (name : String) :
    DirBelow (removeFile dir name).1 B := by
  unfold removeFile
  split
  · exact h.filter _
  · exact h

theorem removeFile_sub (dir : Dir) (name : String) :
    ∀ e ∈ (removeFile dir name).1, e ∈ dir := by
  unfold removeFile
  split
  · exact fun e he => List.mem_of_mem_filter he
  · exact fun e he => he

theorem DirBelow.of_sub {dir d : Dir} {B : Nat} (h : DirBelow dir B) (hsub : ∀ e ∈ d, e ∈ dir) :
    DirBelow d B :=
  fun e he => h e (hsub e he)

theorem mem_of_lookup {dir : Dir} {name : String} {f : Bytes} (h : dir.lookup name = some f) :
    (name, f) ∈ dir := by
  induction dir with
  | nil => simp at h
  | cons e rest ih =>
    obtain ⟨n, g⟩ := e
    rw [List.lookup_cons] at h
    by_cases hn : name = n
    · subst hn
      simp only [beq_self_eq_true, Option.some.injEq] at h
      subst h
      exact List.mem_cons_self _ _
    · have : (name == n) = false := beq_eq_false_iff_ne.mpr hn
      rw [this] at h
      exact List.mem_cons_of_mem _ (ih h)

theorem setFile_lookup_ne (dir : Dir) {name other : String} (f : Bytes) (h : other ≠ name) :
    (setFile dir name f).lookup other = dir.lookup other := by
  unfold setFile
  induction dir with
  | nil => rfl
  | cons e rest ih =>
    obtain ⟨n, g⟩ := e
    rw [List.map_cons, List.lookup_cons, List.lookup_cons, ih]
    by_cases hn : n = name
    · subst hn
      have h1 : (other == n) = false := beq_eq_false_iff_ne.mpr h
      simp only [if_true, h1]
    · simp only [hn, if_false]

theorem setFile_lookup_self (dir : Dir) (name : String) (f : Bytes) :
    (setFile dir name f).lookup name = (dir.lookup name).map (fun _ => f) := by
  unfold setFile
  induction dir with
  | nil => rfl
  | cons e rest ih =>
    obtain ⟨n, g⟩ := e
    rw [List.map_cons, List.lookup_cons, List.lookup_cons, ih]
    by_cases hn : n = name
    · subst hn
      simp only [if_true, beq_self_eq_true, Option.map_some']
    · have h1 : (name == n) = false := beq_eq_false_iff_ne.mpr (Ne.symm hn)
      simp only [hn, if_false, h1]

theorem setFile_lookup_isSome (dir : Dir) (name other : String) (f : Bytes) :
    ((setFile dir name f).lookup other).isSome = (dir.lookup other).isSome := by
  by_cases h : other = name
  · subst h
    rw [setFile_lookup_self]
    cases dir.lookup other <;> rfl
  · rw [setFile_lookup_ne dir f h]

theorem setFile_mem {dir : Dir} {name : String} {f : Bytes} {e : String × Bytes}
    (h : e ∈ setFile dir name f) : e ∈ dir ∨ e = (name, f) := by
  unfold setFile at h
  obtain ⟨x, hx, hxe⟩ := List.mem_map.mp h
  by_cases hn : x.1 = name
  · rw [if_pos hn] at hxe
    right
    rw [← hxe, hn]
  · rw [if_neg hn] at hxe
    left
    rw [← hxe]
    exact hx

theorem setFile_fresh (dir : Dir) {name : String} (f g : Bytes) (h : dir.lookup name = none) :
    setFile (dir ++ [(name, g)]) name f = dir ++ [(name, f)] := by
  unfold setFile
  rw [List.map_append]
  congr 1
  · rw [List.lookup_eq_none_iff] at h
    conv_rhs => rw [← List.map_id dir]
    apply List.map_congr_left
    intro e he
    have := h e he
    simp only [bne_iff_ne, ne_eq] at this
    rw [if_neg (fun hh => this hh.symm)]
    rfl
  · simp

theorem resizedIndexFile_length {c : Config} (hm : Mappable c) (f : Bytes) :
    resizedIndexFile f c = fileTruncate f (mapLen c) := by
  obtain ⟨m1, _⟩ := hm
  unfold resizedIndexFile
  rw [if_neg (by omega)]
  rfl

theorem mapLen_lt (c : Config) : mapLen c < 2 ^ 63 := by
  unfold mapLen toInt64 u64
  split <;> omega

theorem newIndex_empty {c : Config} (h : Mappable c) :
    newIndex [] c = .ok { mmap := List.replicate (mapLen c) 0, size := 0, closed := false } := by
  obtain ⟨h1, h2⟩ := h
  unfold mapLen at h2 ⊢
  unfold newIndex
  have h3 : ¬ (toInt64 c.Segment.MaxIndexBytes < 0) := by omega
  simp only [h3, if_false, fileTruncate, List.take_nil, List.nil_append, List.length_nil,
    Nat.sub_zero, List.length_replicate, Nat.zero_mod]
  rw [if_neg h2]

theorem newIndex_mappable {f : Bytes} {c : Config} {i : index} (h : newIndex f c = .ok i) :
    Mappable c := by
  unfold newIndex at h
  split at h
  · simp at h
  · rename_i h1
    refine ⟨by omega, ?_⟩
    intro h0
    unfold mapLen at h0
    simp [h0, fileTruncate] at h

theorem index.Read_size_zero {i : index} (h : i.size = 0) (inp : Int) :
    i.Read inp = .error Err.EOF := by
  unfold index.Read
  simp [h]

/-- `index.Read` does not panic on an index whose size is within the mapped
region. -/
theorem index.Read_no_fault {i : index} (h : i.size ≤ i.mmap.length) (inp : Int) :
    i.Read inp ≠ .error Err.fault := by
  unfold index.Read
  dsimp only
  split_ifs <;> first | (intro hh; cases hh; done) | omega

theorem newSegment_fresh {dir : Dir} {b : Nat} {c : Config}
    (hs : dir.lookup (storeName b) = none) (hi : dir.lookup (indexName b) = none)
    (hm : Mappable c) :
    newSegment dir b c = (dir ++ [(storeName b, [])] ++
        [(indexName b, List.replicate (mapLen c) 0)],
      .ok (freshSegment b c)) := by
  have hi2 : (dir ++ [(storeName b, ([] : Bytes))]).lookup (indexName b) = none := by
    have hne : (indexName b == storeName b) = false :=
      beq_eq_false_iff_ne.mpr (Ne.symm (storeName_ne_indexName b b))
    rw [List.lookup_append, hi]
    simp [List.lookup, hne]
  have hd : setFile (dir ++ [(storeName b, ([] : Bytes))] ++ [(indexName b, [])]) (indexName b)
      (resizedIndexFile [] c)
      = dir ++ [(storeName b, [])] ++ [(indexName b, List.replicate (mapLen c) 0)] := by
    rw [setFile_fresh _ _ _ hi2, resizedIndexFile_length hm]
    unfold fileTruncate
    simp
  unfold newSegment openCreate
  simp only [hs, hi2, newIndex_empty hm, hd]
  have he := index.Read_size_zero
    (i := { mmap := List.replicate (mapLen c) 0, size := 0, closed := false }) rfl (-1)
  rw [he]
  rfl

theorem newSegment_fresh_below {dir : Dir} {B b : Nat} (h : DirBelow dir B) (hb : B < b)
    (f : Bytes) :
    DirBelow (dir ++ [(storeName b, ([] : Bytes))] ++ [(indexName b, f)]) b := by
  intro e he
  simp only [List.append_assoc, List.mem_append, List.mem_singleton, List.mem_cons,
    List.not_mem_nil, or_false] at he
  rcases he with he | he | he
  · obtain ⟨b1, hb1, h1⟩ := h e he
    exact ⟨b1, by omega, h1⟩
  · exact ⟨b, le_refl _, Or.inl (by rw [he])⟩
  · exact ⟨b, le_refl _, Or.inr (by rw [he])⟩

/-! ## Lemmas: the segment -/

theorem SegOK.mono_acks {cd : Codec} {o : Nat} {acks : List (Nat × Record)} {s : segment}
    (h : SegOK cd o acks s) (x : List (Nat × Record)) : SegOK cd o (acks ++ x) s := by
  refine ⟨h.storeSize, h.indexSize, h.indexCap, h.mapCap, ?_⟩
  intro off h1 h2
  obtain ⟨r, p, pos, ha, hm, he, hf⟩ := h.records off h1 h2
  refine ⟨r, p, pos, ?_, hm, he, hf⟩
  have hlt : off - o < acks.length := (List.getElem?_eq_some_iff.mp ha).1
  rw [List.getElem?_append_left hlt]
  exact ha

theorem segOK_fresh (cd : Codec) (o : Nat) (acks : List (Nat × Record)) (b : Nat) (c : Config) :
    SegOK cd o acks (freshSegment b c) := by
  unfold freshSegment
  refine ⟨rfl, by simp, by simp, by simpa using mapLen_lt c, ?_⟩
  intro off h1 h2
  simp only at h1 h2
  omega

theorem store.Append_consistent {s : store} (h : s.closed = false)
    (hc : s.size = s.content.length % u64) (p : Bytes) :
    (s.Append p).1.size = (s.Append p).1.content.length % u64 := by
  obtain ⟨_, hcont, hsize, _⟩ := store.Append_open h p
  rw [hsize, hcont, hc]
  simp only [List.length_append, putUint64_length, lenWidth, u64]
  omega

theorem segment.Append_keeps (cd : Codec) (s : segment) (record : Record) :
    (s.Append cd record).1.baseOffset = s.baseOffset ∧
    ((s.Append cd record).1.isOpen ↔ s.isOpen) := by
  unfold segment.Append
  dsimp only
  cases cd.Marshal { record with Offset := s.nextOffset } with
  | none => exact ⟨rfl, Iff.rfl⟩
  | some p =>
    simp only
    have hc := store.Append_closed_eq s.store p
    generalize s.store.Append p = r at hc
    obtain ⟨st, n, pos, e⟩ := r
    simp only at hc
    cases e with
    | some e => exact ⟨rfl, by simp [segment.isOpen, hc]⟩
    | none =>
      simp only
      have hw := index.Write_closed s.index ((s.nextOffset + u64 - s.baseOffset) % u64 % u32) pos
      generalize s.index.Write ((s.nextOffset + u64 - s.baseOffset) % u64 % u32) pos = w at hw
      obtain ⟨idx, e2⟩ := w
      simp only at hw
      cases e2 with
      | some e2 => exact ⟨rfl, by simp [segment.isOpen, hc, hw]⟩
      | none => exact ⟨rfl, by simp [segment.isOpen, hc, hw]⟩

/-- A successful `Append` on a segment, whatever the state of its files: the
offset is the next offset, which advances by one; the base offset, the
configuration and the state of the file handles stay. -/
theorem segment.Append_success {cd : Codec} {s s1 : segment} {record : Record} {off : Nat}
    (h : s.Append cd record = (s1, off, none)) :
    off = s.nextOffset ∧ s1.nextOffset = (s.nextOffset + 1) % u64 ∧
    s1.baseOffset = s.baseOffset ∧ s1.config = s.config ∧ (s1.isOpen ↔ s.isOpen) := by
  have hk := segment.Append_keeps cd s record
  rw [h] at hk
  unfold segment.Append at h
  dsimp only at h
  cases hm : cd.Marshal { record with Offset := s.nextOffset } with
  | none => rw [hm] at h; simp at h
  | some p =>
    rw [hm] at h
    dsimp only at h
    generalize s.store.Append p = r at h
    obtain ⟨st, n, pos, e⟩ := r
    cases e with
    | some e => simp at h
    | none =>
      dsimp only at h
      generalize s.index.Write ((s.nextOffset + u64 - s.baseOffset) % u64 % u32) pos = w at h
      obtain ⟨idx, e2⟩ := w
      cases e2 with
      | some e2 => simp at h
      | none =>
        simp only [Prod.mk.injEq, and_true] at h
        obtain ⟨h1, h2⟩ := h
        subst h1
        exact ⟨h2.symm, rfl, rfl, rfl, hk.2⟩

theorem segment.Append_ok {cd : Codec} {o : Nat} {acks : List (Nat × Record)} {s s1 : segment}
    {record : Record} {off : Nat} (h : s.Append cd record = (s1, off, none))
    (hok : s.isOpen → SegOK cd o acks s) (hb : s.baseOffset ≤ s.nextOffset)
    (hn : s.nextOffset = o + acks.length) (hlt : s.nextOffset + 1 < u64) :
    off = s.nextOffset ∧ s1.nextOffset = s.nextOffset + 1 ∧ s1.baseOffset = s.baseOffset ∧
    s1.config = s.config ∧ (s1.isOpen ↔ s.isOpen) ∧
    (s1.isOpen → SegOK cd o (acks ++ [(off, record)]) s1) := by
  obtain ⟨g1, g2, g3, g4, g5⟩ := segment.Append_success h
  have hnext : (s.nextOffset + 1) % u64 = s.nextOffset + 1 := Nat.mod_eq_of_lt hlt
  rw [hnext] at g2
  refine ⟨g1, g2, g3, g4, g5, ?_⟩
  intro ho1
  obtain ⟨hsc, hic⟩ := g5.mp ho1
  clear g1 g2 g3 g4 g5 ho1
  unfold segment.Append at h
  cases hm : cd.Marshal { record with Offset := s.nextOffset } with
  | none => simp [hm] at h
  | some p =>
    simp only [hm] at h
    cases hsc2 : s.store.closed with
    | true => rw [hsc] at hsc2; cases hsc2
    | false =>
      obtain ⟨hr, hcont, hsize, hopen⟩ := store.Append_open hsc p
      have hcons := fun hc => store.Append_consistent hsc hc p
      generalize hst : s.store.Append p = r at h hr hcont hsize hopen hcons
      obtain ⟨st, n, pos, e⟩ := r
      simp only [Prod.mk.injEq] at hr
      obtain ⟨_, hpos, he⟩ := hr
      subst he
      simp only at h hcont hsize hopen hcons
      generalize hw : s.index.Write ((s.nextOffset + u64 - s.baseOffset) % u64 % u32) pos = w at h
      obtain ⟨idx, e⟩ := w
      cases e with
      | some e => simp at h
      | none =>
        simp only [Prod.mk.injEq, and_true] at h
        obtain ⟨h1, h2⟩ := h
        have hS := hok ⟨hsc, hic⟩
        obtain ⟨hcap, hsz, hicl, hmm⟩ := index.Write_ok hw (by have := hS.mapCap; unfold u64; omega)
        subst h1
        simp only [hnext]
        have hrel : (s.nextOffset + u64 - s.baseOffset) % u64 % u32
            = (s.nextOffset - s.baseOffset) % u32 := by
          unfold u64 u32 at *
          omega
        have hsize12 : s.index.size = entWidth * (s.nextOffset - s.baseOffset) := hS.indexSize
        refine ⟨hcons hS.storeSize, ?_, ?_, ?_, ?_⟩
        · simp only [hsz, hsize12]
          have e : s.nextOffset + 1 - s.baseOffset = (s.nextOffset - s.baseOffset) + 1 := by omega
          rw [e, Nat.mul_add, Nat.mul_one]
        · simp only [hsz, hmm]
          simp [putUint32_length, putUint64_length]
          have : entWidth = 12 := rfl
          omega
        · simp only [hmm]
          simp [putUint32_length, putUint64_length]
          have := hS.mapCap
          have : entWidth = 12 := rfl
          omega
        · intro x hx1 hx2
          simp only at hx1 hx2
          by_cases hxn : x < s.nextOffset
          · obtain ⟨r, q, ps, ha, hmq, hent, hfr⟩ := (hS.mono_acks [(off, record)]).records x hx1 hxn
            refine ⟨r, q, ps, ha, hmq, ?_, ?_⟩
            · simp only [hmm, List.append_assoc]
              apply EntryAt.write_old hent
              · rw [hsize12]
                have : x - s.baseOffset + 1 ≤ s.nextOffset - s.baseOffset := by omega
                calc entWidth * (x - s.baseOffset) + entWidth
                    = entWidth * (x - s.baseOffset + 1) := by ring
                  _ ≤ entWidth * (s.nextOffset - s.baseOffset) := Nat.mul_le_mul_left _ this
              · exact hS.indexCap
            · simp only [hcont]
              exact hfr.append _
          · have hx : x = s.nextOffset := by omega
            subst hx
            refine ⟨record, p, s.store.content.length, ?_, hm, ?_, ?_⟩
            · rw [hn, Nat.add_sub_cancel_left, List.getElem?_append_right (le_refl _)]
              simp only [Nat.sub_self, List.getElem?_cons_zero, Option.some.injEq, Prod.mk.injEq,
                and_true]
              omega
            · simp only [hmm, hsize12]
              rw [hrel] at *
              have hp : pos = s.store.content.length % u64 := by rw [hpos, hS.storeSize]
              rw [hp]
              apply EntryAt.write_new
              · rw [← hsize12]; exact hS.indexCap
              · rfl
            · simp only [hcont]
              have := FrameAt.new s.store.content p []
              simpa using this

theorem segment.eta_store (s : segment) : { s with store := s.store } = s := by
  cases s; rfl

theorem segment.Append_err {cd : Codec} {o : Nat} {acks : List (Nat × Record)} {s s1 : segment}
    {record : Record} {off : Nat} {e : Err} (h : s.Append cd record = (s1, off, some e)) :
    s1.range = s.range ∧ s1.config = s.config ∧
    ((s.isOpen → SegOK cd o acks s) → (s1.isOpen → SegOK cd o acks s1)) := by
  unfold segment.Append at h
  cases hm : cd.Marshal { record with Offset := s.nextOffset } with
  | none =>
    simp only [hm, Prod.mk.injEq] at h
    obtain ⟨h1, _⟩ := h
    subst h1
    exact ⟨rfl, rfl, fun x => x⟩
  | some p =>
    simp only [hm] at h
    cases hsc : s.store.closed with
    | true =>
      have hcl := store.Append_closed_eq s.store p
      rw [hsc] at hcl
      generalize s.store.Append p = r at h hcl
      obtain ⟨st, n, pos, e1⟩ := r
      dsimp only at hcl
      have hno : ∀ t : segment, t.store = st → ¬ t.isOpen := by
        intro t ht ho1
        have h' : t.store.closed = false := ho1.1
        rw [ht, hcl] at h'
        cases h'
      cases e1 with
      | some e1 =>
        simp only [Prod.mk.injEq] at h
        obtain ⟨h1, _⟩ := h
        subst h1
        exact ⟨rfl, rfl, fun _ ho1 => absurd ho1 (hno _ rfl)⟩
      | none =>
        dsimp only at h
        generalize s.index.Write ((s.nextOffset + u64 - s.baseOffset) % u64 % u32) pos = w at h
        obtain ⟨idx, e2⟩ := w
        cases e2 with
        | none => simp at h
        | some e2 =>
          simp only [Prod.mk.injEq] at h
          obtain ⟨h1, _⟩ := h
          subst h1
          exact ⟨rfl, rfl, fun _ ho1 => absurd ho1 (hno _ rfl)⟩
    | false =>
      obtain ⟨hr, hcont, hsize, hopen⟩ := store.Append_open hsc p
      have hcons := fun hc => store.Append_consistent hsc hc p
      generalize hst : s.store.Append p = r at h hr hcont hsize hopen hcons
      obtain ⟨st, n, pos, e1⟩ := r
      simp only [Prod.mk.injEq] at hr
      obtain ⟨_, hpos, he⟩ := hr
      subst he
      simp only at h hcont hsize hopen hcons
      generalize hw : s.index.Write ((s.nextOffset + u64 - s.baseOffset) % u64 % u32) pos = w at h
      obtain ⟨idx, e2⟩ := w
      cases e2 with
      | none => simp at h
      | some e2 =>
        have hidx := index.Write_fail hw
        subst hidx
        simp only [Prod.mk.injEq] at h
        obtain ⟨h1, _⟩ := h
        subst h1
        refine ⟨rfl, rfl, ?_⟩
        intro hok ho1
        have hS := hok ⟨hsc, ho1.2⟩
        refine ⟨hcons hS.storeSize, hS.indexSize, hS.indexCap, hS.mapCap, ?_⟩
        intro x hx1 hx2
        obtain ⟨r, q, ps, ha, hmq, hent, hfr⟩ := hS.records x hx1 hx2
        refine ⟨r, q, ps, ha, hmq, hent, ?_⟩
        simp only [hcont]
        exact hfr.append _

theorem store.Read_store_state (s : store) (pos : Nat) :
    (s.closed = true ∧ (s.Read pos).1 = s.flushClosed) ∨ (s.Read pos).1 = s.flush := by
  unfold store.Read
  split
  · rename_i hc
    refine Or.inl ⟨hc, ?_⟩
    dsimp only
    split
    · rfl
    · split <;> rfl
  · right
    dsimp only
    split
    · rfl
    · split
      · rfl
      · split <;> rfl

theorem segment.Read_segment_state (cd : Codec) (s : segment) (off : Nat) :
    (s.Read cd off).1 = s ∨
    (s.store.closed = true ∧ (s.Read cd off).1 = { s with store := s.store.flushClosed }) ∨
    (s.Read cd off).1 = { s with store := s.store.flush } := by
  unfold segment.Read
  dsimp only
  split
  · exact Or.inl rfl
  · rename_i pos _
    have h := store.Read_store_state s.store pos
    generalize s.store.Read pos = r at h
    obtain ⟨st, res⟩ := r
    simp only at h
    have key : (({ s with store := st } : segment) = s) ∨
        (s.store.closed = true ∧
          ({ s with store := st } : segment) = { s with store := s.store.flushClosed }) ∨
        ({ s with store := st } : segment) = { s with store := s.store.flush } := by
      rcases h with ⟨hc, h⟩ | h
      · exact Or.inr (Or.inl ⟨hc, by rw [h]⟩)
      · exact Or.inr (Or.inr (by rw [h]))
    cases res with
    | error e => exact key
    | ok p =>
      simp only
      split
      · exact key
      · exact key

theorem SegOK.flush {cd : Codec} {o : Nat} {acks : List (Nat × Record)} {s : segment}
    (h : SegOK cd o acks s) : SegOK cd o acks { s with store := s.store.flush } := by
  refine ⟨?_, h.indexSize, h.indexCap, h.mapCap, ?_⟩
  · simp only [store.flush_size, store.flush_content]
    exact h.storeSize
  · intro x hx1 hx2
    obtain ⟨r, q, ps, ha, hmq, hent, hfr⟩ := h.records x hx1 hx2
    exact ⟨r, q, ps, ha, hmq, hent, by simpa only [store.flush_content] using hfr⟩

theorem SegOK.flushClosed {cd : Codec} {o : Nat} {acks : List (Nat × Record)} {s : segment}
    (h : SegOK cd o acks s) : SegOK cd o acks { s with store := s.store.flushClosed } := by
  refine ⟨?_, h.indexSize, h.indexCap, h.mapCap, ?_⟩
  · simp only [store.flushClosed_size, store.flushClosed_content]
    exact h.storeSize
  · intro x hx1 hx2
    obtain ⟨r, q, ps, ha, hmq, hent, hfr⟩ := h.records x hx1 hx2
    exact ⟨r, q, ps, ha, hmq, hent, by simpa only [store.flushClosed_content] using hfr⟩

/-- A segment after a read: same range, same configuration, same state of
its files, and the same agreement with the acknowledged appends. -/
theorem segment.Read_keeps (cd : Codec) (s : segment) (off : Nat) :
    (s.Read cd off).1.range = s.range ∧ (s.Read cd off).1.config = s.config ∧
    ((s.Read cd off).1.isOpen ↔ s.isOpen) ∧
    ∀ o acks, SegOK cd o acks s → SegOK cd o acks (s.Read cd off).1 := by
  rcases segment.Read_segment_state cd s off with h | ⟨hc, h⟩ | h
  · rw [h]
    exact ⟨rfl, rfl, Iff.rfl, fun _ _ x => x⟩
  · rw [h]
    refine ⟨rfl, rfl, ?_, fun _ _ x => x.flushClosed⟩
    have h1 := store.flushClosed_closed hc
    constructor
    · intro ho
      have h2 : s.store.flushClosed.closed = false := ho.1
      rw [h1] at h2
      cases h2
    · intro ho
      have h2 : s.store.closed = false := ho.1
      rw [hc] at h2
      cases h2
  · rw [h]
    exact ⟨rfl, rfl, Iff.rfl, fun _ _ x => x.flush⟩

/-- Reading offset `off` from a segment yields the record of the entry number
`(off - baseOffset) mod 2^32`. -/
theorem segment.Read_wrapped {cd : Codec} {o : Nat} {acks : List (Nat × Record)} {s : segment}
    {off e : Nat} {r : Record} (ho : s.isOpen) (hS : SegOK cd o acks s)
    (h1 : s.baseOffset ≤ off) (hrel63 : off - s.baseOffset < 2 ^ 63)
    (he : e = (off - s.baseOffset) % 2 ^ 32) (h2 : s.baseOffset + e < s.nextOffset)
    (hbytes : s.store.content.length < 2 ^ 63)
    (ha : acks[s.baseOffset + e - o]? = some (s.baseOffset + e, r))
    (hrt : cd.RoundTrips { r with Offset := s.baseOffset + e }) :
    (s.Read cd off).2 = .ok { r with Offset := s.baseOffset + e } := by
  obtain ⟨r1, p, pos, ha1, hm, hent, hfr⟩ := hS.records (s.baseOffset + e) (by omega) h2
  rw [ha] at ha1
  simp only [Option.some.injEq, Prod.mk.injEq, true_and] at ha1
  subst ha1
  have hE : entWidth = 12 := rfl
  rw [Nat.add_sub_cancel_left] at hent
  have hrel : toInt64 ((off + u64 - s.baseOffset) % u64) = ((off - s.baseOffset : Nat) : Int) := by
    have e1 : (off + u64 - s.baseOffset) % u64 = off - s.baseOffset := by
      unfold u64 at *
      omega
    rw [e1, toInt64_of_lt hrel63]
  have hidx := index.Read_entry (i := s.index) he hent
    (by rw [hS.indexSize]
        have : e + 1 ≤ s.nextOffset - s.baseOffset := by omega
        calc entWidth * e + entWidth
            = entWidth * (e + 1) := by ring
          _ ≤ entWidth * (s.nextOffset - s.baseOffset) := Nat.mul_le_mul_left _ this)
    hS.indexCap
  have hposlt := hfr.end_le
  have hpm : pos % u64 % u64 = pos := by
    rw [Nat.mod_mod, Nat.mod_eq_of_lt]
    unfold u64
    omega
  unfold segment.Read
  dsimp only
  rw [hrel, hidx]
  simp only [hpm]
  rw [store.Read_frame ho.1 hfr hbytes]
  simp only [hrt p hm]

theorem segment.Read_record {cd : Codec} {o : Nat} {acks : List (Nat × Record)} {s : segment}
    {off : Nat} {r : Record} (ho : s.isOpen) (hS : SegOK cd o acks s)
    (h1 : s.baseOffset ≤ off) (h2 : off < s.nextOffset)
    (hrel : off - s.baseOffset < 2 ^ 32) (hbytes : s.store.content.length < 2 ^ 63)
    (ha : acks[off - o]? = some (off, r)) (hrt : cd.RoundTrips { r with Offset := off }) :
    (s.Read cd off).2 = .ok { r with Offset := off } := by
  have he : off - s.baseOffset = (off - s.baseOffset) % 2 ^ 32 :=
    (Nat.mod_eq_of_lt (by omega)).symm
  have hoff : s.baseOffset + (off - s.baseOffset) = off := by omega
  have := @segment.Read_wrapped cd o acks s off (off - s.baseOffset) r ho hS h1 (by omega) he
    (by omega) hbytes (by rw [hoff]; exact ha) (by rw [hoff]; exact hrt)
  rw [hoff] at this
  exact this

/-! ## Lemmas: lists -/

theorem map_set_same {α β : Type} (f : α → β) {l : List α} {i : Nat} {x y : α}
    (h : l[i]? = some x) (hf : f y = f x) : (l.set i y).map f = l.map f := by
  apply List.ext_getElem?
  intro j
  simp only [List.getElem?_map, List.getElem?_set]
  by_cases hij : i = j
  · subst hij
    have hlt : i < l.length := (List.getElem?_eq_some_iff.mp h).1
    simp [hlt, h, hf]
  · simp [hij]

theorem last_of_map_eq {α β : Type} (f : α → β) {l : List α} {r : List β} {x : β}
    (h : l.map f = r ++ [x]) :
    l.length = r.length + 1 ∧ ∃ s, l[l.length - 1]? = some s ∧ f s = x := by
  have hlen : l.length = r.length + 1 := by
    have := congrArg List.length h
    simpa using this
  refine ⟨hlen, ?_⟩
  have h1 : (l.map f)[r.length]? = some x := by
    rw [h, List.getElem?_append_right (le_refl _)]
    simp
  rw [List.getElem?_map] at h1
  cases hs : l[r.length]? with
  | none => simp [hs] at h1
  | some s =>
    simp only [hs, Option.map_some', Option.some.injEq] at h1
    refine ⟨s, ?_, h1⟩
    rw [hlen, Nat.add_sub_cancel]
    exact hs

theorem FullChain.snoc {r : List (Nat × Nat)} {a b c : Nat} (h : FullChain r a b) (hbc : b < c) :
    FullChain (r ++ [(b, c)]) a c := by
  induction r generalizing a with
  | nil =>
    simp only [FullChain] at h
    subst h
    simp [FullChain, hbc]
  | cons x xs ih =>
    obtain ⟨h1, h2, h3⟩ := h
    exact ⟨h1, h2, ih h3⟩

theorem FullChain.le {r : List (Nat × Nat)} {a b : Nat} (h : FullChain r a b) : a ≤ b := by
  induction r generalizing a with
  | nil => simp only [FullChain] at h; omega
  | cons x xs ih =>
    obtain ⟨_, h2, h3⟩ := h
    have := ih h3
    omega

theorem FullChain.bounds {r : List (Nat × Nat)} {a b : Nat} (h : FullChain r a b) :
    ∀ x ∈ r, a ≤ x.1 ∧ x.1 < x.2 ∧ x.2 ≤ b := by
  induction r generalizing a with
  | nil => intro x hx; simp at hx
  | cons y ys ih =>
    obtain ⟨h1, h2, h3⟩ := h
    intro x hx
    rcases List.mem_cons.mp hx with hx | hx
    · subst hx
      have := h3.le
      omega
    · have := ih h3 x hx
      omega

/-! ## Lemmas: closing a segment -/

theorem index.Close_index_cases (i : index) :
    (i.Close).1 = i ∨ (i.Close).1.closed = true := by
  unfold index.Close
  split
  · exact Or.inl rfl
  · split
    · exact Or.inl rfl
    · exact Or.inr rfl

theorem store.Close_store_cases (s : store) :
    (s.Close).1 = s ∨ (s.Close).1.closed = true := by
  unfold store.Close
  split
  · rename_i hc
    exact Or.inr (store.flushClosed_closed hc)
  · exact Or.inr rfl

theorem segment.Close_closing (s : segment) : Closing s (s.Close).1 := by
  unfold segment.Close
  have hi := index.Close_index_cases s.index
  generalize s.index.Close = r at hi
  obtain ⟨idx, f, e⟩ := r
  simp only at hi
  cases e with
  | some e =>
    simp only
    rcases hi with hi | hi
    · left; rw [hi]
    · right
      exact ⟨fun h => by simp [segment.isOpen, hi] at h, rfl, rfl⟩
  | none =>
    simp only
    have hs := store.Close_store_cases s.store
    generalize s.store.Close = r2 at hs
    obtain ⟨st, e2⟩ := r2
    simp only at hs
    cases e2 with
    | some e2 =>
      simp only
      rcases hi with hi | hi
      · rcases hs with hs | hs
        · left; rw [hi, hs]
        · right
          exact ⟨fun h => by simp [segment.isOpen, hs] at h, rfl, rfl⟩
      · right
        exact ⟨fun h => by simp [segment.isOpen, hi] at h, rfl, rfl⟩
    | none =>
      simp only
      rcases hi with hi | hi
      · rcases hs with hs | hs
        · left; rw [hi, hs]
        · right
          exact ⟨fun h => by simp [segment.isOpen, hs] at h, rfl, rfl⟩
      · right
        exact ⟨fun h => by simp [segment.isOpen, hi] at h, rfl, rfl⟩

theorem segment.Remove_spec (dir : Dir) (s : segment) :
    Closing s (s.Remove dir).2.1 ∧ ∀ e ∈ (s.Remove dir).1, e ∈ dir := by
  unfold segment.Remove
  have hc := segment.Close_closing s
  generalize s.Close = r at hc
  obtain ⟨s1, e⟩ := r
  simp only at hc
  cases e with
  | some e => exact ⟨hc, fun _ h => h⟩
  | none =>
    simp only
    have h1 := removeFile_sub dir (indexName s.baseOffset)
    generalize removeFile dir (indexName s.baseOffset) = r1 at h1
    obtain ⟨d1, e1⟩ := r1
    simp only at h1
    cases e1 with
    | some e1 => exact ⟨hc, h1⟩
    | none =>
      simp only
      have h2 := removeFile_sub d1 (storeName s.baseOffset)
      generalize removeFile d1 (storeName s.baseOffset) = r2 at h2
      obtain ⟨d2, e2⟩ := r2
      simp only at h2
      cases e2 with
      | some e2 => exact ⟨hc, fun e h => h1 e (h2 e h)⟩
      | none => exact ⟨hc, fun e h => h1 e (h2 e h)⟩

theorem Closing.trans {a b c : segment} (h1 : Closing a b) (h2 : Closing b c) : Closing a c := by
  rcases h2 with h2 | ⟨h2, h3, h4⟩
  · rw [h2]; exact h1
  · rcases h1 with h1 | ⟨_, h5, h6⟩
    · rw [h1] at h3 h4
      exact Or.inr ⟨h2, h3, h4⟩
    · exact Or.inr ⟨h2, h3.trans h5, h4.trans h6⟩

theorem Closing.range {a b : segment} (h : Closing a b) : b.range = a.range := by
  rcases h with h | ⟨_, h, _⟩
  · rw [h]
  · exact h

theorem Closing.config {a b : segment} (h : Closing a b) : b.config = a.config := by
  rcases h with h | ⟨_, _, h⟩
  · rw [h]
  · exact h

theorem Closing.segOK {a b : segment} (h : Closing a b) {cd : Codec} {o : Nat}
    {acks : List (Nat × Record)} (hS : a.isOpen → SegOK cd o acks a) :
    b.isOpen → SegOK cd o acks b := by
  rcases h with h | ⟨h, _, _⟩
  · rw [h]; exact hS
  · exact fun hb => absurd hb h

/-! ## Lemmas: new segments of the log -/

theorem fileTruncate_length (f : Bytes) (n : Nat) : (fileTruncate f n).length = n := by
  unfold fileTruncate
  simp
  omega

theorem newIndex_ok {c : Config} (h : Mappable c) (f : Bytes) : ∃ i, newIndex f c = .ok i := by
  obtain ⟨h1, h2⟩ := h
  unfold mapLen at h2
  unfold newIndex
  have h3 : ¬ (toInt64 c.Segment.MaxIndexBytes < 0) := by omega
  simp only [h3, if_false, fileTruncate_length]
  rw [if_neg h2]
  exact ⟨_, rfl⟩

theorem newIndex_eq {c : Config} (hm : Mappable c) (f : Bytes) :
    newIndex f c = .ok ⟨fileTruncate f (mapLen c), f.length % u64, false⟩ := by
  obtain ⟨m1, m2⟩ := hm
  unfold newIndex
  dsimp only
  rw [if_neg (by omega)]
  have hml : (toInt64 c.Segment.MaxIndexBytes).toNat = mapLen c := rfl
  rw [hml, if_neg (by rw [fileTruncate_length]; exact m2)]

theorem openCreate_content (dir : Dir) (name : String) :
    (openCreate dir name).2 = (dir.lookup name).getD [] := by
  unfold openCreate
  cases dir.lookup name <;> rfl

theorem openCreate_lookup_ne (dir : Dir) {name other : String} (h : other ≠ name) :
    (openCreate dir name).1.lookup other = dir.lookup other := by
  unfold openCreate
  cases hl : dir.lookup name with
  | some f => rfl
  | none =>
    have hne : (other == name) = false := beq_eq_false_iff_ne.mpr h
    simp [List.lookup_append, List.lookup, hne]

/-- With a mappable configuration, `newSegment` succeeds when the index file of
the base offset, if there is one, is not longer than the mapped region. -/
theorem newSegment_total {c : Config} (h : Mappable c) (dir : Dir) (b : Nat)
    (hsz : ∀ e ∈ dir, e.2.length ≤ mapLen c) :
    ∃ d s, newSegment dir b c = (d, .ok s) := by
  have hcontent : (openCreate (openCreate dir (storeName b)).1 (indexName b)).2
      = (dir.lookup (indexName b)).getD [] := by
    rw [openCreate_content, openCreate_lookup_ne dir (Ne.symm (storeName_ne_indexName b b))]
  have hlen : ((dir.lookup (indexName b)).getD []).length ≤ mapLen c := by
    cases hl : dir.lookup (indexName b) with
    | none => simp
    | some f => exact hsz _ (mem_of_lookup hl)
  have hnf := index.Read_no_fault
    (i := ⟨fileTruncate ((dir.lookup (indexName b)).getD []) (mapLen c),
      ((dir.lookup (indexName b)).getD []).length % u64, false⟩)
    (by
      rw [fileTruncate_length]
      exact le_trans (Nat.mod_le _ _) hlen) (-1)
  unfold newSegment
  dsimp only
  rw [hcontent, newIndex_eq h]
  dsimp only
  split
  · rename_i heq
    exact absurd heq hnf
  · exact ⟨_, _, rfl⟩
  · exact ⟨_, _, rfl⟩

theorem Log.newSegment_succeeds {l : Log} (h : Mappable l.Config)
    (hsz : ∀ e ∈ l.dir, e.2.length ≤ mapLen l.Config) (b : Nat) :
    (l.newSegment b).2 = none := by
  unfold Log.newSegment
  obtain ⟨d, s, hs⟩ := CommitLog.newSegment_total h l.dir b hsz
  rw [hs]

/-! ## Lemmas: the invariant of the log -/

theorem Log.Inv.set {cd : Codec} {o : Nat} {l : Log} {acks : List (Nat × Record)}
    (hI : Log.Inv cd o l acks) {p : Nat} {s s1 : segment} (hp : l.heap[p]? = some s)
    (hr : s1.range = s.range) (hc : s1.config = s.config)
    (hs : (s.isOpen → SegOK cd o acks s) → s1.isOpen → SegOK cd o acks s1)
    {l1 : Log} (hd : ∀ e ∈ l1.dir, e ∈ l.dir)
    (hheap : l1.heap = l.heap.set p s1) (hcfg : l1.Config = l.Config)
    (hact : l1.activeSegment = l.activeSegment) :
    Log.Inv cd o l1 acks := by
  obtain ⟨rinit, lb, h1, h2, h3, h4⟩ := hI.shape
  have hmem : s ∈ l.heap := List.getElem?_mem hp
  refine ⟨⟨rinit, lb, ?_, h2, h3, h4.of_sub hd⟩, ?_, hI.offsets, ?_, hcfg ▸ hI.mappable, ?_,
    fun e he => hcfg ▸ hI.sized e (hd e he)⟩
  · rw [hheap, map_set_same segment.range hp hr]
    exact h1
  · rw [hheap, hact, List.length_set]
    exact hI.active
  · intro x hx
    rw [hheap] at hx
    rw [hcfg]
    rcases List.mem_or_eq_of_mem_set hx with hx | hx
    · exact hI.config x hx
    · rw [hx, hc]
      exact hI.config s hmem
  · intro x hx
    rw [hheap] at hx
    rcases List.mem_or_eq_of_mem_set hx with hx | hx
    · exact hI.content x hx
    · rw [hx]
      exact hs (hI.content s hmem)

theorem Log.Inv.active_segment {cd : Codec} {o : Nat} {l : Log} {acks : List (Nat × Record)}
    (hI : Log.Inv cd o l acks) :
    ∃ s, l.heap[l.heap.length - 1]? = some s ∧ s.nextOffset = o + acks.length ∧
      s.baseOffset ≤ s.nextOffset := by
  obtain ⟨rinit, lb, h1, _, h3, _⟩ := hI.shape
  obtain ⟨_, s, hs, hr⟩ := last_of_map_eq segment.range h1
  refine ⟨s, hs, ?_, ?_⟩
  · have := congrArg Prod.snd hr
    exact this
  · have e1 := congrArg Prod.fst hr
    have e2 := congrArg Prod.snd hr
    simp only [segment.range] at e1 e2
    omega

theorem Log.Append_inv_err {cd : Codec} {o : Nat} {l l1 : Log} {acks : List (Nat × Record)}
    {record : Record} {off : Nat} {e : Err} (hI : Log.Inv cd o l acks)
    (h : l.Append cd record = (l1, off, some e)) : Log.Inv cd o l1 acks := by
  obtain ⟨s, hs, _, _⟩ := hI.active_segment
  unfold Log.Append at h
  simp only [hI.active, List.get?_eq_getElem?, hs] at h
  generalize hsa : s.Append cd record = r at h
  obtain ⟨s1, off1, e1⟩ := r
  cases e1 with
  | some e1 =>
    simp only [Prod.mk.injEq] at h
    obtain ⟨h1, _⟩ := h
    subst h1
    obtain ⟨a1, a2, a3⟩ := @segment.Append_err cd o acks _ _ _ _ _ hsa
    exact hI.set hs a1 a2 a3 (fun _ x => x) rfl rfl hI.active.symm
  | none =>
    simp only at h
    split at h
    · simp only [Prod.mk.injEq] at h
      obtain ⟨_, _, h7⟩ := h
      rw [Log.newSegment_succeeds (by exact hI.mappable) (by exact hI.sized)] at h7
      simp at h7
    · simp at h

theorem Log.Append_inv_ok {cd : Codec} {o : Nat} {l l1 : Log} {acks : List (Nat × Record)}
    {record : Record} {off : Nat} (hI : Log.Inv cd o l acks)
    (h : l.Append cd record = (l1, off, none)) (hlt : o + acks.length + 1 < u64) :
    off = o + acks.length ∧ Log.Inv cd o l1 (acks ++ [(off, record)]) := by
  obtain ⟨s, hs, hnext, hble⟩ := hI.active_segment
  obtain ⟨rinit, lb, h1, h2, h3, h4⟩ := hI.shape
  obtain ⟨hlen, s', hs', hr⟩ := last_of_map_eq segment.range h1
  rw [hs] at hs'
  simp only [Option.some.injEq] at hs'
  subst hs'
  have hsmem : s ∈ l.heap := List.getElem?_mem hs
  have hbase : s.baseOffset = lb := congrArg Prod.fst hr
  unfold Log.Append at h
  simp only [hI.active, List.get?_eq_getElem?, hs] at h
  generalize hsa : s.Append cd record = r at h
  obtain ⟨s1, off1, e1⟩ := r
  cases e1 with
  | some e1 => simp at h
  | none =>
    obtain ⟨b1, b2, b3, b4, b5, b6⟩ := segment.Append_ok hsa (hI.content s hsmem) hble hnext
      (by rw [hnext]; exact hlt)
    have hoffs : List.map Prod.fst (acks ++ [(off1, record)])
        = List.range' o (acks ++ [(off1, record)]).length := by
      rw [List.map_append, hI.offsets, List.length_append, List.length_singleton,
        List.range'_concat, b1, hnext]
      simp
    have hranges : (l.heap.set (l.heap.length - 1) s1).map segment.range
        = rinit ++ [(lb, o + acks.length + 1)] := by
      rw [List.map_set, h1, hlen, Nat.add_sub_cancel, List.set_append_right _ _ (le_refl _)]
      simp [segment.range, b2, b3, hbase, hnext]
    have hcfg : ∀ x ∈ l.heap.set (l.heap.length - 1) s1, x.config = l.Config := by
      intro x hx
      rcases List.mem_or_eq_of_mem_set hx with hx | hx
      · exact hI.config x hx
      · rw [hx, b4]; exact hI.config s hsmem
    have hcont : ∀ x ∈ l.heap.set (l.heap.length - 1) s1, x.isOpen →
        SegOK cd o (acks ++ [(off1, record)]) x := by
      intro x hx hox
      rcases List.mem_or_eq_of_mem_set hx with hx | hx
      · exact (hI.content x hx hox).mono_acks _
      · rw [hx] at hox ⊢
        exact b6 hox
    simp only at h
    split at h
    · -- rotation
      have hb : (off1 + 1) % u64 = o + acks.length + 1 := by
        rw [b1, hnext]
        exact Nat.mod_eq_of_lt hlt
      rw [hb] at h
      obtain ⟨n1, n2⟩ := h4.lookup_none (b := o + acks.length + 1) (by omega)
      have hfresh := newSegment_fresh n1 n2 hI.mappable
      unfold Log.newSegment at h
      simp only [hfresh, Prod.mk.injEq, and_true] at h
      obtain ⟨h5, h6⟩ := h
      subst h5 h6
      refine ⟨by rw [b1, hnext], ⟨⟨rinit ++ [(lb, o + acks.length + 1)], o + acks.length + 1, ?_,
        h2.snoc (by omega), ?_, ?_⟩, ?_, hoffs, ?_, hI.mappable, ?_, ?_⟩⟩
      rotate_right
      · intro e he
        simp only [List.append_assoc, List.mem_append, List.mem_singleton, List.mem_cons,
          List.not_mem_nil, or_false] at he
        rcases he with he | he | he
        · exact hI.sized e he
        · rw [he]
          exact Nat.zero_le _
        · rw [he]
          simp
      · simp only [List.map_append, hranges, List.map_cons, List.map_nil, List.length_append,
          List.length_singleton]
        rfl
      · simp only [List.length_append, List.length_singleton]; omega
      · exact newSegment_fresh_below h4 (by omega) _
      · simp
      · intro x hx
        simp only [List.mem_append, List.mem_singleton] at hx
        rcases hx with hx | hx
        · exact hcfg x hx
        · rw [hx]; rfl
      · intro x hx hox
        simp only [List.mem_append, List.mem_singleton] at hx
        rcases hx with hx | hx
        · exact hcont x hx hox
        · rw [hx]; exact segOK_fresh _ _ _ _ _
    · simp only [Prod.mk.injEq, and_true] at h
      obtain ⟨h5, h6⟩ := h
      subst h5 h6
      refine ⟨by rw [b1, hnext], ⟨⟨rinit, lb, ?_, h2, ?_, h4⟩, ?_, hoffs, hcfg, hI.mappable, hcont,
        hI.sized⟩⟩
      · simp only [hranges, List.length_append, List.length_singleton, Nat.add_assoc]
      · simp only [List.length_append, List.length_singleton]; omega
      · simp only [List.length_set]

theorem Log.findSegment_some {l : Log} {off : Nat} {ps : List Nat} {p : Nat} {s : segment}
    (h : l.findSegment off ps = some (p, s)) :
    l.heap[p]? = some s ∧ s.baseOffset ≤ off ∧ off < s.nextOffset ∧
    ∃ pre post, ps = pre ++ p :: post ∧
      ∀ q ∈ pre, ∀ t, l.heap[q]? = some t → ¬ (t.baseOffset ≤ off ∧ off < t.nextOffset) := by
  induction ps with
  | nil => simp [Log.findSegment] at h
  | cons q rest ih =>
    unfold Log.findSegment at h
    rw [List.get?_eq_getElem?] at h
    cases hq : l.heap[q]? with
    | none =>
      simp only [hq] at h
      obtain ⟨a, b, c, pre, post, e, f⟩ := ih h
      refine ⟨a, b, c, q :: pre, post, by rw [e]; rfl, ?_⟩
      intro x hx t ht
      rcases List.mem_cons.mp hx with hx | hx
      · subst hx; rw [hq] at ht; simp at ht
      · exact f x hx t ht
    | some t =>
      simp only [hq] at h
      split at h
      · rename_i hc
        simp only [Option.some.injEq, Prod.mk.injEq] at h
        obtain ⟨h1, h2⟩ := h
        subst h1 h2
        exact ⟨hq, hc.1, hc.2, [], rest, rfl, by simp⟩
      · rename_i hc
        obtain ⟨a, b, c, pre, post, e, f⟩ := ih h
        refine ⟨a, b, c, q :: pre, post, by rw [e]; rfl, ?_⟩
        intro x hx u hu
        rcases List.mem_cons.mp hx with hx | hx
        · subst hx
          rw [hq] at hu
          simp only [Option.some.injEq] at hu
          subst hu
          exact hc
        · exact f x hx u hu

theorem Log.findSegment_none {l : Log} {off : Nat} {ps : List Nat}
    (h : l.findSegment off ps = none) :
    ∀ q ∈ ps, ∀ t, l.heap[q]? = some t → ¬ (t.baseOffset ≤ off ∧ off < t.nextOffset) := by
  induction ps with
  | nil => simp
  | cons q rest ih =>
    unfold Log.findSegment at h
    rw [List.get?_eq_getElem?] at h
    cases hq : l.heap[q]? with
    | none =>
      simp only [hq] at h
      intro x hx t ht
      rcases List.mem_cons.mp hx with hx | hx
      · subst hx; rw [hq] at ht; simp at ht
      · exact ih h x hx t ht
    | some t =>
      simp only [hq] at h
      split at h
      · simp at h
      · rename_i hc
        intro x hx u hu
        rcases List.mem_cons.mp hx with hx | hx
        · subst hx
          rw [hq] at hu
          simp only [Option.some.injEq] at hu
          subst hu
          exact hc
        · exact ih h x hx u hu

theorem Log.Read_inv {cd : Codec} {o : Nat} {l : Log} {acks : List (Nat × Record)}
    (hI : Log.Inv cd o l acks) (off : Nat) : Log.Inv cd o (l.Read cd off).1 acks := by
  unfold Log.Read
  cases hf : l.findSegment off l.segments with
  | none => exact hI
  | some ps =>
    obtain ⟨p, s⟩ := ps
    obtain ⟨hp, _, _, _⟩ := Log.findSegment_some hf
    simp only
    split
    · exact hI
    · obtain ⟨k1, k2, k3, k4⟩ := segment.Read_keeps cd s off
      exact hI.set hp k1 k2 (fun h ho => k4 o acks (h (k3.mp ho))) (fun _ x => x) rfl rfl rfl

theorem Log.Inv.with_segments {cd : Codec} {o : Nat} {l : Log} {acks : List (Nat × Record)}
    (hI : Log.Inv cd o l acks) (segs : List Nat) :
    Log.Inv cd o { l with segments := segs } acks :=
  ⟨hI.shape, hI.active, hI.offsets, hI.config, hI.mappable, hI.content, hI.sized⟩

theorem Log.truncateLoop_inv {cd : Codec} {o : Nat} {acks : List (Nat × Record)} (lowest : Nat)
    (ps : List Nat) : ∀ (l : Log) (kept : List Nat), Log.Inv cd o l acks →
    Log.Inv cd o (l.truncateLoop lowest ps kept).1 acks := by
  induction ps with
  | nil => intro l kept hI; exact hI
  | cons p rest ih =>
    intro l kept hI
    unfold Log.truncateLoop
    rw [List.get?_eq_getElem?]
    cases hp : l.heap[p]? with
    | none => exact hI
    | some s =>
      simp only
      split
      · obtain ⟨hc, hd⟩ := segment.Remove_spec l.dir s
        generalize s.Remove l.dir = r at hc hd
        obtain ⟨d, s1, e⟩ := r
        simp only at hc hd
        have hI1 : Log.Inv cd o { l with dir := d, heap := l.heap.set p s1 } acks :=
          hI.set hp hc.range hc.config hc.segOK hd rfl rfl rfl
        cases e with
        | some e => exact hI1
        | none => exact ih _ kept hI1
      · exact ih l _ hI

theorem Log.Truncate_inv {cd : Codec} {o : Nat} {l : Log} {acks : List (Nat × Record)}
    (hI : Log.Inv cd o l acks) (lowest : Nat) : Log.Inv cd o (l.Truncate lowest).1 acks := by
  unfold Log.Truncate
  have h := Log.truncateLoop_inv lowest l.segments l [] hI
  generalize l.truncateLoop lowest l.segments [] = r at h
  obtain ⟨l1, res⟩ := r
  cases res with
  | error e => exact h
  | ok segs => exact Log.Inv.with_segments h segs

theorem Log.step_inv {cd : Codec} {o : Nat} {l : Log} {acks : List (Nat × Record)}
    (hI : Log.Inv cd o l acks) (op : Op) (hlt : o + (acks ++ (l.step cd op).2).length < u64) :
    Log.Inv cd o (l.step cd op).1 (acks ++ (l.step cd op).2) ∧
    ∀ x ∈ (l.step cd op).2, x.1 = o + acks.length := by
  cases op with
  | append r =>
    simp only [Log.step] at hlt ⊢
    generalize ha : l.Append cd r = res at hlt ⊢
    obtain ⟨l1, off, e⟩ := res
    cases e with
    | some e =>
      simp only [List.append_nil]
      exact ⟨Log.Append_inv_err hI ha, by simp⟩
    | none =>
      simp only [List.length_append, List.length_singleton] at hlt
      obtain ⟨h1, h2⟩ := Log.Append_inv_ok hI ha (by omega)
      exact ⟨h2, by simp [h1]⟩
  | read off =>
    simp only [Log.step, List.append_nil]
    exact ⟨Log.Read_inv hI off, by simp⟩
  | truncate lowest =>
    simp only [Log.step, List.append_nil]
    exact ⟨Log.Truncate_inv hI lowest, by simp⟩

theorem Log.run_inv {cd : Codec} {o : Nat} (ops : List Op) : ∀ (l : Log) (acks : List (Nat × Record)),
    Log.Inv cd o l acks → o + (acks ++ (l.run cd ops).2).length < u64 →
    Log.Inv cd o (l.run cd ops).1 (acks ++ (l.run cd ops).2) := by
  induction ops with
  | nil =>
    intro l acks hI _
    simpa [Log.run] using hI
  | cons op ops ih =>
    intro l acks hI hlt
    simp only [Log.run] at hlt ⊢
    rw [← List.append_assoc] at hlt ⊢
    have h1 := (Log.step_inv hI op (by
      simp only [List.length_append] at hlt ⊢
      omega)).1
    exact ih _ _ h1 hlt

theorem NewLog_empty {c : Config} {l0 : Log} (h : NewLog [] c = (l0, none)) :
    ∃ c2 : Config, c2.Segment.InitialOffset = c.Segment.InitialOffset ∧ Mappable c2 ∧
      l0 = { dir := [(storeName c.Segment.InitialOffset, []),
               (indexName c.Segment.InitialOffset, List.replicate (mapLen c2) 0)],
             Config := c2, heap := [freshSegment c.Segment.InitialOffset c2],
             activeSegment := some 0, segments := [0] } := by
  unfold NewLog at h
  dsimp only at h
  generalize hc2 : (if (if c.Segment.MaxStoreBytes = 0 then
      ({ c with Segment := { c.Segment with MaxStoreBytes := 1024 } } : Config) else c).Segment.MaxIndexBytes = 0
    then ({ (if c.Segment.MaxStoreBytes = 0 then
        ({ c with Segment := { c.Segment with MaxStoreBytes := 1024 } } : Config) else c) with
        Segment := { (if c.Segment.MaxStoreBytes = 0 then
          ({ c with Segment := { c.Segment with MaxStoreBytes := 1024 } } : Config) else c).Segment with
          MaxIndexBytes := 1024 } } : Config)
    else (if c.Segment.MaxStoreBytes = 0 then
      ({ c with Segment := { c.Segment with MaxStoreBytes := 1024 } } : Config) else c)) = c2 at h
  have hio : c2.Segment.InitialOffset = c.Segment.InitialOffset := by
    rw [← hc2]
    split <;> split <;> rfl
  refine ⟨c2, hio, ?_⟩
  unfold Log.setup at h
  simp only [List.map_nil, sortOffsets, Log.setupLoop, if_true] at h
  unfold Log.newSegment at h
  simp only at h
  have hm : Mappable c2 := by
    unfold newSegment at h
    dsimp only at h
    cases hi : newIndex (openCreate (openCreate [] (storeName c2.Segment.InitialOffset)).1
        (indexName c2.Segment.InitialOffset)).2 c2 with
    | error e => simp [hi] at h
    | ok i => exact newIndex_mappable hi
  refine ⟨hm, ?_⟩
  rw [newSegment_fresh (by simp) (by simp) hm] at h
  simp only [Prod.mk.injEq, and_true] at h
  rw [← h, hio]
  rfl

theorem NewLog_inv (cd : Codec) {c : Config} {l0 : Log} (h : NewLog [] c = (l0, none)) :
    Log.Inv cd c.Segment.InitialOffset l0 [] ∧ l0.segments = [0] ∧ l0.heap.length = 1 := by
  obtain ⟨c2, hio, hm, hl⟩ := NewLog_empty h
  subst hl
  refine ⟨⟨⟨[], c.Segment.InitialOffset, rfl, rfl, by simp, ?_⟩, rfl, rfl, ?_, hm, ?_, ?_⟩,
    rfl, rfl⟩
  rotate_right
  · intro e he
    simp only [List.mem_cons, List.mem_singleton, List.not_mem_nil, or_false] at he
    rcases he with he | he
    · rw [he]
      exact Nat.zero_le _
    · rw [he]
      simp
  · intro e he
    simp only [List.mem_cons, List.mem_singleton, List.not_mem_nil, or_false] at he
    rcases he with he | he
    · exact ⟨_, le_refl _, Or.inl (by rw [he])⟩
    · exact ⟨_, le_refl _, Or.inr (by rw [he])⟩
  · intro s hs
    simp only [List.mem_singleton] at hs
    rw [hs]
    rfl
  · intro s hs _
    simp only [List.mem_singleton] at hs
    rw [hs]
    exact segOK_fresh _ _ _ _ _

theorem Log.run_from_new (cd : Codec) {c : CommitLog.Config} {l0 : Log} (h : NewLog [] c = (l0, none))
    (ops : List Op) (hlt : c.Segment.InitialOffset + (l0.run cd ops).2.length < u64) :
    Log.Inv cd c.Segment.InitialOffset (l0.run cd ops).1 (l0.run cd ops).2 := by
  have := Log.run_inv ops l0 [] (NewLog_inv cd h).1 (by simpa using hlt)
  simpa using this

/-- C2. Offset assignment: in a log created by `NewLog` on an empty directory
with initial offset `o`, along any run of `Append`, `Read` and `Truncate`
calls whose successful appends number `n` with `o + n < 2^64`, the successful
`Append` calls return `o, o + 1, ..., o + n - 1` in this order, whatever the
size thresholds of the configuration and however many rotations occur; this
includes the appends that follow a `Truncate` which removed the active
segment. -/
theorem offsets_assigned (cd : Codec) (c : Config) (l0 : Log) (ops : List Op)
    (hnew : NewLog [] c = (l0, none))
    (hlt : c.Segment.InitialOffset + (l0.run cd ops).2.length < u64) :
    (l0.run cd ops).2.map Prod.fst
      = List.range' c.Segment.InitialOffset (l0.run cd ops).2.length :=
  (Log.run_from_new cd hnew ops hlt).offsets

/-- Witness of C2: on a log whose segments take three records, two appends,
a truncation that removes the only segment, which is the active one, and two
more appends: the third append goes to the removed segment, fills it and
makes the log rotate; the four appends return the offsets 0, 1, 2 and 3. -/
theorem offsets_assigned_witness :
    (NewLog [] threeEntryConfig = ((NewLog [] threeEntryConfig).1, none) ∧
      threeEntryConfig.Segment.InitialOffset +
        ((NewLog [] threeEntryConfig).1.run plainCodec
          [.append ⟨[10], 0⟩, .append ⟨[11], 0⟩, .truncate 5, .append ⟨[12], 0⟩,
            .append ⟨[13], 0⟩]).2.length < u64) ∧
    ((NewLog [] threeEntryConfig).1.run plainCodec
        [.append ⟨[10], 0⟩, .append ⟨[11], 0⟩, .truncate 5]).1.segments = [] ∧
    ((NewLog [] threeEntryConfig).1.run plainCodec
        [.append ⟨[10], 0⟩, .append ⟨[11], 0⟩, .truncate 5, .append ⟨[12], 0⟩,
          .append ⟨[13], 0⟩]).2.map Prod.fst = [0, 1, 2, 3] ∧
    ((NewLog [] threeEntryConfig).1.run plainCodec
        [.append ⟨[10], 0⟩, .append ⟨[11], 0⟩, .truncate 5, .append ⟨[12], 0⟩,
          .append ⟨[13], 0⟩]).2.map Prod.fst
      = List.range' threeEntryConfig.Segment.InitialOffset
          ((NewLog [] threeEntryConfig).1.run plainCodec
            [.append ⟨[10], 0⟩, .append ⟨[11], 0⟩, .truncate 5, .append ⟨[12], 0⟩,
              .append ⟨[13], 0⟩]).2.length :=
  ⟨⟨by decide, by decide⟩, by decide, by decide,
   offsets_assigned plainCodec threeEntryConfig (NewLog [] threeEntryConfig).1 _ (by decide)
     (by decide)⟩

/-! ## Lemmas: truncation -/

theorem Log.keeps_congr {l l1 : Log} (h : ∀ q : Nat, (l1.heap[q]?).map segment.range = (l.heap[q]?).map segment.range)
    (lowest p : Nat) : l1.keeps lowest p = l.keeps lowest p := by
  unfold Log.keeps
  have hp := h p
  cases h1 : l1.heap[p]? with
  | none =>
    cases h2 : l.heap[p]? with
    | none => rfl
    | some t => simp [h1, h2] at hp
  | some s =>
    cases h2 : l.heap[p]? with
    | none => simp [h1, h2] at hp
    | some t =>
      simp only [h1, h2, Option.map_some', Option.some.injEq] at hp
      have := congrArg Prod.snd hp
      simp only [segment.range] at this
      simp [this]

theorem getElem?_set_range {h : List segment} {p : Nat} {s s1 : segment} (hp : h[p]? = some s)
    (hr : s1.range = s.range) (q : Nat) :
    ((h.set p s1)[q]?).map segment.range = (h[q]?).map segment.range := by
  have := map_set_same segment.range hp hr
  have h2 := congrArg (fun l => l[q]?) this
  simp only [List.getElem?_map] at h2
  exact h2

theorem Log.truncateLoop_ok (lowest : Nat) (ps : List Nat) : ∀ (l : Log) (kept : List Nat)
    (l1 : Log) (segs : List Nat), l.truncateLoop lowest ps kept = (l1, .ok segs) →
    segs = kept ++ ps.filter (l.keeps lowest) ∧
    (∀ q : Nat, (l1.heap[q]?).map segment.range = (l.heap[q]?).map segment.range) ∧
    (∀ q, l.keeps lowest q = true → l1.heap[q]? = l.heap[q]?) ∧
    l1.heap.length = l.heap.length ∧ l1.Config = l.Config ∧
    l1.activeSegment = l.activeSegment ∧ l1.segments = l.segments := by
  induction ps with
  | nil =>
    intro l kept l1 segs h
    simp only [Log.truncateLoop, Prod.mk.injEq, Except.ok.injEq] at h
    obtain ⟨h1, h2⟩ := h
    subst h1 h2
    simp
  | cons p rest ih =>
    intro l kept l1 segs h
    unfold Log.truncateLoop at h
    rw [List.get?_eq_getElem?] at h
    cases hp : l.heap[p]? with
    | none => simp [hp] at h
    | some s =>
      simp only [hp] at h
      split at h
      · rename_i hc
        have hcl := (segment.Remove_spec l.dir s).1
        generalize s.Remove l.dir = r at h hcl
        obtain ⟨d, s1, e⟩ := r
        simp only at hcl
        cases e with
        | some e => simp at h
        | none =>
          simp only at h
          obtain ⟨a1, a2, a3, a4, a5, a6, a7⟩ := ih _ kept l1 segs h
          have hrange : ∀ q : Nat, (({ l with dir := d, heap := l.heap.set p s1 } : Log).heap[q]?).map
              segment.range = (l.heap[q]?).map segment.range :=
            fun q => getElem?_set_range hp hcl.range q
          have hk : ∀ q, ({ l with dir := d, heap := l.heap.set p s1 } : Log).keeps lowest q
              = l.keeps lowest q := Log.keeps_congr hrange lowest
          have hkp : l.keeps lowest p = false := by
            unfold Log.keeps
            simp only [hp, decide_eq_false_iff_not]
            omega
          refine ⟨?_, fun q => (a2 q).trans (hrange q), ?_, by simpa using a4, a5, a6, a7⟩
          · rw [a1, List.filter_cons, hkp]
            simp only [Bool.false_eq_true, if_false]
            congr 1
            exact List.filter_congr (fun q _ => hk q)
          · intro q hq
            rw [a3 q (by rw [hk q]; exact hq)]
            simp only
            have hqp : p ≠ q := by
              intro e
              subst e
              rw [hkp] at hq
              simp at hq
            rw [List.getElem?_set_ne hqp]
      · rename_i hc
        obtain ⟨a1, a2, a3, a4, a5, a6, a7⟩ := ih _ _ l1 segs h
        have hkp : l.keeps lowest p = true := by
          unfold Log.keeps
          simp only [hp, decide_eq_true_eq]
          omega
        refine ⟨?_, a2, a3, a4, a5, a6, a7⟩
        rw [a1, List.filter_cons, hkp]
        simp

/-- C5. Result list of `Truncate`: after a successful `Truncate(lowest)` with
`lowest < 2^64 - 1` the segment list is the previous list filtered by
`nextOffset > lowest + 1`, in the same order; the segment objects that are
kept are unchanged, and no segment object changes its base or next offset. -/
theorem truncate_result_list (l l1 : Log) (lowest : Nat) (hlow : lowest < u64 - 1)
    (h : l.Truncate lowest = (l1, none)) :
    l1.segments = l.segments.filter
      (fun p => match l.heap[p]? with
        | some s => decide (lowest + 1 < s.nextOffset)
        | none => false) ∧
    (∀ p ∈ l1.segments, l1.heap[p]? = l.heap[p]? ∧ ∃ s, l.heap[p]? = some s) ∧
    (∀ q : Nat, (l1.heap[q]?).map segment.range = (l.heap[q]?).map segment.range) := by
  unfold Log.Truncate at h
  generalize ht : l.truncateLoop lowest l.segments [] = r at h
  obtain ⟨l2, res⟩ := r
  cases res with
  | error e => simp at h
  | ok segs =>
    simp only [Prod.mk.injEq, and_true] at h
    subst h
    obtain ⟨a1, a2, a3, _, _, _, _⟩ := Log.truncateLoop_ok lowest l.segments l [] l2 segs ht
    have hmod : (lowest + 1) % u64 = lowest + 1 := Nat.mod_eq_of_lt (by omega)
    have hk : ∀ p, l.keeps lowest p = (match l.heap[p]? with
        | some s => decide (lowest + 1 < s.nextOffset)
        | none => false) := by
      intro p
      unfold Log.keeps
      rw [hmod]
    simp only [List.nil_append] at a1
    refine ⟨?_, ?_, a2⟩
    · simp only [a1]
      exact List.filter_congr (fun p _ => hk p)
    · intro p hp
      simp only [a1, List.mem_filter] at hp
      refine ⟨a3 p hp.2, ?_⟩
      have := hp.2
      unfold Log.keeps at this
      cases hq : l.heap[p]? with
      | none => simp [hq] at this
      | some s => exact ⟨s, rfl⟩

/-- Witness of C5: `Truncate(0)` on the log of three one record segments
removes the first segment and keeps the pointers 1, 2 and 3. -/
theorem truncate_result_list_witness :
    ((0 : Nat) < u64 - 1 ∧ threeSegments.Truncate 0 = ((threeSegments.Truncate 0).1, none)) ∧
    ((threeSegments.Truncate 0).1.segments = threeSegments.segments.filter
      (fun p => match threeSegments.heap[p]? with
        | some s => decide (0 + 1 < s.nextOffset)
        | none => false) ∧
    (∀ p ∈ (threeSegments.Truncate 0).1.segments,
      (threeSegments.Truncate 0).1.heap[p]? = threeSegments.heap[p]? ∧
      ∃ s, threeSegments.heap[p]? = some s) ∧
    (∀ q : Nat, ((threeSegments.Truncate 0).1.heap[q]?).map segment.range
      = (threeSegments.heap[q]?).map segment.range)) :=
  ⟨⟨by decide, by decide⟩,
   truncate_result_list threeSegments (threeSegments.Truncate 0).1 0 (by decide) (by decide)⟩

/-- C4, the behaviour of the code at the boundary: on the log of three one
record segments, offset 1 is readable; `Truncate(1)` succeeds and removes the
segment whose highest offset is 1, which is not lower than 1; afterwards the
record at offset 1 is out of range. -/
theorem truncate_boundary_removed :
    (threeSegments.Read plainCodec 1).2 = .ok ⟨[11], 1⟩ ∧
    (threeSegments.heap[1]?).map segment.range = some (1, 2) ∧
    (threeSegments.Truncate 1).2 = none ∧
    (threeSegments.Truncate 1).1.segments = [2, 3] ∧
    ((threeSegments.Truncate 1).1.Read plainCodec 1).2 = .error (Err.offsetOutOfRange 1) := by
  decide

/-! ## Lemmas: rotation -/

theorem newIndex_size {f : Bytes} {c : Config} {i : index} (h : newIndex f c = .ok i) :
    i.size = f.length % u64 := by
  unfold newIndex at h
  split at h
  · simp at h
  · dsimp only at h
    split at h
    · simp at h
    · simp only [Except.ok.injEq] at h
      rw [← h]

/-- What a successful `newSegment` built. -/
theorem newSegment_spec {dir d : Dir} {b : Nat} {c : Config} {s : segment}
    (h : newSegment dir b c = (d, .ok s)) :
    ∃ idx, newIndex ((dir.lookup (indexName b)).getD []) c = .ok idx ∧
      idx.Read (-1) ≠ .error Err.fault ∧
      s = ⟨newStore ((dir.lookup (storeName b)).getD []), idx, b,
        (match idx.Read (-1) with
          | .error _ => b
          | .ok (off, _) => (b + off + 1) % u64), c⟩ := by
  unfold newSegment at h
  dsimp only at h
  have hcontent : (openCreate (openCreate dir (storeName b)).1 (indexName b)).2
      = (dir.lookup (indexName b)).getD [] := by
    rw [openCreate_content, openCreate_lookup_ne dir (Ne.symm (storeName_ne_indexName b b))]
  rw [hcontent, openCreate_content] at h
  cases hi : newIndex ((dir.lookup (indexName b)).getD []) c with
  | error e => simp [hi] at h
  | ok i =>
    simp only [hi] at h
    refine ⟨i, rfl, ?_⟩
    cases hr : i.Read (-1) with
    | error e =>
      rw [hr] at h
      cases e <;> simp only [Prod.mk.injEq, Except.ok.injEq, reduceCtorEq, and_false] at h <;>
        exact ⟨by simp, h.2.symm⟩
    | ok v =>
      obtain ⟨off, pos⟩ := v
      rw [hr] at h
      simp only [Prod.mk.injEq, Except.ok.injEq] at h
      exact ⟨by simp, h.2.symm⟩

theorem newSegment_on {dir : Dir} {b : Nat} {c : Config} {idx : index}
    (hi : newIndex ((dir.lookup (indexName b)).getD []) c = .ok idx)
    (hnf : idx.Read (-1) ≠ .error Err.fault) :
    (newSegment dir b c).2 = .ok ⟨newStore ((dir.lookup (storeName b)).getD []), idx, b,
      (match idx.Read (-1) with
        | .error _ => b
        | .ok (off, _) => (b + off + 1) % u64), c⟩ := by
  unfold newSegment
  dsimp only
  have hcontent : (openCreate (openCreate dir (storeName b)).1 (indexName b)).2
      = (dir.lookup (indexName b)).getD [] := by
    rw [openCreate_content, openCreate_lookup_ne dir (Ne.symm (storeName_ne_indexName b b))]
  rw [hcontent, hi, openCreate_content]
  dsimp only
  cases hr : idx.Read (-1) with
  | error e =>
    cases e <;> first | rfl | exact absurd hr hnf
  | ok v => rfl

theorem newSegment_dir (dir : Dir) (b : Nat) (c : Config) :
    (newSegment dir b c).1 = setFile (openCreate (openCreate dir (storeName b)).1 (indexName b)).1
      (indexName b)
      (resizedIndexFile (openCreate (openCreate dir (storeName b)).1 (indexName b)).2 c) := by
  unfold newSegment
  dsimp only
  split
  · rfl
  · split <;> rfl

theorem newSegment_base {dir d : Dir} {b : Nat} {c : Config} {s : segment}
    (h : newSegment dir b c = (d, .ok s)) :
    s.baseOffset = b ∧ ((dir.lookup (indexName b)).getD [] = [] → s.nextOffset = b) := by
  obtain ⟨idx, hi, _, hs⟩ := newSegment_spec h
  rw [hs]
  refine ⟨rfl, ?_⟩
  intro he
  have hsize := newIndex_size hi
  rw [he] at hsize
  have hre := index.Read_size_zero (i := idx) (by simpa using hsize) (-1)
  dsimp only
  rw [hre]

theorem newSegment_open {dir d : Dir} {b : Nat} {c : Config} {s : segment}
    (h : newSegment dir b c = (d, .ok s)) : s.isOpen := by
  obtain ⟨idx, hi, _, hs⟩ := newSegment_spec h
  rw [hs]
  refine ⟨rfl, ?_⟩
  rw [newIndex_eq (newIndex_mappable hi)] at hi
  simp only [Except.ok.injEq] at hi
  rw [← hi]

theorem newSegment_files {dir d : Dir} {b : Nat} {c : Config} {s : segment}
    (h : newSegment dir b c = (d, .ok s)) :
    Mappable c ∧
    s = ⟨newStore ((dir.lookup (storeName b)).getD []),
      ⟨fileTruncate ((dir.lookup (indexName b)).getD []) (mapLen c),
        ((dir.lookup (indexName b)).getD []).length % u64, false⟩, b,
      (match (⟨fileTruncate ((dir.lookup (indexName b)).getD []) (mapLen c),
          ((dir.lookup (indexName b)).getD []).length % u64, false⟩ : index).Read (-1) with
        | .error _ => b
        | .ok (off, _) => (b + off + 1) % u64), c⟩ := by
  obtain ⟨idx, hi, _, hs⟩ := newSegment_spec h
  have hm := newIndex_mappable hi
  rw [newIndex_eq hm] at hi
  simp only [Except.ok.injEq] at hi
  subst hi
  exact ⟨hm, hs⟩
/-- One successful `Append` of any log: the active segment takes the record;
when it is maxed afterwards, one new segment object with base offset
`off + 1` is appended to the list and becomes active, and its next offset is
`off + 1` as well when the directory holds no index file of that base offset
or an empty one; otherwise the list and the active pointer stay. -/
theorem Log.Append_step (cd : Codec) (l l1 : Log) (record : Record) (off : Nat)
    (h : l.Append cd record = (l1, off, none)) :
    ∃ a seg, l.activeSegment = some a ∧ l.heap[a]? = some seg ∧
      l1.heap[a]? = some (seg.Append cd record).1 ∧
      ((seg.Append cd record).1.IsMaxed = true →
        l1.segments = l.segments ++ [l.heap.length] ∧
        l1.activeSegment = some l.heap.length ∧ l1.heap.length = l.heap.length + 1 ∧
        ∃ s, l1.heap[l.heap.length]? = some s ∧ s.baseOffset = (off + 1) % u64 ∧
          ((l.dir.lookup (indexName ((off + 1) % u64))).getD [] = [] →
            s.nextOffset = (off + 1) % u64)) ∧
      ((seg.Append cd record).1.IsMaxed = false →
        l1.segments = l.segments ∧ l1.activeSegment = l.activeSegment ∧
        l1.heap.length = l.heap.length) := by
  unfold Log.Append at h
  cases ha : l.activeSegment with
  | none => simp [ha] at h
  | some a =>
    simp only [ha, List.get?_eq_getElem?] at h
    cases hs : l.heap[a]? with
    | none => simp [hs] at h
    | some seg =>
      have halt : a < l.heap.length := (List.getElem?_eq_some_iff.mp hs).1
      simp only [hs] at h
      refine ⟨a, seg, rfl, hs, ?_⟩
      generalize hsa : seg.Append cd record = r at h
      obtain ⟨seg1, off1, e⟩ := r
      cases e with
      | some e => simp at h
      | none =>
        simp only at h ⊢
        cases hmax : seg1.IsMaxed with
        | true =>
          simp only [hmax, if_true] at h
          unfold Log.newSegment at h
          simp only at h
          generalize hns : CommitLog.newSegment l.dir ((off1 + 1) % u64) l.Config = r2 at h
          obtain ⟨d, res⟩ := r2
          cases res with
          | error e => simp at h
          | ok s =>
            simp only [Prod.mk.injEq, and_true] at h
            obtain ⟨h1, h2⟩ := h
            subst h1 h2
            obtain ⟨hb, hn⟩ := newSegment_base hns
            refine ⟨?_, ?_, ?_⟩
            · simp only [List.length_set]
              rw [List.getElem?_append_left (by simpa using halt)]
              simp [halt]
            · intro _
              refine ⟨by simp, by simp, by simp, s, ?_, hb, ?_⟩
              · simp only [List.length_set]
                rw [List.getElem?_append_right (by simp)]
                simp
              · intro he
                rw [hn he]
            · intro hc
              simp at hc
        | false =>
          simp only [hmax, Bool.false_eq_true, if_false, Prod.mk.injEq, and_true] at h
          obtain ⟨h1, h2⟩ := h
          subst h1 h2
          refine ⟨by simp [halt], fun hc => by simp at hc, fun _ => ⟨rfl, rfl, by simp⟩⟩

/-- C3, as amended. Rotation: after a successful `Log.Append` that returns
`off`, when the active segment after the write is maxed (store size at least
`MaxStoreBytes` or index size at least `MaxIndexBytes`), exactly one new
segment object is appended to the segment list, with base offset `off + 1`
(in 64 bits), and it becomes active; its next offset is `off + 1` too when the
directory holds no index file of that base offset or an empty one, which is
so in every log that was created on an empty directory; when the active
segment is not maxed, the segment list and the active pointer are unchanged. -/
theorem append_rotation :
    (∀ (cd : Codec) (l l1 : Log) (record : Record) (off : Nat),
      l.Append cd record = (l1, off, none) →
      ∃ a seg, l.activeSegment = some a ∧ l.heap[a]? = some seg ∧
        l1.heap[a]? = some (seg.Append cd record).1 ∧
        (((seg.Append cd record).1.store.size ≥ (seg.Append cd record).1.config.Segment.MaxStoreBytes ∨
          (seg.Append cd record).1.index.size ≥ (seg.Append cd record).1.config.Segment.MaxIndexBytes) →
          l1.segments = l.segments ++ [l.heap.length] ∧
          l1.activeSegment = some l.heap.length ∧ l1.heap.length = l.heap.length + 1 ∧
          ∃ s, l1.heap[l.heap.length]? = some s ∧ s.baseOffset = (off + 1) % u64 ∧
            ((l.dir.lookup (indexName ((off + 1) % u64))).getD [] = [] →
              s.nextOffset = (off + 1) % u64)) ∧
        (¬ ((seg.Append cd record).1.store.size ≥ (seg.Append cd record).1.config.Segment.MaxStoreBytes ∨
          (seg.Append cd record).1.index.size ≥ (seg.Append cd record).1.config.Segment.MaxIndexBytes) →
          l1.segments = l.segments ∧ l1.activeSegment = l.activeSegment ∧
          l1.heap.length = l.heap.length)) ∧
    (∀ (cd : Codec) (c : Config) (l0 l1 : Log) (ops : List Op) (record : Record) (off : Nat),
      NewLog [] c = (l0, none) →
      (l0.run cd ops).1.Append cd record = (l1, off, none) →
      c.Segment.InitialOffset + (l0.run cd ops).2.length + 1 < u64 →
      (off + 1) % u64 = off + 1 ∧
      ((l0.run cd ops).1.dir.lookup (indexName ((off + 1) % u64))).getD [] = []) := by
  constructor
  · intro cd l l1 record off h
    obtain ⟨a, seg, h1, h2, h3, h4, h5⟩ := Log.Append_step cd l l1 record off h
    refine ⟨a, seg, h1, h2, h3, ?_, ?_⟩
    · intro hm
      apply h4
      simpa [segment.IsMaxed] using hm
    · intro hm
      apply h5
      cases hx : (seg.Append cd record).1.IsMaxed with
      | false => rfl
      | true =>
        exfalso
        apply hm
        simpa [segment.IsMaxed] using hx
  · intro cd c l0 l1 ops record off hnew h hlt
    have hI := Log.run_from_new cd hnew ops (by omega)
    obtain ⟨hoff, _⟩ := Log.Append_inv_ok hI h hlt
    obtain ⟨rinit, lb, _, _, h3, h4⟩ := hI.shape
    have hm : (off + 1) % u64 = off + 1 := Nat.mod_eq_of_lt (by omega)
    refine ⟨hm, ?_⟩
    rw [hm, (h4.lookup_none (b := off + 1) (by omega)).2]
    rfl

/-- Witness of C3 (amended): the first append of a log on an empty directory
that rotates after every append. -/
theorem append_rotation_witness :
    (NewLog [] rotatingConfig0).1.Append plainCodec ⟨[7], 0⟩
      = (((NewLog [] rotatingConfig0).1.Append plainCodec ⟨[7], 0⟩).1, 0, none) ∧
    ∃ a seg, (NewLog [] rotatingConfig0).1.activeSegment = some a ∧
      (NewLog [] rotatingConfig0).1.heap[a]? = some seg ∧
      ((NewLog [] rotatingConfig0).1.Append plainCodec ⟨[7], 0⟩).1.heap[a]?
        = some (seg.Append plainCodec ⟨[7], 0⟩).1 ∧
      (((seg.Append plainCodec ⟨[7], 0⟩).1.store.size
            ≥ (seg.Append plainCodec ⟨[7], 0⟩).1.config.Segment.MaxStoreBytes ∨
          (seg.Append plainCodec ⟨[7], 0⟩).1.index.size
            ≥ (seg.Append plainCodec ⟨[7], 0⟩).1.config.Segment.MaxIndexBytes) →
        ((NewLog [] rotatingConfig0).1.Append plainCodec ⟨[7], 0⟩).1.segments
          = (NewLog [] rotatingConfig0).1.segments ++ [(NewLog [] rotatingConfig0).1.heap.length] ∧
        ((NewLog [] rotatingConfig0).1.Append plainCodec ⟨[7], 0⟩).1.activeSegment
          = some (NewLog [] rotatingConfig0).1.heap.length ∧
        ((NewLog [] rotatingConfig0).1.Append plainCodec ⟨[7], 0⟩).1.heap.length
          = (NewLog [] rotatingConfig0).1.heap.length + 1 ∧
        ∃ s, ((NewLog [] rotatingConfig0).1.Append plainCodec ⟨[7], 0⟩).1.heap[
            (NewLog [] rotatingConfig0).1.heap.length]? = some s ∧
          s.baseOffset = (0 + 1) % u64 ∧
          (((NewLog [] rotatingConfig0).1.dir.lookup (indexName ((0 + 1) % u64))).getD [] = [] →
            s.nextOffset = (0 + 1) % u64)) ∧
      (¬ ((seg.Append plainCodec ⟨[7], 0⟩).1.store.size
            ≥ (seg.Append plainCodec ⟨[7], 0⟩).1.config.Segment.MaxStoreBytes ∨
          (seg.Append plainCodec ⟨[7], 0⟩).1.index.size
            ≥ (seg.Append plainCodec ⟨[7], 0⟩).1.config.Segment.MaxIndexBytes) →
        ((NewLog [] rotatingConfig0).1.Append plainCodec ⟨[7], 0⟩).1.segments
          = (NewLog [] rotatingConfig0).1.segments ∧
        ((NewLog [] rotatingConfig0).1.Append plainCodec ⟨[7], 0⟩).1.activeSegment
          = (NewLog [] rotatingConfig0).1.activeSegment ∧
        ((NewLog [] rotatingConfig0).1.Append plainCodec ⟨[7], 0⟩).1.heap.length
          = (NewLog [] rotatingConfig0).1.heap.length) :=
  ⟨by decide, append_rotation.1 plainCodec (NewLog [] rotatingConfig0).1 _ ⟨[7], 0⟩ 0 (by decide)⟩

/-- Counterexample to C3 as stated: the directory holds an index file of base
offset 1 with one entry, left by another run. `NewLog` builds the one segment
of base offset 0; the first append returns offset 0 and maxes the segment;
the new active segment has base offset 1 and next offset 2, not `off + 1`. -/
theorem append_rotation_counterexample :
    (NewLog strayIndexDir rotatingConfig0).2 = none ∧
    (NewLog strayIndexDir rotatingConfig0).1.segments = [0] ∧
    ((NewLog strayIndexDir rotatingConfig0).1.Append plainCodec ⟨[7], 0⟩).2 = (0, none) ∧
    ((NewLog strayIndexDir rotatingConfig0).1.Append plainCodec ⟨[7], 0⟩).1.segments = [0, 1] ∧
    ((NewLog strayIndexDir rotatingConfig0).1.Append plainCodec ⟨[7], 0⟩).1.activeSegment = some 1 ∧
    (((NewLog strayIndexDir rotatingConfig0).1.Append plainCodec ⟨[7], 0⟩).1.heap[1]?).map
      segment.range = some (1, 2) := by
  decide

/-! ## Lemmas: the range check of `Log.Read` -/

theorem fileReadAt_err {f : Bytes} {n : Nat} {off : Int} {b : Bytes} {e : Err}
    (h : fileReadAt f n off = (b, some e)) : e.isRange = false := by
  unfold fileReadAt at h
  split at h
  · simp only [Prod.mk.injEq, Option.some.injEq] at h; rw [← h.2]; rfl
  · split at h
    · simp at h
    · dsimp only at h
      split at h
      · simp only [Prod.mk.injEq, Option.some.injEq] at h; rw [← h.2]; rfl
      · simp at h

theorem closedReadAt_err {n : Nat} {off : Int} {b : Bytes} {e : Err}
    (h : closedReadAt n off = (b, some e)) : e.isRange = false := by
  unfold closedReadAt at h
  split_ifs at h
  · simp only [Prod.mk.injEq, Option.some.injEq] at h; rw [← h.2]; rfl
  · simp at h
  · simp only [Prod.mk.injEq, Option.some.injEq] at h; rw [← h.2]; rfl

theorem store.Read_store_err {s : store} {pos : Nat} {e : Err} (h : (s.Read pos).2 = .error e) :
    e.isRange = false := by
  unfold store.Read at h
  split at h
  · dsimp only at h
    split at h
    · simp only [Except.error.injEq] at h; rw [← h]; rfl
    · split at h
      · rename_i hf
        simp only [Except.error.injEq] at h
        rw [← h]
        exact closedReadAt_err hf
      · simp only [Except.error.injEq] at h; rw [← h]; rfl
  · dsimp only at h
    split at h
    · rename_i hf
      simp only [Except.error.injEq] at h
      rw [← h]
      exact fileReadAt_err hf
    · split at h
      · simp only [Except.error.injEq] at h; rw [← h]; rfl
      · split at h
        · rename_i hf
          simp only [Except.error.injEq] at h
          rw [← h]
          exact fileReadAt_err hf
        · simp at h

theorem index.Read_index_err {i : index} {inp : Int} {e : Err} (h : i.Read inp = .error e) :
    e.isRange = false := by
  unfold index.Read at h
  dsimp only at h
  split_ifs at h <;> (simp only [Except.error.injEq] at h; rw [← h]; rfl)

theorem segment.Read_segment_err {cd : Codec} {s : segment} {off : Nat} {e : Err}
    (h : (s.Read cd off).2 = .error e) : e.isRange = false := by
  unfold segment.Read at h
  dsimp only at h
  split at h
  · rename_i e1 hi
    simp only [Except.error.injEq] at h
    rw [← h]
    exact index.Read_index_err hi
  · rename_i pos _
    split at h
    · rename_i st e1 hst
      simp only [Except.error.injEq] at h
      rw [← h]
      exact @store.Read_store_err s.store pos _ (by rw [hst])
    · split at h
      · simp only [Except.error.injEq] at h; rw [← h]; rfl
      · simp at h

theorem Log.Holds_iff_find (l : Log) (off : Nat) :
    l.Holds off ↔ ∃ p s, l.findSegment off l.segments = some (p, s) := by
  constructor
  · rintro ⟨p, hp, s, hs, h1, h2⟩
    cases hf : l.findSegment off l.segments with
    | some ps => exact ⟨ps.1, ps.2, rfl⟩
    | none =>
      exfalso
      exact Log.findSegment_none hf p hp s hs ⟨h1, h2⟩
  · rintro ⟨p, s, hf⟩
    obtain ⟨h1, h2, h3, pre, post, h4, _⟩ := Log.findSegment_some hf
    exact ⟨p, by rw [h4]; simp, s, h1, h2, h3⟩

theorem FullChain.pairwise {r : List (Nat × Nat)} {a b : Nat} (h : FullChain r a b) (e : Nat) :
    List.Pairwise (fun x y => x.2 ≤ y.1) (r ++ [(b, e)]) := by
  induction r generalizing a with
  | nil => simp
  | cons x xs ih =>
    obtain ⟨h1, h2, h3⟩ := h
    simp only [List.cons_append, List.pairwise_cons]
    refine ⟨?_, ih h3⟩
    intro y hy
    simp only [List.mem_append, List.mem_singleton] at hy
    rcases hy with hy | hy
    · exact (h3.bounds y hy).1
    · rw [hy]
      exact h3.le

theorem Log.Inv.range_bounds {cd : Codec} {o : Nat} {l : Log} {acks : List (Nat × Record)}
    (hI : Log.Inv cd o l acks) {s : segment} (hs : s ∈ l.heap) :
    o ≤ s.baseOffset ∧ s.baseOffset ≤ s.nextOffset ∧ s.nextOffset ≤ o + acks.length := by
  obtain ⟨rinit, lb, h1, h2, h3, _⟩ := hI.shape
  have hm : s.range ∈ l.heap.map segment.range := List.mem_map_of_mem _ hs
  rw [h1] at hm
  simp only [List.mem_append, List.mem_singleton] at hm
  rcases hm with hm | hm
  · have := h2.bounds _ hm
    have := h2.le
    simp only [segment.range] at *
    omega
  · have := h2.le
    have e1 := congrArg Prod.fst hm
    have e2 := congrArg Prod.snd hm
    simp only [segment.range] at e1 e2
    omega

theorem Log.Inv.disjoint {cd : Codec} {o : Nat} {l : Log} {acks : List (Nat × Record)}
    (hI : Log.Inv cd o l acks) {p q : Nat} {s t : segment} (hp : l.heap[p]? = some s)
    (hq : l.heap[q]? = some t) (hpq : p < q) : s.nextOffset ≤ t.baseOffset := by
  obtain ⟨rinit, lb, h1, h2, h3, _⟩ := hI.shape
  have hpw := h2.pairwise (o + acks.length)
  rw [← h1, List.pairwise_iff_getElem] at hpw
  have hpl : p < l.heap.length := (List.getElem?_eq_some_iff.mp hp).1
  have hql : q < l.heap.length := (List.getElem?_eq_some_iff.mp hq).1
  have := hpw p q (by simpa using hpl) (by simpa using hql) hpq
  simp only [List.getElem_map] at this
  have e1 : l.heap[p] = s := (List.getElem?_eq_some_iff.mp hp).2
  have e2 : l.heap[q] = t := (List.getElem?_eq_some_iff.mp hq).2
  rw [e1, e2] at this
  exact this

/-- The range check of `Log.Read` in any state of the log. -/
theorem Log.Read_holds (cd : Codec) (l : Log) (off : Nat) :
    ((l.Read cd off).2 = .error (Err.offsetOutOfRange off) ↔ ¬ l.Holds off) ∧
    (l.Holds off → ∃ pre p post s, l.segments = pre ++ p :: post ∧ l.heap[p]? = some s ∧
      s.baseOffset ≤ off ∧ off < s.nextOffset ∧
      (∀ q ∈ pre, ∀ t, l.heap[q]? = some t → ¬ (t.baseOffset ≤ off ∧ off < t.nextOffset)) ∧
      l.Read cd off = ({ l with heap := l.heap.set p (s.Read cd off).1 }, (s.Read cd off).2)) := by
  have hB : l.Holds off → ∃ pre p post s, l.segments = pre ++ p :: post ∧ l.heap[p]? = some s ∧
      s.baseOffset ≤ off ∧ off < s.nextOffset ∧
      (∀ q ∈ pre, ∀ t, l.heap[q]? = some t → ¬ (t.baseOffset ≤ off ∧ off < t.nextOffset)) ∧
      l.Read cd off = ({ l with heap := l.heap.set p (s.Read cd off).1 }, (s.Read cd off).2) := by
    intro hh
    obtain ⟨p, s, hf⟩ := (Log.Holds_iff_find l off).mp hh
    obtain ⟨h1, h2, h3, pre, post, h4, h5⟩ := Log.findSegment_some hf
    refine ⟨pre, p, post, s, h4, h1, h2, h3, h5, ?_⟩
    unfold Log.Read
    simp only [hf]
    rw [if_neg (by omega)]
  refine ⟨⟨?_, ?_⟩, hB⟩
  · intro h hh
    obtain ⟨pre, p, post, s, _, _, _, _, _, hr⟩ := hB hh
    rw [hr] at h
    have := segment.Read_segment_err h
    simp [Err.isRange] at this
  · intro hh
    have hf : l.findSegment off l.segments = none := by
      cases hf : l.findSegment off l.segments with
      | none => rfl
      | some ps => exact absurd ((Log.Holds_iff_find l off).mpr ⟨ps.1, ps.2, hf⟩) hh
    unfold Log.Read
    simp only [hf]

theorem Log.Append_shape (cd : Codec) (l : Log) (record : Record) :
    ((l.Append cd record).1.segments = l.segments ∧
      (l.Append cd record).1.heap.length = l.heap.length) ∨
    ((l.Append cd record).1.segments = l.segments ++ [l.heap.length] ∧
      (l.Append cd record).1.heap.length = l.heap.length + 1) := by
  unfold Log.Append
  cases l.activeSegment with
  | none => exact Or.inl ⟨rfl, rfl⟩
  | some a =>
    simp only
    cases l.heap.get? a with
    | none => exact Or.inl ⟨rfl, rfl⟩
    | some seg =>
      simp only
      generalize seg.Append cd record = r
      obtain ⟨seg1, off1, e⟩ := r
      cases e with
      | some e => exact Or.inl ⟨rfl, by simp⟩
      | none =>
        simp only
        split
        · unfold Log.newSegment
          simp only
          generalize CommitLog.newSegment l.dir ((off1 + 1) % u64) l.Config = r2
          obtain ⟨d, res⟩ := r2
          cases res with
          | error e => exact Or.inl ⟨rfl, by simp⟩
          | ok s => exact Or.inr ⟨by simp, by simp⟩
        · exact Or.inl ⟨rfl, by simp⟩

theorem Log.Read_shape (cd : Codec) (l : Log) (off : Nat) :
    (l.Read cd off).1.segments = l.segments ∧ (l.Read cd off).1.heap.length = l.heap.length := by
  unfold Log.Read
  cases l.findSegment off l.segments with
  | none => exact ⟨rfl, rfl⟩
  | some ps =>
    simp only
    split
    · exact ⟨rfl, rfl⟩
    · exact ⟨rfl, by simp⟩

theorem Log.run_segments (cd : Codec) (ops : List Op) : ∀ (l : Log),
    (∀ op ∈ ops, op.isTruncate = false) → l.segments = List.range l.heap.length →
    (l.run cd ops).1.segments = List.range (l.run cd ops).1.heap.length := by
  induction ops with
  | nil => intro l _ h; exact h
  | cons op ops ih =>
    intro l hnt h
    simp only [Log.run]
    apply ih _ (fun x hx => hnt x (List.mem_cons_of_mem _ hx))
    have hop := hnt op (List.mem_cons_self _ _)
    cases op with
    | truncate lowest => simp [Op.isTruncate] at hop
    | read off =>
      simp only [Log.step]
      obtain ⟨h1, h2⟩ := Log.Read_shape cd l off
      rw [h1, h2, h]
    | append r =>
      have hs := Log.Append_shape cd l r
      have e : (l.step cd (.append r)).1 = (l.Append cd r).1 := by
        simp only [Log.step]
        generalize l.Append cd r = res
        obtain ⟨l1, off, e⟩ := res
        cases e <;> rfl
      rw [e]
      rcases hs with ⟨h1, h2⟩ | ⟨h1, h2⟩
      · rw [h1, h2, h]
      · rw [h1, h2, h, List.range_succ]

theorem Log.Inv.first_base {cd : Codec} {o : Nat} {l : Log} {acks : List (Nat × Record)}
    (hI : Log.Inv cd o l acks) : ∃ s, l.heap[0]? = some s ∧ s.baseOffset = o := by
  obtain ⟨rinit, lb, h1, h2, _, _⟩ := hI.shape
  have h0 : (l.heap.map segment.range)[0]? = some (o, ((rinit ++ [(lb, o + acks.length)])[0]?.map Prod.snd).getD 0) := by
    rw [h1]
    cases rinit with
    | nil =>
      simp only [FullChain] at h2
      subst h2
      simp
    | cons x xs =>
      obtain ⟨h3, _, _⟩ := h2
      simp [← h3]
  rw [List.getElem?_map] at h0
  cases hs : l.heap[0]? with
  | none => simp [hs] at h0
  | some s =>
    simp only [hs, Option.map_some', Option.some.injEq] at h0
    exact ⟨s, rfl, congrArg Prod.fst h0⟩

/-- C7. Offset bounds: in a log created on an empty directory with initial
offset `o`, after any run of `Append` and `Read` calls without `Truncate` in
which `n ≥ 1` appends succeeded, `o + n < 2^64`, `LowestOffset` returns `o`
and `HighestOffset` returns `o + n - 1`, the offset of the last record
appended, also when the active segment is a new, empty one. -/
theorem offset_bounds (cd : Codec) (c : Config) (l0 : Log) (ops : List Op)
    (hnew : NewLog [] c = (l0, none)) (hnt : ∀ op ∈ ops, op.isTruncate = false)
    (hn : 1 ≤ (l0.run cd ops).2.length)
    (hlt : c.Segment.InitialOffset + (l0.run cd ops).2.length < u64) :
    (l0.run cd ops).1.LowestOffset = .ok c.Segment.InitialOffset ∧
    (l0.run cd ops).1.HighestOffset
      = .ok (c.Segment.InitialOffset + (l0.run cd ops).2.length - 1) := by
  have hI := Log.run_from_new cd hnew ops hlt
  obtain ⟨_, hseg0, hlen0⟩ := NewLog_inv cd hnew
  have hsegs := Log.run_segments cd ops l0 hnt (by rw [hseg0, hlen0]; rfl)
  obtain ⟨s0, hs0, hb0⟩ := hI.first_base
  obtain ⟨s1, hs1, hn1, _⟩ := hI.active_segment
  have hpos : 0 < (l0.run cd ops).1.heap.length := (List.getElem?_eq_some_iff.mp hs0).1
  obtain ⟨k, hk⟩ : ∃ k, (l0.run cd ops).1.heap.length = k + 1 := ⟨_, (Nat.succ_pred_eq_of_pos hpos).symm⟩
  constructor
  · unfold Log.LowestOffset
    rw [hsegs, hk, List.range_succ_eq_map]
    simp only [List.head?_cons, List.get?_eq_getElem?, hs0, hb0]
  · unfold Log.HighestOffset
    rw [hsegs, hk, List.range_succ, List.getLast?_append]
    simp only [List.getLast?_singleton, Option.or_some, List.get?_eq_getElem?]
    rw [hk, Nat.add_sub_cancel] at hs1
    simp only [hs1, hn1]
    rw [if_neg (by omega)]

/-- Witness of C7: three appends and a read on the log that rotates after
every append and starts at offset 5; the active segment is empty. -/
theorem offset_bounds_witness :
    (NewLog [] rotatingConfig = ((NewLog [] rotatingConfig).1, none) ∧
      (∀ op ∈ [Op.append ⟨[1], 0⟩, .read 5, .append ⟨[2, 3], 0⟩, .append ⟨[], 0⟩],
        op.isTruncate = false) ∧
      1 ≤ ((NewLog [] rotatingConfig).1.run plainCodec
        [.append ⟨[1], 0⟩, .read 5, .append ⟨[2, 3], 0⟩, .append ⟨[], 0⟩]).2.length ∧
      rotatingConfig.Segment.InitialOffset + ((NewLog [] rotatingConfig).1.run plainCodec
        [.append ⟨[1], 0⟩, .read 5, .append ⟨[2, 3], 0⟩, .append ⟨[], 0⟩]).2.length < u64) ∧
    (((NewLog [] rotatingConfig).1.run plainCodec
        [.append ⟨[1], 0⟩, .read 5, .append ⟨[2, 3], 0⟩, .append ⟨[], 0⟩]).1.LowestOffset
      = .ok rotatingConfig.Segment.InitialOffset ∧
    ((NewLog [] rotatingConfig).1.run plainCodec
        [.append ⟨[1], 0⟩, .read 5, .append ⟨[2, 3], 0⟩, .append ⟨[], 0⟩]).1.HighestOffset
      = .ok (rotatingConfig.Segment.InitialOffset + ((NewLog [] rotatingConfig).1.run plainCodec
        [.append ⟨[1], 0⟩, .read 5, .append ⟨[2, 3], 0⟩, .append ⟨[], 0⟩]).2.length - 1)) :=
  ⟨⟨by decide, by decide, by decide, by decide⟩,
   offset_bounds plainCodec rotatingConfig (NewLog [] rotatingConfig).1
     [.append ⟨[1], 0⟩, .read 5, .append ⟨[2, 3], 0⟩, .append ⟨[], 0⟩]
     (by decide) (by decide) (by decide) (by decide)⟩

/-! ## Lemmas: the segments of the list stay open -/

theorem openCreate_lookup_self (dir : Dir) (name : String) :
    ((openCreate dir name).1.lookup name).isSome := by
  unfold openCreate
  cases hl : dir.lookup name with
  | some f => simp [hl]
  | none => simp [List.lookup_append, hl, List.lookup]

theorem openCreate_lookup_keep (dir : Dir) (name other : String)
    (h : (dir.lookup other).isSome) : ((openCreate dir name).1.lookup other).isSome := by
  unfold openCreate
  cases hl : dir.lookup name with
  | some f => exact h
  | none =>
    simp only [List.lookup_append]
    cases ho : dir.lookup other with
    | none => simp [ho] at h
    | some x => simp

theorem Log.Live.lt {l : Log} (h : l.Live) {p : Nat} (hp : p ∈ l.segments) : p < l.heap.length := by
  obtain ⟨s, hs, _⟩ := h.live p hp
  exact (List.getElem?_eq_some_iff.mp hs).1

theorem Log.Live.set_heap {l l1 : Log} (h : l.Live) {a : Nat} {s1 : segment}
    (hs1 : ∀ s, l.heap[a]? = some s → s1.baseOffset = s.baseOffset ∧ (s.isOpen → s1.isOpen))
    (hheap : l1.heap = l.heap.set a s1) (hdir : l1.dir = l.dir) (hsegs : l1.segments = l.segments) :
    l1.Live := by
  refine ⟨?_, hsegs ▸ h.nodup⟩
  intro p hp
  rw [hsegs] at hp
  obtain ⟨s, hs, ho, hn1, hn2⟩ := h.live p hp
  rw [hheap, hdir]
  by_cases hpa : a = p
  · subst hpa
    obtain ⟨hb, hop⟩ := hs1 s hs
    refine ⟨s1, ?_, hop ho, by rw [hb]; exact hn1, by rw [hb]; exact hn2⟩
    rw [List.getElem?_set_self (h.lt hp)]
  · exact ⟨s, by rw [List.getElem?_set_ne hpa]; exact hs, ho, hn1, hn2⟩

theorem Log.Append_live (cd : Codec) {l : Log} (h : l.Live) (record : Record) :
    (l.Append cd record).1.Live := by
  unfold Log.Append
  cases ha : l.activeSegment with
  | none => exact h
  | some a =>
    simp only [List.get?_eq_getElem?]
    cases hs : l.heap[a]? with
    | none => exact h
    | some seg =>
      simp only
      obtain ⟨k1, k2⟩ := segment.Append_keeps cd seg record
      generalize seg.Append cd record = r at k1 k2
      obtain ⟨seg1, off1, e⟩ := r
      simp only at k1 k2
      have hset : ∀ s, l.heap[a]? = some s → seg1.baseOffset = s.baseOffset ∧ (s.isOpen → seg1.isOpen) := by
        intro s hs2
        rw [hs] at hs2
        simp only [Option.some.injEq] at hs2
        subst hs2
        exact ⟨k1, k2.mpr⟩
      have hL0 : ∀ act : Option Nat, ({ l with heap := l.heap.set a seg1, activeSegment := act } : Log).Live :=
        fun act => h.set_heap hset rfl rfl rfl
      have hL1 := hL0 (some a)
      cases e with
      | some e => exact hL1
      | none =>
        simp only
        split
        · unfold Log.newSegment
          simp only
          have hd := newSegment_dir l.dir ((off1 + 1) % u64) l.Config
          generalize hns : CommitLog.newSegment l.dir ((off1 + 1) % u64) l.Config = r2 at hd
          obtain ⟨d, res⟩ := r2
          simp only at hd
          cases res with
          | error e =>
            simp only
            refine ⟨?_, hL1.nodup⟩
            intro p hp
            obtain ⟨s, hs3, ho, hn1, hn2⟩ := hL1.live p hp
            refine ⟨s, hs3, ho, ?_, ?_⟩
            · rw [hd, setFile_lookup_isSome]
              exact openCreate_lookup_keep _ _ _ (openCreate_lookup_keep _ _ _ hn1)
            · rw [hd, setFile_lookup_isSome]
              exact openCreate_lookup_keep _ _ _ (openCreate_lookup_keep _ _ _ hn2)
          | ok s =>
            simp only
            have hso := newSegment_open hns
            have hsb := (newSegment_base hns).1
            refine ⟨?_, ?_⟩
            · intro p hp
              simp only [List.mem_append, List.mem_singleton] at hp
              rcases hp with hp | hp
              · obtain ⟨t, ht, ho, hn1, hn2⟩ := hL1.live p hp
                refine ⟨t, ?_, ho, ?_, ?_⟩
                · simp only at ht ⊢
                  rw [List.getElem?_append_left (by simpa using hL1.lt hp)]
                  exact ht
                · rw [hd, setFile_lookup_isSome]
                  exact openCreate_lookup_keep _ _ _ (openCreate_lookup_keep _ _ _ hn1)
                · rw [hd, setFile_lookup_isSome]
                  exact openCreate_lookup_keep _ _ _ (openCreate_lookup_keep _ _ _ hn2)
              · refine ⟨s, ?_, hso, ?_, ?_⟩
                · rw [hp]
                  simp only
                  rw [List.getElem?_append_right (le_refl _)]
                  simp
                · rw [hd, setFile_lookup_isSome, hsb]
                  exact openCreate_lookup_self _ _
                · rw [hd, setFile_lookup_isSome, hsb]
                  exact openCreate_lookup_keep _ _ _ (openCreate_lookup_self _ _)
            · simp only
              rw [List.nodup_append]
              refine ⟨h.nodup, by simp, ?_⟩
              intro x hx1 hx2
              simp only [List.mem_singleton] at hx2
              have := h.lt hx1
              simp only [List.length_set] at hx2
              omega
        · exact hL1

theorem Log.Read_live (cd : Codec) {l : Log} (h : l.Live) (off : Nat) : (l.Read cd off).1.Live := by
  unfold Log.Read
  cases hf : l.findSegment off l.segments with
  | none => exact h
  | some ps =>
    obtain ⟨p, s⟩ := ps
    obtain ⟨hp, _, _, _⟩ := Log.findSegment_some hf
    simp only
    split
    · exact h
    · obtain ⟨k1, _, k3, _⟩ := segment.Read_keeps cd s off
      refine h.set_heap ?_ rfl rfl rfl
      intro t ht
      rw [hp] at ht
      simp only [Option.some.injEq] at ht
      subst ht
      exact ⟨congrArg Prod.fst k1, k3.mpr⟩

theorem removeFile_ok {dir : Dir} {name : String} (h : (dir.lookup name).isSome) :
    removeFile dir name = (dir.filter (fun e => e.1 != name), none) := by
  unfold removeFile
  cases hl : dir.lookup name with
  | none => simp [hl] at h
  | some f => rfl

theorem lookup_filter_ne (dir : Dir) {name other : String} (h : other ≠ name) :
    (dir.filter (fun e => e.1 != name)).lookup other = dir.lookup other := by
  induction dir with
  | nil => rfl
  | cons e rest ih =>
    obtain ⟨n, f⟩ := e
    by_cases hn : n = name
    · subst hn
      have h1 : ((n != n) : Bool) = false := by simp
      have h2 : (other == n) = false := beq_eq_false_iff_ne.mpr h
      rw [List.filter_cons]
      simp only [h1, Bool.false_eq_true, if_false, List.lookup_cons, h2]
      exact ih
    · have h1 : ((n != name) : Bool) = true := by simpa using hn
      rw [List.filter_cons]
      simp only [h1, if_true, List.lookup_cons]
      rw [ih]

theorem segment.Remove_ok (dir : Dir) {s : segment} (ho : s.isOpen) (hsz : s.index.size < 2 ^ 63)
    (h1 : (dir.lookup (indexName s.baseOffset)).isSome)
    (h2 : (dir.lookup (storeName s.baseOffset)).isSome) :
    (s.Remove dir).2.2 = none ∧
    (s.Remove dir).1 = (dir.filter (fun e => e.1 != indexName s.baseOffset)).filter
      (fun e => e.1 != storeName s.baseOffset) := by
  obtain ⟨ho1, ho2⟩ := ho
  have hi : s.index.Close = ({ s.index with closed := true }, fileTruncate s.index.mmap s.index.size, none) := by
    unfold index.Close
    have : ¬ (toInt64 s.index.size < 0) := by
      rw [toInt64_of_lt hsz]
      omega
    simp [ho2, this]
  have hs : s.store.Close = ({ s.store.flush with handle := Handle.shut }, none) := by
    unfold store.Close
    simp [ho1]
  have h3 : ((dir.filter (fun e => e.1 != indexName s.baseOffset)).lookup (storeName s.baseOffset)).isSome := by
    rw [lookup_filter_ne dir (storeName_ne_indexName _ _)]
    exact h2
  unfold segment.Remove segment.Close
  simp only [hi, hs, removeFile_ok h1, removeFile_ok h3]
  constructor <;> trivial

theorem FullChain.pairwise_base {r : List (Nat × Nat)} {a b : Nat} (h : FullChain r a b) (e : Nat) :
    List.Pairwise (fun x y => x.1 < y.1) (r ++ [(b, e)]) := by
  induction r generalizing a with
  | nil => simp
  | cons x xs ih =>
    obtain ⟨h1, h2, h3⟩ := h
    simp only [List.cons_append, List.pairwise_cons]
    refine ⟨?_, ih h3⟩
    intro y hy
    simp only [List.mem_append, List.mem_singleton] at hy
    rcases hy with hy | hy
    · have := (h3.bounds y hy).1
      omega
    · rw [hy]
      have := h3.le
      simp only
      omega

theorem Log.Inv.base_ne {cd : Codec} {o : Nat} {l : Log} {acks : List (Nat × Record)}
    (hI : Log.Inv cd o l acks) {p q : Nat} {s t : segment} (hp : l.heap[p]? = some s)
    (hq : l.heap[q]? = some t) (hpq : p ≠ q) : s.baseOffset ≠ t.baseOffset := by
  obtain ⟨rinit, lb, h1, h2, h3, _⟩ := hI.shape
  have hpw := h2.pairwise_base (o + acks.length)
  rw [← h1, List.pairwise_iff_getElem] at hpw
  have hpl : p < l.heap.length := (List.getElem?_eq_some_iff.mp hp).1
  have hql : q < l.heap.length := (List.getElem?_eq_some_iff.mp hq).1
  have e1 : l.heap[p] = s := (List.getElem?_eq_some_iff.mp hp).2
  have e2 : l.heap[q] = t := (List.getElem?_eq_some_iff.mp hq).2
  rcases Nat.lt_or_gt_of_ne hpq with hlt | hlt
  · have := hpw p q (by simpa using hpl) (by simpa using hql) hlt
    simp only [List.getElem_map, e1, e2, segment.range] at this
    omega
  · have := hpw q p (by simpa using hql) (by simpa using hpl) hlt
    simp only [List.getElem_map, e1, e2, segment.range] at this
    omega

theorem Log.truncateLoop_live {cd : Codec} {o : Nat} {acks : List (Nat × Record)} (lowest : Nat)
    (ps : List Nat) : ∀ (l : Log) (kept : List Nat), Log.Inv cd o l acks →
    (∀ p ∈ kept ++ ps, ∃ s, l.heap[p]? = some s ∧ s.isOpen ∧
      (l.dir.lookup (indexName s.baseOffset)).isSome ∧
      (l.dir.lookup (storeName s.baseOffset)).isSome) →
    (kept ++ ps).Nodup →
    ∃ l1 segs, l.truncateLoop lowest ps kept = (l1, .ok segs) ∧
      (∀ p ∈ segs, ∃ s, l1.heap[p]? = some s ∧ s.isOpen ∧
        (l1.dir.lookup (indexName s.baseOffset)).isSome ∧
        (l1.dir.lookup (storeName s.baseOffset)).isSome) ∧
      segs.Nodup := by
  induction ps with
  | nil =>
    intro l kept _ hlive hnd
    exact ⟨l, kept, rfl, by simpa using hlive, by simpa using hnd⟩
  | cons p rest ih =>
    intro l kept hI hlive hnd
    obtain ⟨s, hs, ho, hn1, hn2⟩ := hlive p (by simp)
    unfold Log.truncateLoop
    rw [List.get?_eq_getElem?]
    simp only [hs]
    split
    · -- the segment is removed
      have hS := hI.content s (List.getElem?_mem hs) ho
      have hsz : s.index.size < 2 ^ 63 := by
        have := hS.indexCap
        have := hS.mapCap
        omega
      obtain ⟨r1, r2⟩ := segment.Remove_ok l.dir ho hsz hn1 hn2
      obtain ⟨hc, hd⟩ := segment.Remove_spec l.dir s
      generalize s.Remove l.dir = r at r1 r2 hc hd
      obtain ⟨d, s1, e⟩ := r
      simp only at r1 r2 hc hd
      subst r1
      simp only
      have hI1 : Log.Inv cd o { l with dir := d, heap := l.heap.set p s1 } acks :=
        hI.set hs hc.range hc.config hc.segOK hd rfl rfl rfl
      have hnd1 : (kept ++ rest).Nodup := by
        have := hnd
        rw [List.nodup_append] at this ⊢
        obtain ⟨a1, a2, a3⟩ := this
        exact ⟨a1, (List.nodup_cons.mp a2).2, fun x hx1 hx2 => a3 hx1 (List.mem_cons_of_mem _ hx2)⟩
      apply ih _ kept hI1 _ hnd1
      intro q hq
      have hq2 : q ∈ kept ++ p :: rest := by
        simp only [List.mem_append, List.mem_cons] at hq ⊢
        rcases hq with hq | hq
        · exact Or.inl hq
        · exact Or.inr (Or.inr hq)
      have hqp : p ≠ q := by
        intro e
        subst e
        rw [List.nodup_append] at hnd
        obtain ⟨_, a2, a3⟩ := hnd
        simp only [List.mem_append] at hq
        rcases hq with hq | hq
        · exact a3 hq (List.mem_cons_self _ _)
        · exact (List.nodup_cons.mp a2).1 hq
      obtain ⟨t, ht, hto, htn1, htn2⟩ := hlive q hq2
      have hbne : t.baseOffset ≠ s.baseOffset := hI.base_ne ht hs (Ne.symm hqp)
      refine ⟨t, ?_, hto, ?_, ?_⟩
      · simp only
        rw [List.getElem?_set_ne hqp]
        exact ht
      · simp only
        rw [r2, lookup_filter_ne _ (fun e => storeName_ne_indexName _ _ e.symm),
          lookup_filter_ne _ (fun e => hbne (indexName_inj e))]
        exact htn1
      · simp only
        rw [r2, lookup_filter_ne _ (fun e => hbne (storeName_inj e)),
          lookup_filter_ne _ (storeName_ne_indexName _ _)]
        exact htn2
    · apply ih l (kept ++ [p]) hI
      · intro q hq
        apply hlive q
        simpa [List.append_assoc] using hq
      · simpa [List.append_assoc] using hnd

theorem Log.Truncate_live {cd : Codec} {o : Nat} {l : Log} {acks : List (Nat × Record)}
    (hI : Log.Inv cd o l acks) (h : l.Live) (lowest : Nat) :
    (l.Truncate lowest).2 = none ∧ (l.Truncate lowest).1.Live := by
  obtain ⟨l1, segs, h1, h2, h3⟩ := Log.truncateLoop_live lowest l.segments l [] hI
    (by simpa using h.live) (by simpa using h.nodup)
  unfold Log.Truncate
  rw [h1]
  exact ⟨rfl, ⟨h2, h3⟩⟩

theorem Log.step_live {cd : Codec} {o : Nat} {l : Log} {acks : List (Nat × Record)}
    (hI : Log.Inv cd o l acks) (h : l.Live) (op : Op) : (l.step cd op).1.Live := by
  cases op with
  | append r =>
    have e : (l.step cd (.append r)).1 = (l.Append cd r).1 := by
      simp only [Log.step]
      generalize l.Append cd r = res
      obtain ⟨l1, off, e⟩ := res
      cases e <;> rfl
    rw [e]
    exact Log.Append_live cd h r
  | read off => exact Log.Read_live cd h off
  | truncate lowest => exact (Log.Truncate_live hI h lowest).2

theorem Log.run_live {cd : Codec} {o : Nat} (ops : List Op) : ∀ (l : Log) (acks : List (Nat × Record)),
    Log.Inv cd o l acks → l.Live → o + (acks ++ (l.run cd ops).2).length < u64 →
    (l.run cd ops).1.Live := by
  induction ops with
  | nil => intro l acks _ h _; exact h
  | cons op ops ih =>
    intro l acks hI h hlt
    simp only [Log.run] at hlt ⊢
    rw [← List.append_assoc] at hlt
    have h1 := (Log.step_inv hI op (by
      simp only [List.length_append] at hlt ⊢
      omega)).1
    exact ih _ _ h1 (Log.step_live hI h op) hlt

theorem NewLog_live {c : Config} {l0 : Log} (h : NewLog [] c = (l0, none)) : l0.Live := by
  obtain ⟨c2, hio, hm, hl⟩ := NewLog_empty h
  subst hl
  refine ⟨?_, by simp⟩
  intro p hp
  simp only [List.mem_singleton] at hp
  subst hp
  refine ⟨freshSegment c.Segment.InitialOffset c2, rfl, ⟨rfl, rfl⟩, ?_, ?_⟩
  · have hne : (indexName c.Segment.InitialOffset == storeName c.Segment.InitialOffset) = false :=
      beq_eq_false_iff_ne.mpr (Ne.symm (storeName_ne_indexName _ _))
    simp [freshSegment, List.lookup, hne]
  · simp [freshSegment, List.lookup]

theorem plainCodec_roundTrips (r : Record) (h : r.Offset < u64) : plainCodec.RoundTrips r := by
  intro p hp
  simp only [plainCodec, Option.some.injEq] at hp
  subst hp
  have hlen : ¬ ((putUint64 r.Offset ++ r.Value).length < 8) := by
    simp [putUint64_length]
  have ht : List.take 8 (putUint64 r.Offset ++ r.Value) = putUint64 r.Offset :=
    List.take_left' (putUint64_length _)
  have hd : List.drop 8 (putUint64 r.Offset ++ r.Value) = r.Value :=
    List.drop_left' (putUint64_length _)
  simp only [plainCodec, hlen, if_false, ht, hd, uint64Of_putUint64, Nat.mod_eq_of_lt h]

theorem Log.acks_at {cd : Codec} {o : Nat} {l : Log} {acks : List (Nat × Record)}
    (hI : Log.Inv cd o l acks) {off : Nat} {r : Record} (h : (off, r) ∈ acks) :
    acks[off - o]? = some (off, r) := by
  obtain ⟨k, hk⟩ := List.mem_iff_getElem?.mp h
  have hlt : k < acks.length := (List.getElem?_eq_some_iff.mp hk).1
  have h1 : (acks.map Prod.fst)[k]? = some off := by
    rw [List.getElem?_map, hk]
    rfl
  rw [hI.offsets, List.getElem?_range' _ _ hlt] at h1
  simp only [Nat.one_mul, Option.some.injEq] at h1
  have : off - o = k := by omega
  rw [this]
  exact hk

theorem index.Write_room {i : index}
    (hroom : i.size + entWidth ≤ i.mmap.length) (hm : i.mmap.length < u64) (off pos : Nat) :
    (i.Write off pos).2 = none := by
  unfold index.Write
  have h1 : ¬ (i.mmap.length < (i.size + entWidth) % u64) := by
    rw [Nat.mod_eq_of_lt (by omega)]
    omega
  have h2 : ¬ (i.mmap.length < i.size + entWidth) := by omega
  simp [h1, h2]

theorem segment.Append_room {cd : Codec} {s : segment} {record : Record} {p : Bytes}
    (ho : s.isOpen) (hm : cd.Marshal { record with Offset := s.nextOffset } = some p)
    (hroom : s.index.size + entWidth ≤ s.index.mmap.length) (hcap : s.index.mmap.length < u64) :
    ∃ s1, s.Append cd record = (s1, s.nextOffset, none) ∧ s1.store = (s.store.Append p).1 ∧
      s1.index.size = s.index.size + entWidth ∧
      s1.index.mmap.length = s.index.mmap.length ∧ s1.config = s.config := by
  obtain ⟨ho1, ho2⟩ := ho
  unfold segment.Append
  simp only [hm]
  obtain ⟨hr, _, _, _⟩ := store.Append_open ho1 p
  generalize hst : s.store.Append p = r at hr
  obtain ⟨st, n, pos, e⟩ := r
  simp only [Prod.mk.injEq] at hr
  obtain ⟨_, _, he⟩ := hr
  subst he
  simp only
  have hw := index.Write_room hroom hcap ((s.nextOffset + u64 - s.baseOffset) % u64 % u32) pos
  generalize hwe : s.index.Write ((s.nextOffset + u64 - s.baseOffset) % u64 % u32) pos = w at hw
  obtain ⟨idx, e2⟩ := w
  simp only at hw
  subst hw
  obtain ⟨_, hsz, _, hmm⟩ := index.Write_ok hwe hcap
  refine ⟨_, rfl, rfl, hsz, ?_, rfl⟩
  simp only [hmm]
  have : entWidth = 12 := rfl
  simp [putUint32_length, putUint64_length]
  omega

theorem Log.Append_roomy {l : Log} {acks : List (Nat × Record)} {B : Nat} (record : Record)
    (hI : Log.Inv plainCodec 0 l acks) (hL : l.Live) (hcfg : l.Config = bigConfig)
    (hsegs : l.segments = [0]) (hlen : l.heap.length = 1)
    (hE : ∀ s ∈ l.heap, s.store.content.length = B ∧ s.index.mmap.length = 2 ^ 40)
    (hB : B + 16 + record.Value.length < 2 ^ 40) (hn : 12 * (acks.length + 1) < 2 ^ 40) :
    ∃ l1, l.Append plainCodec record = (l1, acks.length, none) ∧ l1.Config = bigConfig ∧
      l1.segments = [0] ∧ l1.heap.length = 1 ∧
      ∀ s ∈ l1.heap, s.store.content.length = B + 16 + record.Value.length ∧
        s.index.mmap.length = 2 ^ 40 := by
  obtain ⟨s, hs, hnext, _⟩ := hI.active_segment
  rw [hlen] at hs
  simp only [Nat.sub_self] at hs
  obtain ⟨s0, hs0, hbase⟩ := hI.first_base
  rw [hs] at hs0
  simp only [Option.some.injEq] at hs0
  subst hs0
  have hmem : s ∈ l.heap := List.getElem?_mem hs
  obtain ⟨t, ht, hopen, _, _⟩ := hL.live 0 (by rw [hsegs]; simp)
  rw [hs] at ht
  simp only [Option.some.injEq] at ht
  subst ht
  have hS := hI.content s hmem hopen
  obtain ⟨hcl, hml⟩ := hE s hmem
  have hscfg : s.config = bigConfig := (hI.config s hmem).trans hcfg
  have hisz : s.index.size = 12 * acks.length := by
    rw [hS.indexSize, hnext, hbase]
    simp [entWidth, offWidth, posWidth]
  have hE12 : entWidth = 12 := rfl
  have hmar : plainCodec.Marshal { record with Offset := s.nextOffset }
      = some (putUint64 s.nextOffset ++ record.Value) := rfl
  obtain ⟨s1, hs1, hst, hsz, hmm, hc1⟩ := segment.Append_room hopen hmar
    (by rw [hisz, hml, hE12]; omega) (by rw [hml]; unfold u64; omega)
  obtain ⟨_, hcont, hsize, _⟩ := store.Append_open hopen.1 (putUint64 s.nextOffset ++ record.Value)
  have hplen : (putUint64 s.nextOffset ++ record.Value).length = 8 + record.Value.length := by
    simp [putUint64_length]
  have hssz : s1.store.size = B + 16 + record.Value.length := by
    rw [hst, hsize, hS.storeSize, hcl, hplen]
    simp only [lenWidth, u64]
    omega
  have hnm : s1.IsMaxed = false := by
    unfold segment.IsMaxed
    simp only [hc1, hscfg, bigConfig, hssz, hsz, hisz, hE12]
    simp only [ge_iff_le, Bool.or_eq_false_iff, decide_eq_false_iff_not, not_le]
    constructor <;> omega
  have hheap : l.heap = [s] := by
    match hl : l.heap, hlen, hs with
    | [x], _, h => simp at h; rw [h]
  refine ⟨{ l with heap := l.heap.set 0 s1 }, ?_, hcfg, hsegs, by simp [hlen], ?_⟩
  · unfold Log.Append
    simp only [hI.active, hlen, Nat.sub_self, List.get?_eq_getElem?, hs, hs1, hnm,
      Bool.false_eq_true, if_false, hnext, Nat.zero_add]
  · intro x hx
    simp only [hheap, List.set_cons_zero, List.mem_singleton] at hx
    subst hx
    refine ⟨?_, by rw [hmm, hml]⟩
    rw [hst, hcont, List.length_append, hcl, List.length_append, putUint64_length, hplen]
    omega

theorem plainWeight_cons (r : Record) (rs : List Record) :
    plainWeight (r :: rs) = 16 + r.Value.length + plainWeight rs := by
  simp [plainWeight]

theorem plainWeight_recordsOf (n : Nat) : plainWeight (recordsOf n) = 17 + 16 * n := by
  unfold recordsOf
  rw [plainWeight_cons]
  have : plainWeight (List.replicate n (⟨[], 0⟩ : Record)) = 16 * n := by
    induction n with
    | zero => rfl
    | succ k ih =>
      rw [List.replicate_succ, plainWeight_cons, ih]
      simp only [List.length_nil]
      omega
  rw [this]
  simp

theorem recordsOf_length (n : Nat) : (recordsOf n).length = n + 1 := by
  simp [recordsOf]

theorem recordsOf_last (n : Nat) (h : 0 < n) : (recordsOf n)[n]? = some ⟨[], 0⟩ := by
  obtain ⟨k, rfl⟩ : ∃ k, n = k + 1 := ⟨n - 1, by omega⟩
  unfold recordsOf
  rw [List.getElem?_cons_succ, List.getElem?_replicate]
  simp

theorem Log.run_roomy (rs : List Record) : ∀ (l : Log) (acks : List (Nat × Record)) (B : Nat),
    Log.Inv plainCodec 0 l acks → l.Live → l.Config = bigConfig → l.segments = [0] →
    l.heap.length = 1 →
    (∀ s ∈ l.heap, s.store.content.length = B ∧ s.index.mmap.length = 2 ^ 40) →
    B + plainWeight rs < 2 ^ 40 → 12 * (acks.length + rs.length) < 2 ^ 40 →
    (l.run plainCodec (rs.map Op.append)).2.map Prod.snd = rs ∧
    Log.Inv plainCodec 0 (l.run plainCodec (rs.map Op.append)).1
      (acks ++ (l.run plainCodec (rs.map Op.append)).2) ∧
    (l.run plainCodec (rs.map Op.append)).1.Live ∧
    (l.run plainCodec (rs.map Op.append)).1.segments = [0] ∧
    (l.run plainCodec (rs.map Op.append)).1.heap.length = 1 ∧
    ∀ s ∈ (l.run plainCodec (rs.map Op.append)).1.heap,
      s.store.content.length = B + plainWeight rs ∧ s.index.mmap.length = 2 ^ 40 := by
  induction rs with
  | nil =>
    intro l acks B hI hL _ hsegs hlen hE _ _
    simp only [List.map_nil, Log.run, List.append_nil]
    refine ⟨trivial, hI, hL, hsegs, hlen, ?_⟩
    intro s hs
    have := hE s hs
    simpa [plainWeight] using this
  | cons r rs ih =>
    intro l acks B hI hL hcfg hsegs hlen hE hB hn
    rw [plainWeight_cons] at hB
    simp only [List.length_cons] at hn
    obtain ⟨l1, ha, c1, c2, c3, c4⟩ := Log.Append_roomy r hI hL hcfg hsegs hlen hE
      (by omega) (by omega)
    obtain ⟨_, hI1⟩ := Log.Append_inv_ok hI ha (by unfold u64; omega)
    have hL1 : l1.Live := by
      have := Log.Append_live plainCodec hL r
      rw [ha] at this
      exact this
    have hstep : l.step plainCodec (Op.append r) = (l1, [(acks.length, r)]) := by
      simp only [Log.step, ha]
    obtain ⟨i1, i2, i3, i4, i5, i6⟩ := ih l1 (acks ++ [(acks.length, r)]) (B + 16 + r.Value.length)
      hI1 hL1 c1 c2 c3 c4 (by omega) (by simp only [List.length_append, List.length_singleton]; omega)
    simp only [List.map_cons, Log.run, hstep]
    refine ⟨?_, ?_, i3, i4, i5, ?_⟩
    · simp only [List.singleton_append, List.map_cons, i1]
    · rw [← List.append_assoc]
      exact i2
    · intro s hs
      obtain ⟨e1, e2⟩ := i6 s hs
      refine ⟨?_, e2⟩
      rw [e1, plainWeight_cons]
      omega

theorem mapLen_bigConfig : mapLen bigConfig = 2 ^ 40 := by
  unfold mapLen bigConfig
  rw [toInt64_of_lt (by norm_num)]
  rfl

theorem mappable_bigConfig : Mappable bigConfig := by
  refine ⟨?_, ?_⟩
  · unfold bigConfig
    rw [toInt64_of_lt (by norm_num)]
    omega
  · rw [mapLen_bigConfig]
    norm_num

theorem NewLog_set {c : Config} (h1 : ¬ (c.Segment.MaxStoreBytes = 0))
    (h2 : ¬ (c.Segment.MaxIndexBytes = 0)) (hm : Mappable c) :
    NewLog [] c = (emptyDirLog c, none) := by
  unfold NewLog
  simp only [h1, h2, if_false]
  unfold Log.setup
  simp only [List.map_nil, sortOffsets, Log.setupLoop, if_true]
  unfold Log.newSegment
  simp only
  rw [newSegment_fresh (List.lookup_nil) (List.lookup_nil) hm]
  simp only [emptyDirLog, List.nil_append, List.length_nil, List.singleton_append]

theorem NewLog_bigConfig : NewLog [] bigConfig = (emptyDirLog bigConfig, none) :=
  NewLog_set (by unfold bigConfig; norm_num) (by unfold bigConfig; norm_num) mappable_bigConfig

/-- The long run: the log on an empty directory under `bigConfig` after the
appends of one record of value `[1]` and `n ≤ 2^32` records of empty value
still has one segment, which holds all the records. -/
theorem long_run (n : Nat) (hn : n ≤ 2 ^ 32) :
    ((NewLog [] bigConfig).1.run plainCodec ((recordsOf n).map Op.append)).2.map Prod.snd
      = recordsOf n ∧
    Log.Inv plainCodec 0 ((NewLog [] bigConfig).1.run plainCodec ((recordsOf n).map Op.append)).1
      ((NewLog [] bigConfig).1.run plainCodec ((recordsOf n).map Op.append)).2 ∧
    ((NewLog [] bigConfig).1.run plainCodec ((recordsOf n).map Op.append)).1.Live ∧
    ((NewLog [] bigConfig).1.run plainCodec ((recordsOf n).map Op.append)).1.segments = [0] ∧
    ((NewLog [] bigConfig).1.run plainCodec ((recordsOf n).map Op.append)).1.heap.length = 1 ∧
    ∀ s ∈ ((NewLog [] bigConfig).1.run plainCodec ((recordsOf n).map Op.append)).1.heap,
      s.store.content.length = 17 + 16 * n ∧ s.index.mmap.length = 2 ^ 40 := by
  have hnew : NewLog [] bigConfig = ((NewLog [] bigConfig).1, none) := by
    rw [NewLog_bigConfig]
  have hI0 := (NewLog_inv plainCodec hnew).1
  have hio : bigConfig.Segment.InitialOffset = 0 := rfl
  rw [hio] at hI0
  have hL0 := NewLog_live hnew
  have hE0 : ∀ s ∈ (NewLog [] bigConfig).1.heap,
      s.store.content.length = 0 ∧ s.index.mmap.length = 2 ^ 40 := by
    rw [NewLog_bigConfig]
    intro s hs
    simp only [emptyDirLog, List.mem_singleton] at hs
    subst hs
    refine ⟨rfl, ?_⟩
    simp only [freshSegment, List.length_replicate]
    exact mapLen_bigConfig
  have h := Log.run_roomy (recordsOf n) (NewLog [] bigConfig).1 [] 0 hI0 hL0
    (by rw [NewLog_bigConfig]; rfl) (by rw [NewLog_bigConfig]; rfl) (by rw [NewLog_bigConfig]; rfl) hE0
    (by rw [plainWeight_recordsOf]; omega)
    (by rw [recordsOf_length]; simp only [List.length_nil]; omega)
  rw [plainWeight_recordsOf] at h
  obtain ⟨a1, a2, a3, a4, a5, a6⟩ := h
  rw [List.nil_append] at a2
  refine ⟨a1, a2, a3, a4, a5, ?_⟩
  intro s hs
  have := a6 s hs
  rw [Nat.zero_add] at this
  exact this

theorem acks_of_records {acks : List (Nat × Record)} {rs : List Record} {o k : Nat} {r : Record}
    (hf : acks.map Prod.fst = List.range' o acks.length) (hs : acks.map Prod.snd = rs)
    (hk : rs[k]? = some r) : acks[k]? = some (o + k, r) := by
  subst hs
  rw [List.getElem?_map] at hk
  cases hx : acks[k]? with
  | none => rw [hx] at hk; simp at hk
  | some x =>
    rw [hx] at hk
    simp only [Option.map_some', Option.some.injEq] at hk
    have hlt : k < acks.length := (List.getElem?_eq_some_iff.mp hx).1
    have h1 : (acks.map Prod.fst)[k]? = some x.1 := by
      rw [List.getElem?_map, hx]
      rfl
    rw [hf, List.getElem?_range' _ _ hlt] at h1
    simp only [Nat.one_mul, Option.some.injEq] at h1
    obtain ⟨x1, x2⟩ := x
    simp only at hk h1
    subst hk
    subst h1
    rfl

theorem addInt64_small {a : Int} {n : Nat} (h0 : 0 ≤ a) (h : a.toNat + n < 2 ^ 63) :
    addInt64 a (n : Int) = a + n := by
  unfold addInt64
  have h1 : a = (a.toNat : Int) := (Int.toNat_of_nonneg h0).symm
  rw [Int.emod_eq_of_lt (by omega) (by omega)]
  omega

theorem store.ReadAt_view (s : store) (n : Nat) (off : Int) :
    (s.ReadAt n off).1.content = s.content ∧ (s.ReadAt n off).1.closed = s.closed := by
  unfold store.ReadAt
  split
  · rename_i hc
    have h1 : ∀ x : store × Bytes × Option Err, x.1 = s.flushClosed →
        x.1.content = s.content ∧ x.1.closed = s.closed := by
      intro x hx
      rw [hx, hc]
      exact ⟨store.flushClosed_content s, store.flushClosed_closed hc⟩
    apply h1
    dsimp only
    split <;> rfl
  · exact ⟨store.flush_content s, store.flush_closed s⟩

theorem store.ReadAt_open {s : store} (h : s.closed = false) {n : Nat} (hn : 0 < n)
    {off : Int} (h0 : 0 ≤ off) :
    (s.ReadAt n off).2 = ((s.content.drop off.toNat).take n,
      if ((s.content.drop off.toNat).take n).length < n then some Err.EOF else none) := by
  unfold store.ReadAt
  simp only [h, Bool.false_eq_true, if_false]
  unfold fileReadAt
  rw [if_neg (by omega), if_neg (by omega), store.flush_file]
  dsimp only
  split <;> rfl

theorem originReader.Read_view (heap : List segment) (r : originReader) (n : Nat) :
    (r.Read heap n).1.map storeView = heap.map storeView := by
  unfold originReader.Read
  rw [List.get?_eq_getElem?]
  cases hs : heap[r.store]? with
  | none => rfl
  | some seg =>
    dsimp only
    apply map_set_same storeView hs
    unfold storeView
    dsimp only
    rw [(store.ReadAt_view seg.store n r.off).1, (store.ReadAt_view seg.store n r.off).2]

theorem originReader.Read_valid {heap : List segment} {r : originReader} {n : Nat}
    (hv : r.Valid (heap.map storeView)) (hn : 0 < n) :
    (r.Read heap n).2 = (r.advance ((r.rest (heap.map storeView)).take n).length,
      (r.rest (heap.map storeView)).take n,
      if ((r.rest (heap.map storeView)).take n).length < n then some Err.EOF else none) := by
  obtain ⟨x, hx, hc, hlen, h0, hle⟩ := hv
  rw [Option.mem_def, List.getElem?_map] at hx
  cases hs : heap[r.store]? with
  | none => rw [hs] at hx; simp at hx
  | some seg =>
    rw [hs] at hx
    simp only [Option.map_some', Option.some.injEq] at hx
    subst hx
    have hrest : r.rest (heap.map storeView) = seg.store.content.drop r.off.toNat := by
      unfold originReader.rest
      rw [List.getElem?_map, hs]
      rfl
    unfold originReader.Read
    rw [List.get?_eq_getElem?, hs, hrest]
    dsimp only
    have hr := store.ReadAt_open (s := seg.store) hc hn h0
    rw [Prod.ext_iff] at hr
    dsimp only at hr
    rw [hr.1, hr.2]
    have hsmall : r.off.toNat + ((seg.store.content.drop r.off.toNat).take n).length < 2 ^ 63 := by
      have : ((seg.store.content.drop r.off.toNat).take n).length
          ≤ seg.store.content.length - r.off.toNat := by
        rw [List.length_take, List.length_drop]
        exact Nat.min_le_right _ _
      have h2 : seg.store.content.length < 2 ^ 63 := hlen
      have h3 : r.off.toNat ≤ seg.store.content.length := hle
      omega
    rw [addInt64_small h0 hsmall]
    rfl

theorem originReader.rest_advance (v : List (Bytes × Bool)) {r : originReader} (k : Nat)
    (h0 : 0 ≤ r.off) : (r.advance k).rest v = (r.rest v).drop k := by
  unfold originReader.rest originReader.advance
  dsimp only
  rw [Int.toNat_add h0 (Int.ofNat_nonneg k), Int.toNat_ofNat, List.drop_drop]

theorem originReader.Valid.advance {v : List (Bytes × Bool)} {r : originReader}
    (h : r.Valid v) {k : Nat} (hk : k ≤ (r.rest v).length) : (r.advance k).Valid v := by
  obtain ⟨x, hx, hc, hlen, h0, hle⟩ := h
  have hrest : r.rest v = x.1.drop r.off.toNat := by
    unfold originReader.rest
    rw [Option.mem_def.mp hx]
    rfl
  rw [hrest, List.length_drop] at hk
  refine ⟨x, hx, hc, hlen, ?_, ?_⟩
  · unfold originReader.advance
    dsimp only
    omega
  · unfold originReader.advance
    dsimp only
    rw [Int.toNat_add h0 (Int.ofNat_nonneg k), Int.toNat_ofNat]
    omega

theorem multiRead_spec {n : Nat} (hn : 0 < n) : ∀ (rs : List originReader) (heap : List segment),
    (∀ r ∈ rs, r.Valid (heap.map storeView)) →
    (multiRead heap rs n).1.map storeView = heap.map storeView ∧
    (∀ r ∈ (multiRead heap rs n).2.1, r.Valid (heap.map storeView)) ∧
    (multiRead heap rs n).2.2.1
        ++ (multiRead heap rs n).2.1.flatMap (originReader.rest (heap.map storeView))
      = rs.flatMap (originReader.rest (heap.map storeView)) ∧
    (((multiRead heap rs n).2.2.2 = none ∧ 0 < (multiRead heap rs n).2.2.1.length) ∨
     ((multiRead heap rs n).2.2.2 = some Err.EOF ∧ (multiRead heap rs n).2.1 = [])) := by
  intro rs
  induction rs with
  | nil =>
    intro heap _
    simp [multiRead]
  | cons r rest ih =>
    intro heap hv
    have hview := originReader.Read_view heap r n
    have hval := originReader.Read_valid (hv r (List.mem_cons_self _ _)) hn
    have hvr := hv r (List.mem_cons_self _ _)
    have hvrest : ∀ x ∈ rest, x.Valid (heap.map storeView) :=
      fun x hx => hv x (List.mem_cons_of_mem _ hx)
    simp only [multiRead]
    generalize r.Read heap n = res at hview hval
    obtain ⟨heap1, r1, bs, err⟩ := res
    simp only [Prod.mk.injEq] at hview hval
    obtain ⟨hr1, hbs, herr⟩ := hval
    simp only
    by_cases hshort : ((r.rest (heap.map storeView)).take n).length < n
    · rw [if_pos hshort] at herr
      have hall : (r.rest (heap.map storeView)).take n = r.rest (heap.map storeView) := by
        rw [List.length_take] at hshort
        exact List.take_of_length_le (by omega)
      rw [hall] at hbs
      rw [if_pos herr]
      by_cases hpos : 0 < bs.length
      · rw [if_pos hpos]
        refine ⟨hview, hvrest, ?_, ?_⟩
        · simp only [List.flatMap_cons, hbs]
        · cases rest with
          | nil => right; simp
          | cons y ys => left; simp [hpos]
      · rw [if_neg hpos]
        have hnil : bs = [] := List.eq_nil_of_length_eq_zero (by omega)
        obtain ⟨i1, i2, i3, i4⟩ := ih heap1 (by rw [hview]; exact hvrest)
        rw [hview] at i1 i2 i3
        refine ⟨i1, i2, ?_, i4⟩
        rw [i3, List.flatMap_cons, ← hbs, hnil, List.nil_append]
    · rw [if_neg hshort] at herr
      subst herr
      simp only [reduceCtorEq, if_false]
      have hlen : ((r.rest (heap.map storeView)).take n).length = n := by
        rw [List.length_take] at hshort ⊢
        omega
      have hle : n ≤ (r.rest (heap.map storeView)).length := by
        rw [List.length_take] at hlen
        omega
      rw [hlen] at hr1
      refine ⟨hview, ?_, ?_, ?_⟩
      · intro x hx
        rcases List.mem_cons.mp hx with hx | hx
        · rw [hx, hr1]
          exact hvr.advance hle
        · exact hvrest x hx
      · obtain ⟨_, _, _, _, h0, _⟩ := hvr
        rw [List.flatMap_cons, List.flatMap_cons, hr1, originReader.rest_advance _ n h0, hbs,
          ← List.append_assoc, List.take_append_drop]
      · left
        rw [hbs, hlen]
        exact ⟨trivial, hn⟩

theorem readToEnd_spec : ∀ (ks : List Nat) (heap : List segment) (rs : List originReader),
    (∀ k ∈ ks, 0 < k) → (∀ r ∈ rs, r.Valid (heap.map storeView)) →
    (rs.flatMap (originReader.rest (heap.map storeView))).length < ks.length →
    ∃ heap1, readToEnd heap rs ks
        = some (heap1, rs.flatMap (originReader.rest (heap.map storeView)), none) ∧
      heap1.map storeView = heap.map storeView := by
  intro ks
  induction ks with
  | nil =>
    intro heap rs _ _ hlen
    simp at hlen
  | cons k ks ih =>
    intro heap rs hks hv hlen
    obtain ⟨s1, s2, s3, s4⟩ := multiRead_spec (hks k (List.mem_cons_self _ _)) rs heap hv
    simp only [readToEnd]
    generalize multiRead heap rs k = res at s1 s2 s3 s4
    obtain ⟨heap1, rs1, bs, err⟩ := res
    simp only at s1 s2 s3 s4 ⊢
    rcases s4 with ⟨he, hpos⟩ | ⟨he, hrs⟩
    · subst he
      simp only [reduceCtorEq, if_false, Option.isSome_none, Bool.false_eq_true]
      have hlen1 : (rs1.flatMap (originReader.rest (heap1.map storeView))).length < ks.length := by
        rw [s1]
        have := congrArg List.length s3
        rw [List.length_append] at this
        simp only [List.length_cons] at hlen
        omega
      obtain ⟨heap2, h1, h2⟩ := ih heap1 rs1 (fun x hx => hks x (List.mem_cons_of_mem _ hx))
        (by rw [s1]; exact s2) hlen1
      rw [h1]
      refine ⟨heap2, ?_, by rw [h2, s1]⟩
      rw [s1]
      dsimp only
      rw [s3]
    · subst he
      subst hrs
      simp only [if_true]
      refine ⟨heap1, ?_, s1⟩
      rw [← s3]
      simp

theorem Log.Reader_valid {l : Log}
    (h : ∀ p ∈ l.segments, ∃ s ∈ l.heap[p]?, s.store.closed = false ∧
      s.store.content.length < 2 ^ 63) :
    ∀ r ∈ l.Reader, r.Valid (l.heap.map storeView) := by
  intro r hr
  unfold Log.Reader at hr
  obtain ⟨p, hp, rfl⟩ := List.mem_map.mp hr
  obtain ⟨s, hs, hc, hlen⟩ := h p hp
  refine ⟨storeView s, ?_, hc, hlen, le_refl _, Nat.zero_le _⟩
  rw [Option.mem_def] at hs ⊢
  rw [List.getElem?_map]
  dsimp only
  rw [hs]
  rfl

theorem Log.Reader_rest (l : Log) :
    l.Reader.flatMap (originReader.rest (l.heap.map storeView)) = l.storeContents := by
  unfold Log.Reader Log.storeContents
  rw [List.flatMap_map]
  congr 1
  funext p
  unfold originReader.rest
  rw [List.getElem?_map]
  cases l.heap[p]? with
  | none => rfl
  | some s => rfl

/-! ## Lemmas: the stores of a log built by appends -/

theorem framesOf_append (cd : Codec) (a b : List (Nat × Record)) :
    framesOf cd (a ++ b) = framesOf cd a ++ framesOf cd b := by
  unfold framesOf
  rw [List.flatMap_append]

theorem segment.Append_content {cd : Codec} {s s1 : segment} {record : Record} {off : Nat}
    (h : s.Append cd record = (s1, off, none)) :
    off = s.nextOffset ∧ s1.store.content = s.store.content ++ frameOf cd (off, record) := by
  unfold segment.Append at h
  dsimp only at h
  cases hm : cd.Marshal { record with Offset := s.nextOffset } with
  | none => rw [hm] at h; simp at h
  | some p =>
    rw [hm] at h
    dsimp only at h
    generalize hst : s.store.Append p = r at h
    obtain ⟨st, n, pos, e⟩ := r
    cases e with
    | some e => simp at h
    | none =>
      have a2 := store.Append_frame hst
      dsimp only at h
      generalize s.index.Write ((s.nextOffset + u64 - s.baseOffset) % u64 % u32) pos = w at h
      obtain ⟨idx, e2⟩ := w
      cases e2 with
      | some e2 => simp at h
      | none =>
        simp only [Prod.mk.injEq, and_true] at h
        obtain ⟨h1, h2⟩ := h
        subst h1 h2
        refine ⟨rfl, ?_⟩
        dsimp only
        rw [a2]
        unfold frameOf
        dsimp only
        rw [hm]

theorem flatMap_set_last {α β : Type} (f : α → List β) {x y : α} {t : List β} :
    ∀ l : List α, l[l.length - 1]? = some x → f y = f x ++ t →
      (l.set (l.length - 1) y).flatMap f = l.flatMap f ++ t := by
  intro l
  induction l with
  | nil => intro h _; simp at h
  | cons a rest ih =>
    intro h hf
    cases rest with
    | nil =>
      simp only [List.length_singleton, Nat.sub_self, List.getElem?_cons_zero,
        Option.some.injEq] at h
      subst h
      simp [hf]
    | cons b rest2 =>
      have e : (a :: b :: rest2).length - 1 = ((b :: rest2).length - 1) + 1 := by
        simp
      rw [e] at h ⊢
      rw [List.getElem?_cons_succ] at h
      rw [List.set_cons_succ, List.flatMap_cons, List.flatMap_cons, ih h hf, List.append_assoc]

theorem Log.Append_contents {cd : Codec} {o : Nat} {l l1 : Log} {acks : List (Nat × Record)}
    {record : Record} {off : Nat} (hI : Log.Inv cd o l acks)
    (h : l.Append cd record = (l1, off, none)) (hlt : o + acks.length + 1 < u64) :
    l1.heap.flatMap (fun s => s.store.content)
      = l.heap.flatMap (fun s => s.store.content) ++ frameOf cd (off, record) := by
  obtain ⟨s, hs, hnext, _⟩ := hI.active_segment
  obtain ⟨_, lb, _, _, h3, h4⟩ := hI.shape
  unfold Log.Append at h
  simp only [hI.active, List.get?_eq_getElem?, hs] at h
  generalize hsa : s.Append cd record = r at h
  obtain ⟨s1, off1, e1⟩ := r
  cases e1 with
  | some e1 => simp at h
  | none =>
    obtain ⟨b1, b2⟩ := segment.Append_content hsa
    have hset := flatMap_set_last (fun s : segment => s.store.content) l.heap hs b2
    simp only at h
    split at h
    · have hb : (off1 + 1) % u64 = o + acks.length + 1 := by
        rw [b1, hnext]
        exact Nat.mod_eq_of_lt hlt
      rw [hb] at h
      obtain ⟨n1, n2⟩ := h4.lookup_none (b := o + acks.length + 1) (by omega)
      have hfresh := newSegment_fresh n1 n2 hI.mappable
      unfold Log.newSegment at h
      simp only [hfresh, Prod.mk.injEq, and_true] at h
      obtain ⟨h5, h6⟩ := h
      subst h5 h6
      dsimp only
      rw [List.flatMap_append, hset]
      simp [freshSegment, newStore, store.content]
    · simp only [Prod.mk.injEq, and_true] at h
      obtain ⟨h5, h6⟩ := h
      subst h5 h6
      exact hset

theorem Log.run_acks_le (cd : Codec) (ops : List Op) : ∀ (l : Log),
    (l.run cd ops).2.length ≤ ops.length := by
  induction ops with
  | nil => intro l; simp [Log.run]
  | cons op ops ih =>
    intro l
    simp only [Log.run, List.length_append, List.length_cons]
    have h1 : (l.step cd op).2.length ≤ 1 := by
      cases op with
      | append r =>
        simp only [Log.step]
        generalize l.Append cd r = res
        obtain ⟨l1, off, e⟩ := res
        cases e <;> simp
      | read off => simp [Log.step]
      | truncate lowest => simp [Log.step]
    have h2 := ih (l.step cd op).1
    omega

theorem Log.run_appends_contents (cd : Codec) {o : Nat} (rs : List Record) :
    ∀ (l : Log) (acks : List (Nat × Record)), Log.Inv cd o l acks →
    (l.run cd (rs.map Op.append)).2.map Prod.snd = rs → o + acks.length + rs.length < u64 →
    (l.run cd (rs.map Op.append)).1.heap.flatMap (fun s => s.store.content)
      = l.heap.flatMap (fun s => s.store.content)
        ++ framesOf cd (l.run cd (rs.map Op.append)).2 := by
  induction rs with
  | nil =>
    intro l acks _ _ _
    simp [Log.run, framesOf]
  | cons r rs ih =>
    intro l acks hI hall hlt
    simp only [List.map_cons, Log.run, Log.step] at hall ⊢
    simp only [List.length_cons] at hlt
    generalize hap : l.Append cd r = res at hall ⊢
    obtain ⟨l1, off, e⟩ := res
    cases e with
    | some e =>
      exfalso
      simp only [List.nil_append] at hall
      have h1 := congrArg List.length hall
      have h2 := Log.run_acks_le cd (rs.map Op.append) l1
      simp only [List.length_map, List.length_cons] at h1 h2
      omega
    | none =>
      simp only [List.singleton_append, List.map_cons, List.cons.injEq, true_and] at hall
      obtain ⟨_, hI1⟩ := Log.Append_inv_ok hI hap (by omega)
      have hc := Log.Append_contents hI hap (by omega)
      have := ih l1 _ hI1 hall (by simp only [List.length_append, List.length_singleton]; omega)
      simp only at this ⊢
      rw [this, hc, List.append_assoc]
      rfl

theorem map_range_getElem? {α β : Type} (f : α → β) (d : β) (h : List α) :
    (List.range h.length).map (fun p => ((h[p]?).map f).getD d) = h.map f := by
  apply List.ext_getElem?
  intro n
  rw [List.getElem?_map, List.getElem?_map]
  by_cases hn : n < h.length
  · rw [List.getElem?_range hn, List.getElem?_eq_getElem hn]
    simp [List.getElem?_eq_getElem hn]
  · rw [List.getElem?_eq_none (by simpa using hn), List.getElem?_eq_none (by simpa using hn)]
    rfl

theorem flatMap_range_getElem? {α β : Type} (f : α → List β) (h : List α) :
    (List.range h.length).flatMap (fun p => ((h[p]?).map f).getD []) = h.flatMap f := by
  rw [List.flatMap_def, List.flatMap_def, map_range_getElem? f [] h]

theorem Log.storeContents_all {l : Log} (h : l.segments = List.range l.heap.length) :
    l.storeContents = l.heap.flatMap (fun s => s.store.content) := by
  unfold Log.storeContents
  rw [h]
  exact flatMap_range_getElem? (fun s : segment => s.store.content) l.heap

/-! ## Lemmas: the order of the segment list -/

theorem Log.step_ordered {cd : Codec} {o : Nat} {l : Log} {acks : List (Nat × Record)}
    (hI : Log.Inv cd o l acks) (hL : l.Live)
    (hO : l.segments.Sublist (List.range l.heap.length)) (op : Op) :
    (l.step cd op).1.segments.Sublist (List.range (l.step cd op).1.heap.length) := by
  cases op with
  | append r =>
    have e : (l.step cd (.append r)).1 = (l.Append cd r).1 := by
      simp only [Log.step]
      generalize l.Append cd r = res
      obtain ⟨l1, off, e⟩ := res
      cases e <;> rfl
    rw [e]
    rcases Log.Append_shape cd l r with ⟨h1, h2⟩ | ⟨h1, h2⟩
    · rw [h1, h2]
      exact hO
    · rw [h1, h2, List.range_succ]
      exact List.Sublist.append hO (List.Sublist.refl _)
  | read off =>
    simp only [Log.step]
    obtain ⟨h1, h2⟩ := Log.Read_shape cd l off
    rw [h1, h2]
    exact hO
  | truncate lowest =>
    simp only [Log.step]
    obtain ⟨l1, segs, h1, _, _⟩ := Log.truncateLoop_live lowest l.segments l [] hI
      (by simpa using hL.live) (by simpa using hL.nodup)
    obtain ⟨k1, _, _, k4, _⟩ := Log.truncateLoop_ok lowest l.segments l [] l1 segs h1
    unfold Log.Truncate
    rw [h1]
    dsimp only
    rw [k1, k4, List.nil_append]
    exact (List.filter_sublist _).trans hO

theorem Log.run_ordered {cd : Codec} {o : Nat} (ops : List Op) :
    ∀ (l : Log) (acks : List (Nat × Record)), Log.Inv cd o l acks → l.Live →
    l.segments.Sublist (List.range l.heap.length) →
    o + (acks ++ (l.run cd ops).2).length < u64 →
    (l.run cd ops).1.segments.Sublist (List.range (l.run cd ops).1.heap.length) := by
  induction ops with
  | nil => intro l acks _ _ h _; exact h
  | cons op ops ih =>
    intro l acks hI hL hO hlt
    simp only [Log.run] at hlt ⊢
    rw [← List.append_assoc] at hlt
    have h1 := (Log.step_inv hI op (by
      simp only [List.length_append] at hlt ⊢
      omega)).1
    exact ih _ _ h1 (Log.step_live hI hL op) (Log.step_ordered hI hL hO op) hlt

theorem Log.Inv.bases_ascend {cd : Codec} {o : Nat} {l : Log} {acks : List (Nat × Record)}
    (hI : Log.Inv cd o l acks) (hO : l.segments.Sublist (List.range l.heap.length)) :
    l.bases.Pairwise (fun a b => a < b) := by
  obtain ⟨rinit, lb, h1, h2, _, _⟩ := hI.shape
  have hp := h2.pairwise_base (o + acks.length)
  rw [← h1, List.pairwise_map] at hp
  have hb : (l.heap.map segment.baseOffset).Pairwise (fun a b => a < b) := by
    rw [List.pairwise_map]
    exact hp
  rw [← map_range_getElem? segment.baseOffset 0 l.heap] at hb
  unfold Log.bases
  exact hb.sublist (hO.map _)

/-! ## C8: the content of the reader -/

/-- C8. Reader content: in every state of the log in which the stores of the
segments of the list are open and hold fewer than `2^63` bytes each, reading
the stream of `Log.Reader()` to its end, with buffers of any positive sizes,
reaches the end without error and yields the store contents of the segments
of the list, in list order, each from byte 0 to its end, the bytes still in
the write buffer included; the reads leave the content of every store as it
is. In a log created on an empty directory, after any run of `Append`, `Read`
and `Truncate` calls, the list is in ascending order of base offset; and when
the run is made of appends that all succeeded, the stream is the sequence of
the frames of the appended records, in append order. -/
theorem reader_content (cd : Codec) (l : Log) (ks : List Nat)
    (hopen : ∀ p ∈ l.segments, ∃ s ∈ l.heap[p]?, s.store.closed = false ∧
      s.store.content.length < 2 ^ 63)
    (hks : ∀ k ∈ ks, 0 < k) (hfuel : l.storeContents.length < ks.length) :
    (readToEnd l.heap l.Reader ks).map Prod.snd = some (l.storeContents, none) ∧
    (∀ r ∈ readToEnd l.heap l.Reader ks, r.1.map storeView = l.heap.map storeView) ∧
    ∀ (c : Config) (l0 : Log) (ops : List Op) (acks : List (Nat × Record)),
      NewLog [] c = (l0, none) → l0.run cd ops = (l, acks) →
      c.Segment.InitialOffset + acks.length < u64 →
      l.bases.Pairwise (fun a b => a < b) ∧
      ∀ rs : List Record, ops = rs.map Op.append → acks.map Prod.snd = rs →
        l.storeContents = framesOf cd acks := by
  obtain ⟨heap1, h1, h2⟩ := readToEnd_spec ks l.heap l.Reader hks (Log.Reader_valid hopen)
    (by rw [Log.Reader_rest]; exact hfuel)
  rw [Log.Reader_rest] at h1
  refine ⟨by rw [h1]; rfl, ?_, ?_⟩
  · intro r hr
    rw [h1, Option.mem_def, Option.some.injEq] at hr
    rw [← hr]
    exact h2
  · intro c l0 ops acks hnew hrun hlt
    have e1 : l = (l0.run cd ops).1 := by rw [hrun]
    have e2 : acks = (l0.run cd ops).2 := by rw [hrun]
    obtain ⟨hI0, hseg0, hlen0⟩ := NewLog_inv cd hnew
    have hI := Log.run_from_new cd hnew ops (by rw [← e2]; exact hlt)
    rw [← e1, ← e2] at hI
    constructor
    · have hO := Log.run_ordered ops l0 [] hI0 (NewLog_live hnew)
        (by rw [hseg0, hlen0]; exact List.Sublist.refl _)
        (by rw [List.nil_append, ← e2]; exact hlt)
      rw [← e1] at hO
      exact hI.bases_ascend hO
    · intro rs hops hall
      subst hops
      have hsegs := Log.run_segments cd (rs.map Op.append) l0
        (by
          intro op hop
          obtain ⟨r, _, rfl⟩ := List.mem_map.mp hop
          rfl)
        (by rw [hseg0, hlen0]; rfl)
      have hc := Log.run_appends_contents cd rs l0 [] hI0 (by rw [← e2]; exact hall)
        (by
          have := congrArg List.length hall
          rw [List.length_map] at this
          simp only [List.length_nil]
          omega)
      rw [← e1] at hsegs hc
      rw [← e2] at hc
      rw [Log.storeContents_all hsegs, hc]
      obtain ⟨c2, _, _, hl0⟩ := NewLog_empty hnew
      rw [hl0]
      simp [freshSegment, newStore, store.content]

/-- Witness of C8: two appends with a read in between on the log that rotates
after every append and starts at offset 5. The list has three segments; the
second store still holds its bytes in the write buffer. -/
theorem reader_content_witness :
    ((∀ p ∈ ((NewLog [] rotatingConfig).1.run plainCodec
          [.append ⟨[1], 0⟩, .read 5, .append ⟨[2, 3], 0⟩]).1.segments,
        ∃ s ∈ ((NewLog [] rotatingConfig).1.run plainCodec
          [.append ⟨[1], 0⟩, .read 5, .append ⟨[2, 3], 0⟩]).1.heap[p]?,
          s.store.closed = false ∧ s.store.content.length < 2 ^ 63) ∧
      (∀ k ∈ List.replicate 36 512, 0 < k) ∧
      ((NewLog [] rotatingConfig).1.run plainCodec
          [.append ⟨[1], 0⟩, .read 5, .append ⟨[2, 3], 0⟩]).1.storeContents.length
        < (List.replicate 36 512).length) ∧
    (readToEnd ((NewLog [] rotatingConfig).1.run plainCodec
          [.append ⟨[1], 0⟩, .read 5, .append ⟨[2, 3], 0⟩]).1.heap
        ((NewLog [] rotatingConfig).1.run plainCodec
          [.append ⟨[1], 0⟩, .read 5, .append ⟨[2, 3], 0⟩]).1.Reader
        (List.replicate 36 512)).map Prod.snd
      = some (((NewLog [] rotatingConfig).1.run plainCodec
          [.append ⟨[1], 0⟩, .read 5, .append ⟨[2, 3], 0⟩]).1.storeContents, none) :=
  ⟨⟨by decide, by decide, by decide⟩,
   (reader_content plainCodec ((NewLog [] rotatingConfig).1.run plainCodec
      [.append ⟨[1], 0⟩, .read 5, .append ⟨[2, 3], 0⟩]).1 (List.replicate 36 512)
     (by decide) (by decide) (by decide)).1⟩

/-! ## C11: the file of a store after `Close` -/

theorem store.appendAll_content (ps : List Bytes) : ∀ (s : store), s.closed = false →
    (s.appendAll ps).1.closed = false ∧ (s.appendAll ps).1.content = s.content ++ framed ps ∧
    ∀ r ∈ (s.appendAll ps).2, r.2.2 = none := by
  induction ps with
  | nil =>
    intro s ho
    simp [store.appendAll, framed, ho]
  | cons q qs ih =>
    intro s ho
    obtain ⟨hr, hcont, _, hopen⟩ := store.Append_open ho q
    obtain ⟨i1, i2, i3⟩ := ih (s.Append q).1 hopen
    simp only [store.appendAll]
    refine ⟨i1, ?_, ?_⟩
    · rw [i2, hcont, List.append_assoc]
      simp [framed, List.flatMap_cons]
    · intro r hr1
      rcases List.mem_cons.mp hr1 with h | h
      · rw [h, hr]
      · exact i3 r h

theorem store.Close_open {s : store} (h : s.closed = false) :
    (s.Close).2 = none ∧ (s.Close).1.file = s.content ∧ (s.Close).1.buf = [] ∧
    (s.Close).1.closed = true := by
  unfold store.Close
  rw [if_neg (by simp [h])]
  exact ⟨rfl, rfl, rfl, rfl⟩

/-- C11. Store persistence on `Close`: for a store opened on a file with
content `f` and any payloads appended to it in order, every append succeeds,
`Close` succeeds, and the file then holds `f` followed by the frame of every
payload in order, each frame being the length of the payload in eight bytes,
most significant first, and the payload. After one append of `p` the file has
`8 + len(p)` bytes more than before the append, which is the `n` that `Append`
returned (the length of a payload is below `2^64 - 8`). -/
theorem store_close_persists (f : Bytes) (ps : List Bytes) :
    (∀ r ∈ ((newStore f).appendAll ps).2, r.2.2 = none) ∧
    (((newStore f).appendAll ps).1.Close).2 = none ∧
    (((newStore f).appendAll ps).1.Close).1.file = f ++ framed ps ∧
    ∀ p : Bytes,
      (((newStore f).Append p).1.Close).2 = none ∧
      (((newStore f).Append p).1.Close).1.file.length = f.length + (lenWidth + p.length) ∧
      (lenWidth + p.length < u64 → ((newStore f).Append p).2.1 = lenWidth + p.length) := by
  have ho : (newStore f).closed = false := rfl
  have hc : (newStore f).content = f := by simp [newStore, store.content]
  obtain ⟨a1, a2, a3⟩ := store.appendAll_content ps (newStore f) ho
  obtain ⟨b1, b2, _, _⟩ := store.Close_open a1
  refine ⟨a3, b1, by rw [b2, a2, hc], ?_⟩
  intro p
  obtain ⟨hr, hcont, _, hopen⟩ := store.Append_open ho p
  obtain ⟨c1, c2, _, _⟩ := store.Close_open hopen
  refine ⟨c1, ?_, ?_⟩
  · rw [c2, hcont, hc]
    simp only [List.length_append, putUint64_length, lenWidth]
  · intro hlt
    rw [hr]
    simp only
    rw [Nat.mod_eq_of_lt (by omega)]
    omega

/-- Witness of C11: the test `TestStoreClose` with a payload of three bytes on
an empty file; the file has eleven bytes after `Close`. -/
theorem store_close_persists_witness :
    lenWidth + ([104, 105, 33] : Bytes).length < u64 ∧
    (((newStore []).Append [104, 105, 33]).1.Close).1.file
      = [0, 0, 0, 0, 0, 0, 0, 3, 104, 105, 33] ∧
    ((newStore []).Append [104, 105, 33]).2.1 = lenWidth + ([104, 105, 33] : Bytes).length :=
  ⟨by decide, by decide,
   ((store_close_persists [] [[104, 105, 33]]).2.2.2 [104, 105, 33]).2.2 (by decide)⟩

/-! ## Lemmas: sequences of index writes -/

theorem index.Read_eof {i : index} {inp : Int}
    (h : i.size = 0 ∨ i.size < i.slot inp * entWidth + entWidth) : i.Read inp = .error Err.EOF := by
  unfold index.Read
  by_cases h0 : i.size = 0
  · rw [if_pos h0]
  · rw [if_neg h0]
    rcases h with h | h
    · exact absurd h h0
    · dsimp only
      unfold index.slot at h
      rw [if_pos h]

theorem index.Read_slot {i : index} {inp : Int} {k off pos : Nat}
    (hk : k = i.slot inp) (he : EntryAt i.mmap k off pos) (hle : entWidth * k + entWidth ≤ i.size)
    (hs : i.size ≤ i.mmap.length) : i.Read inp = .ok (off % u32, pos % u64) := by
  have hE : entWidth = 12 := rfl
  unfold index.Read
  rw [if_neg (by omega)]
  dsimp only
  unfold index.slot at hk
  rw [← hk]
  rw [if_neg (by rw [Nat.mul_comm]; omega), if_neg (by rw [Nat.mul_comm]; omega)]
  obtain ⟨s1, s2⟩ := he.slices
  rw [s1, s2, uint32Of_putUint32, uint64Of_putUint64]

theorem IndexOK.fresh {c : Config} {i0 : index} (h : newIndex [] c = .ok i0) :
    IndexOK i0 [] (mapLen c) := by
  have hm := newIndex_mappable h
  rw [newIndex_empty hm] at h
  simp only [Except.ok.injEq] at h
  subst h
  refine ⟨rfl, rfl, by simp, Nat.zero_le _, mapLen_lt c, ?_, by simp⟩
  intro k e hk
  simp at hk

theorem IndexOK.write {i i1 : index} {es : List (Nat × Nat)} {L off pos : Nat}
    (h : IndexOK i es L) (hw : i.Write off pos = (i1, none)) :
    IndexOK i1 (es ++ [(off, pos)]) L := by
  have hE : entWidth = 12 := rfl
  have hL := h.small
  obtain ⟨w2, w3, w4, w5⟩ := index.Write_ok hw (by rw [h.cap]; unfold u64; omega)
  have hsz := h.size
  have hcap := h.cap
  rw [hE] at w2 w3 hsz
  have hlen1 : i1.mmap.length = L := by
    rw [w5]
    simp only [List.length_append, List.length_take, List.length_drop, putUint32_length,
      putUint64_length, hE]
    omega
  refine ⟨w4.trans h.isOpen, ?_, hlen1, by omega, hL, ?_, ?_⟩
  · rw [w3, hsz, List.length_append, List.length_singleton, hE]
    omega
  · intro k e hk
    rw [w5]
    by_cases hlt : k < es.length
    · rw [List.getElem?_append_left hlt] at hk
      rw [List.append_assoc]
      exact (h.entries k e hk).write_old i.size _ (by rw [hsz, hE]; omega) (by omega)
    · have hk2 : k = es.length := by
        have := (List.getElem?_eq_some_iff.mp hk).1
        simp only [List.length_append, List.length_singleton] at this
        omega
      subst hk2
      simp only [List.getElem?_concat_length, Option.some.injEq] at hk
      subst hk
      rw [hsz, ← hE]
      exact EntryAt.write_new i.mmap _ _ es.length off pos (by rw [hE]; omega) rfl
  · rw [w3, w5]
    have hl : (i.mmap.take i.size ++ (putUint32 off ++ putUint64 pos)).length = i.size + 12 := by
      simp only [List.length_append, List.length_take, putUint32_length, putUint64_length]
      omega
    rw [hE, List.drop_left' hl]
    have : i.mmap.drop (i.size + 12) = (i.mmap.drop i.size).drop 12 := by
      rw [List.drop_drop]
    rw [this, h.zeros, List.drop_replicate, Nat.sub_sub]

theorem IndexOK.writeAll {L : Nat} (ws : List (Nat × Nat)) :
    ∀ (i : index) (es : List (Nat × Nat)), IndexOK i es L →
    (∀ r ∈ (i.writeAll ws).2, r = none) → IndexOK (i.writeAll ws).1 (es ++ ws) L := by
  induction ws with
  | nil =>
    intro i es h _
    simp only [index.writeAll, List.append_nil]
    exact h
  | cons w ws ih =>
    intro i es h hok
    simp only [index.writeAll, List.mem_cons, forall_eq_or_imp] at hok ⊢
    obtain ⟨h1, h2⟩ := hok
    have hw : i.Write w.1 w.2 = ((i.Write w.1 w.2).1, none) := by rw [← h1]
    have := ih _ _ (h.write hw) h2
    simpa using this

theorem IndexOK.writeAll_room {L : Nat} (ws : List (Nat × Nat)) :
    ∀ (i : index) (es : List (Nat × Nat)), IndexOK i es L →
    entWidth * (es.length + ws.length) ≤ L → ∀ r ∈ (i.writeAll ws).2, r = none := by
  induction ws with
  | nil =>
    intro i es _ _ r hr
    simp [index.writeAll] at hr
  | cons w ws ih =>
    intro i es h hroom r hr
    have hE : entWidth = 12 := rfl
    simp only [List.length_cons] at hroom
    have hsz := h.size
    have hL := h.small
    rw [hE] at hroom hsz
    have h1 : (i.Write w.1 w.2).2 = none :=
      index.Write_room (by rw [h.cap, hE]; omega) (by rw [h.cap]; unfold u64; omega) _ _
    have hw : i.Write w.1 w.2 = ((i.Write w.1 w.2).1, none) := by rw [← h1]
    simp only [index.writeAll, List.mem_cons] at hr
    rcases hr with hr | hr
    · rw [hr, h1]
    · exact ih _ _ (h.write hw)
        (by simp only [List.length_append, List.length_singleton, hE]; omega) r hr

theorem IndexOK.read {i : index} {es : List (Nat × Nat)} {L k : Nat} {e : Nat × Nat} {inp : Int}
    (h : IndexOK i es L) (hk : es[k]? = some e) (hs : k = i.slot inp) :
    i.Read inp = .ok (e.1 % u32, e.2 % u64) := by
  have hlt := (List.getElem?_eq_some_iff.mp hk).1
  have hE : entWidth = 12 := rfl
  exact index.Read_slot hs (h.entries k e hk) (by rw [h.size, hE]; omega)
    (by rw [h.cap]; exact h.room)

theorem IndexOK.slot_last {i : index} {es : List (Nat × Nat)} {L : Nat} (h : IndexOK i es L)
    (h1 : 1 ≤ es.length) : i.slot (-1) = (es.length - 1) % 2 ^ 32 := by
  have hE : entWidth = 12 := rfl
  have hL := h.small
  have hr := h.room
  unfold index.slot
  rw [if_pos rfl, h.size, hE, Nat.mul_div_cancel_left _ (by omega)]
  have hsz := h.size
  unfold u64 u32
  omega

theorem IndexOK.restart {i : index} {es : List (Nat × Nat)} {c : Config}
    (h : IndexOK i es (mapLen c)) (hm : Mappable c) :
    (i.Close).2.2 = none ∧ (i.Close).2.1.length = entWidth * es.length ∧
    newIndex (i.Close).2.1 c = .ok i := by
  have hL := h.small
  have hr := h.room
  have hcap := h.cap
  have hsz := h.size
  have hnn : ¬ (toInt64 i.size < 0) := by
    rw [toInt64_of_lt (by omega)]
    omega
  have hclose : i.Close = ({ i with closed := true }, i.mmap.take i.size, none) := by
    unfold index.Close
    rw [if_neg (by simp [h.isOpen]), if_neg hnn]
    unfold fileTruncate
    have : i.size - i.mmap.length = 0 := by omega
    rw [this]
    simp
  rw [hclose]
  dsimp only
  have hlen : (i.mmap.take i.size).length = i.size := by
    rw [List.length_take]
    omega
  refine ⟨rfl, by rw [hlen, hsz], ?_⟩
  obtain ⟨m1, m2⟩ := hm
  unfold newIndex
  dsimp only
  rw [if_neg (by omega)]
  have hml : (toInt64 c.Segment.MaxIndexBytes).toNat = mapLen c := rfl
  rw [hml, if_neg (by rw [fileTruncate_length]; exact m2), hlen]
  have hgrown : fileTruncate (i.mmap.take i.size) (mapLen c) = i.mmap := by
    unfold fileTruncate
    rw [hlen, List.take_take, ← h.zeros]
    have : min (mapLen c) i.size = i.size := by omega
    rw [this, List.take_append_drop]
  rw [hgrown, Nat.mod_eq_of_lt (by unfold u64; omega)]
  have ho := h.isOpen
  cases i
  simp only at ho
  subst ho
  rfl

/-! ## C12 to C15: the index -/

theorem toUint32_small {k : Int} (h0 : 0 ≤ k) (h : k < 2 ^ 32) : toUint32 k = k.toNat := by
  unfold toUint32
  rw [Int.emod_eq_of_lt h0 h]

/-- C12. Index write/read round trip: on an index opened on an empty file,
after `n` successful writes of pairs of a 32 bit relative offset and a 64 bit
position, `1 ≤ n < 2^32`, `Read(k)` returns the pair number `k` for every
`k < n`, and `Read(-1)` returns the last pair. -/
theorem index_round_trip (c : Config) (i0 : index) (es : List (Nat × Nat))
    (hnew : newIndex [] c = .ok i0)
    (hok : ∀ r ∈ (i0.writeAll es).2, r = none)
    (hty : ∀ e ∈ es, e.1 < u32 ∧ e.2 < u64)
    (hn : 1 ≤ es.length) (hlt : es.length < 2 ^ 32) :
    (∀ (k : Nat) (e : Nat × Nat), es[k]? = some e →
      (i0.writeAll es).1.Read (k : Int) = .ok e) ∧
    ∀ e, es.getLast? = some e → (i0.writeAll es).1.Read (-1) = .ok e := by
  have hI := IndexOK.writeAll es i0 [] (IndexOK.fresh hnew) hok
  rw [List.nil_append] at hI
  constructor
  · intro k e hk
    have hkl := (List.getElem?_eq_some_iff.mp hk).1
    obtain ⟨t1, t2⟩ := hty e (List.getElem?_mem hk)
    have hs : k = (i0.writeAll es).1.slot (k : Int) := by
      unfold index.slot
      rw [if_neg (by omega), toUint32_natCast, Nat.mod_eq_of_lt (by omega)]
    rw [hI.read hk hs, Nat.mod_eq_of_lt t1, Nat.mod_eq_of_lt t2]
  · intro e he
    rw [List.getLast?_eq_getElem?] at he
    obtain ⟨t1, t2⟩ := hty e (List.getElem?_mem he)
    have hs : es.length - 1 = (i0.writeAll es).1.slot (-1) := by
      rw [hI.slot_last hn, Nat.mod_eq_of_lt (by omega)]
    rw [hI.read he hs, Nat.mod_eq_of_lt t1, Nat.mod_eq_of_lt t2]

/-- Witness of C12: the entries `(0, 0)` and `(1, 10)` of `TestIndex`. -/
theorem index_round_trip_witness :
    (newIndex [] threeEntryConfig = .ok (emptyIndex threeEntryConfig) ∧
      (∀ r ∈ ((emptyIndex threeEntryConfig).writeAll [(0, 0), (1, 10)]).2, r = none) ∧
      (∀ e ∈ [((0 : Nat), (0 : Nat)), (1, 10)], e.1 < u32 ∧ e.2 < u64)) ∧
    ((emptyIndex threeEntryConfig).writeAll [(0, 0), (1, 10)]).1.Read (-1) = .ok (1, 10) :=
  ⟨⟨by decide, by decide, by decide⟩,
   (index_round_trip threeEntryConfig (emptyIndex threeEntryConfig) [(0, 0), (1, 10)]
     (by decide) (by decide) (by decide) (by decide) (by decide)).2 (1, 10) (by decide)⟩

/-- C13 (amended). Index read past the populated entries: on an index that
holds `n` entries, `Read(k)` fails with `io.EOF` for every argument `k` other
than `-1` whose low 32 bits, as an unsigned number, are at least `n`; this is
so for `n ≤ k < 2^32` and for `-2^32 + n ≤ k < -1`. When `n = 0`, `Read` fails
with `io.EOF` for every argument, `-1` included. -/
theorem index_read_past (i : index) (n : Nat) (k : Int) (hsize : i.size = entWidth * n) :
    (n = 0 → i.Read k = .error Err.EOF) ∧
    (k ≠ -1 → n ≤ toUint32 k → i.Read k = .error Err.EOF) ∧
    ((n : Int) ≤ k → k < 2 ^ 32 → i.Read k = .error Err.EOF) ∧
    (k < -1 → -(2 ^ 32) + (n : Int) ≤ k → i.Read k = .error Err.EOF) := by
  have hE : entWidth = 12 := rfl
  rw [hE] at hsize
  have key : k ≠ -1 → n ≤ toUint32 k → i.Read k = .error Err.EOF := by
    intro hk hle
    apply index.Read_eof
    right
    unfold index.slot
    rw [if_neg hk, hE, hsize]
    omega
  refine ⟨?_, key, ?_, ?_⟩
  · intro h0
    exact index.Read_eof (Or.inl (by rw [hsize, h0]))
  · intro h1 h2
    apply key (by omega)
    rw [toUint32_small (by omega) h2]
    omega
  · intro h1 h2
    apply key (by omega)
    unfold toUint32
    omega

/-- Witness of C13 (amended): an index with the two entries of `TestIndex`;
`Read(2)` fails with `io.EOF`. -/
theorem index_read_past_witness :
    (((emptyIndex threeEntryConfig).writeAll [(0, 0), (1, 10)]).1.size = entWidth * 2 ∧
      ((2 : Nat) : Int) ≤ 2 ∧ (2 : Int) < 2 ^ 32) ∧
    ((emptyIndex threeEntryConfig).writeAll [(0, 0), (1, 10)]).1.Read 2 = .error Err.EOF :=
  ⟨⟨by decide, by decide, by decide⟩,
   (index_read_past ((emptyIndex threeEntryConfig).writeAll [(0, 0), (1, 10)]).1 2 2
     (by decide)).2.2.1 (by decide) (by decide)⟩

/-- Counterexample of C13: an index holds the two entries
`(0, 0)` and `(1, 10)`; the argument `2^32 + 1` is not `-1` and is at least 2,
and `Read(2^32 + 1)` returns the entry `(1, 10)`; so does `Read(-2^32 + 1)`. -/
theorem index_read_past_counterexample :
    ((emptyIndex threeEntryConfig).writeAll [(0, 0), (1, 10)]).1.closed = false ∧
    ((emptyIndex threeEntryConfig).writeAll [(0, 0), (1, 10)]).1.size = entWidth * 2 ∧
    ((2 : Nat) : Int) ≤ 4294967297 ∧ (4294967297 : Int) < 2 ^ 63 ∧
    ((emptyIndex threeEntryConfig).writeAll [(0, 0), (1, 10)]).1.Read 4294967297 = .ok (1, 10) ∧
    (-4294967295 : Int) < 0 ∧ -(2 ^ 63) ≤ (-4294967295 : Int) ∧
    ((emptyIndex threeEntryConfig).writeAll [(0, 0), (1, 10)]).1.Read (-4294967295) = .ok (1, 10) := by
  decide

theorem overwrite_getElem? (m : Bytes) (lo : Nat) (src : Bytes) (h : lo + src.length ≤ m.length)
    (j : Nat) (hj : j < lo ∨ lo + src.length ≤ j) : (overwrite m lo src)[j]? = m[j]? := by
  unfold overwrite
  have hl : (m.take lo).length = lo := by
    rw [List.length_take]
    omega
  rcases hj with hj | hj
  · rw [List.append_assoc, List.getElem?_append_left (by omega), List.getElem?_take_of_lt hj]
  · rw [List.getElem?_append_right (by simp only [List.length_append, hl]; omega)]
    simp only [List.length_append, hl, List.getElem?_drop]
    congr 1
    omega

theorem overwrite_length (m : Bytes) (lo : Nat) (src : Bytes) (h : lo + src.length ≤ m.length) :
    (overwrite m lo src).length = m.length := by
  unfold overwrite
  simp only [List.length_append, List.length_take, List.length_drop]
  omega

theorem getLast?_cons_replicate {α : Type} (a b : α) (n : Nat) (h : 0 < n) :
    (a :: List.replicate n b).getLast? = some b := by
  obtain ⟨m, rfl⟩ : ∃ m, n = m + 1 := ⟨n - 1, by omega⟩
  rw [List.replicate_succ', ← List.cons_append, List.getLast?_append]
  rfl

theorem manyEntries_length : manyEntries.length = 2 ^ 32 + 1 := by
  unfold manyEntries
  rw [List.length_cons, List.length_replicate]

theorem emptyIndex_new {c : Config} (h : Mappable c) : newIndex [] c = .ok (emptyIndex c) :=
  newIndex_empty h

/-- C15 (amended). Index durability across a clean restart: for an index
opened on an empty file to which `n ≥ 0` entries were written, `Close`
succeeds and leaves a file of exactly `12 * n` bytes; `newIndex` on that file
with the same maximum index size yields an index of the same populated size
`12 * n` on which `Read(k)` returns what it returned before closing, for every
argument `k`. When `1 ≤ n ≤ 2^32`, `Read(-1)` on the reopened index returns
the last pair written. -/
theorem index_restart (c : Config) (i0 : index) (es : List (Nat × Nat))
    (hnew : newIndex [] c = .ok i0) (hok : ∀ r ∈ (i0.writeAll es).2, r = none) :
    ((i0.writeAll es).1.Close).2.2 = none ∧
    ((i0.writeAll es).1.Close).2.1.length = entWidth * es.length ∧
    (i0.writeAll es).1.size = entWidth * es.length ∧
    ∃ i2, newIndex ((i0.writeAll es).1.Close).2.1 c = .ok i2 ∧
      i2.size = entWidth * es.length ∧
      (∀ k : Int, i2.Read k = (i0.writeAll es).1.Read k) ∧
      (1 ≤ es.length → es.length ≤ 2 ^ 32 → (∀ e ∈ es, e.1 < u32 ∧ e.2 < u64) →
        ∀ e, es.getLast? = some e → i2.Read (-1) = .ok e) := by
  have hI := IndexOK.writeAll es i0 [] (IndexOK.fresh hnew) hok
  rw [List.nil_append] at hI
  obtain ⟨r1, r2, r3⟩ := hI.restart (newIndex_mappable hnew)
  refine ⟨r1, r2, hI.size, (i0.writeAll es).1, r3, hI.size, fun _ => rfl, ?_⟩
  intro hn hle hty e he
  rw [List.getLast?_eq_getElem?] at he
  obtain ⟨t1, t2⟩ := hty e (List.getElem?_mem he)
  have hs : es.length - 1 = (i0.writeAll es).1.slot (-1) := by
    rw [hI.slot_last hn, Nat.mod_eq_of_lt (by omega)]
  rw [hI.read he hs, Nat.mod_eq_of_lt t1, Nat.mod_eq_of_lt t2]

/-- Witness of C15 (amended): the two entries of `TestIndex`; the file has 24
bytes after `Close`, and the reopened index returns `(1, 10)` for `-1`. -/
theorem index_restart_witness :
    (newIndex [] threeEntryConfig = .ok (emptyIndex threeEntryConfig) ∧
      (∀ r ∈ ((emptyIndex threeEntryConfig).writeAll [(0, 0), (1, 10)]).2, r = none)) ∧
    (((emptyIndex threeEntryConfig).writeAll [(0, 0), (1, 10)]).1.Close).2.1.length
      = entWidth * 2 ∧
    (newIndex (((emptyIndex threeEntryConfig).writeAll [(0, 0), (1, 10)]).1.Close).2.1
      threeEntryConfig).map (fun i2 => i2.Read (-1)) = .ok (.ok (1, 10)) :=
  ⟨⟨by decide, by decide⟩,
   (index_restart threeEntryConfig (emptyIndex threeEntryConfig) [(0, 0), (1, 10)]
     (by decide) (by decide)).2.1, by decide⟩

/-- Counterexample of C15: under a maximum index size of `2^40` bytes, the
entry `(1, 7)` and then `2^32` entries `(0, 0)` are written to an index opened
on an empty file; every write succeeds. After `Close` and `newIndex` on the
same file, `Read(-1)` returns `(1, 7)`, the first pair, while the last pair
written is `(0, 0)`: the number of the last entry, `2^32`, is taken as the 32
bit number `0`. -/
theorem index_restart_counterexample :
    newIndex [] bigConfig = .ok (emptyIndex bigConfig) ∧
    (∀ r ∈ ((emptyIndex bigConfig).writeAll manyEntries).2, r = none) ∧
    manyEntries.getLast? = some (0, 0) ∧
    ∃ i2, newIndex (((emptyIndex bigConfig).writeAll manyEntries).1.Close).2.1 bigConfig = .ok i2 ∧
      i2.Read (-1) = .ok (1, 7) := by
  have hnew := emptyIndex_new mappable_bigConfig
  have hI0 := IndexOK.fresh hnew
  have hok := IndexOK.writeAll_room manyEntries (emptyIndex bigConfig) [] hI0
    (by
      rw [manyEntries_length, mapLen_bigConfig]
      have hE : entWidth = 12 := rfl
      rw [hE]
      norm_num)
  have hI := IndexOK.writeAll manyEntries (emptyIndex bigConfig) [] hI0 hok
  rw [List.nil_append] at hI
  obtain ⟨_, _, r3⟩ := hI.restart mappable_bigConfig
  refine ⟨hnew, hok, getLast?_cons_replicate _ _ _ (by norm_num), _, r3, ?_⟩
  have h0 : manyEntries[0]? = some (1, 7) := by
    unfold manyEntries
    rw [List.getElem?_cons_zero]
  have hs : 0 = ((emptyIndex bigConfig).writeAll manyEntries).1.slot (-1) := by
    rw [hI.slot_last (by rw [manyEntries_length]; omega), manyEntries_length]
    norm_num
  rw [hI.read h0 hs]
  rfl

/-! ## C16: `Truncate` and the active segment -/

/-- C16. Evaluation of the program: a log is created on an empty directory and
two records are appended, at offsets 0 and 1, to its only segment. The call
`Truncate(5)` succeeds and removes that segment, the active one: the segment
list is empty afterwards, the active pointer still refers to the removed
segment, whose files are closed, and `LowestOffset` and `HighestOffset` index
an empty list. The same happens with `Truncate(0)` on the new log. -/
theorem truncate_empties_list :
    (NewLog [] threeEntryConfig).2 = none ∧
    ((NewLog [] threeEntryConfig).1.run plainCodec
      [.append ⟨[10], 0⟩, .append ⟨[11], 0⟩]).2.map Prod.fst = [0, 1] ∧
    twoRecords.segments = [0] ∧ twoRecords.activeSegment = some 0 ∧
    twoRecords.ranges = [(0, 2)] ∧
    (twoRecords.Truncate 5).2 = none ∧
    (twoRecords.Truncate 5).1.segments = [] ∧
    (twoRecords.Truncate 5).1.activeSegment = some 0 ∧
    ((twoRecords.Truncate 5).1.heap[0]?).map (fun s => (s.store.closed, s.index.closed))
      = some (true, true) ∧
    (twoRecords.Truncate 5).1.LowestOffset = .error Err.fault ∧
    (twoRecords.Truncate 5).1.HighestOffset = .error Err.fault ∧
    ((NewLog [] threeEntryConfig).1.Truncate 0).2 = none ∧
    ((NewLog [] threeEntryConfig).1.Truncate 0).1.segments = [] := by
  decide

/-! ## C17: the order of the ranges of the segment list -/

theorem filter_drop_range (f : Nat → Bool) (n : Nat)
    (hmono : ∀ p q, p < q → q < n → f p = true → f q = true) :
    ∀ (d k : Nat), n - k = d → ∃ k1, k1 ≤ n ∧
      ((List.range n).drop k).filter f = (List.range n).drop k1 := by
  intro d
  induction d with
  | zero =>
    intro k hk
    refine ⟨n, le_refl _, ?_⟩
    rw [List.drop_eq_nil_of_le (by rw [List.length_range]; omega),
      List.drop_eq_nil_of_le (by rw [List.length_range])]
    rfl
  | succ d ih =>
    intro k hk
    have hkn : k < n := by omega
    have hcons : (List.range n).drop k = k :: (List.range n).drop (k + 1) := by
      rw [List.drop_eq_getElem_cons (by rw [List.length_range]; exact hkn), List.getElem_range]
    by_cases hf : f k = true
    · refine ⟨k, by omega, ?_⟩
      apply List.filter_eq_self.mpr
      intro q hq
      rw [hcons] at hq
      rcases List.mem_cons.mp hq with hq | hq
      · rw [hq]; exact hf
      · obtain ⟨j, hj⟩ := List.mem_iff_getElem?.mp hq
        rw [List.getElem?_drop] at hj
        have hjl := (List.getElem?_eq_some_iff.mp hj).1
        rw [List.length_range] at hjl
        rw [List.getElem?_range hjl, Option.some.injEq] at hj
        exact hmono k q (by omega) (by omega) hf
    · obtain ⟨k1, h1, h2⟩ := ih (k + 1) (by omega)
      refine ⟨k1, h1, ?_⟩
      rw [hcons, List.filter_cons_of_neg hf, h2]

theorem Log.Inv.keeps_mono {cd : Codec} {o : Nat} {l : Log} {acks : List (Nat × Record)}
    (hI : Log.Inv cd o l acks) (lowest : Nat) (p q : Nat) (hpq : p < q) (hq : q < l.heap.length)
    (hp : l.keeps lowest p = true) : l.keeps lowest q = true := by
  unfold Log.keeps at hp ⊢
  have hq2 : l.heap[q]? = some l.heap[q] := List.getElem?_eq_getElem hq
  cases hps : l.heap[p]? with
  | none => rw [hps] at hp; simp at hp
  | some s =>
    rw [hps] at hp
    rw [hq2]
    simp only [decide_eq_true_eq] at hp ⊢
    have h1 := hI.disjoint hps hq2 hpq
    have h2 := (hI.range_bounds (List.getElem_mem hq)).2.1
    omega

theorem Log.step_suffix {cd : Codec} {o : Nat} {l : Log} {acks : List (Nat × Record)}
    (hI : Log.Inv cd o l acks) (hL : l.Live) (hS : l.Suffix) (op : Op) :
    (l.step cd op).1.Suffix := by
  obtain ⟨k, hk, hseg⟩ := hS
  cases op with
  | append r =>
    have e : (l.step cd (.append r)).1 = (l.Append cd r).1 := by
      simp only [Log.step]
      generalize l.Append cd r = res
      obtain ⟨l1, off, e⟩ := res
      cases e <;> rfl
    rw [e]
    rcases Log.Append_shape cd l r with ⟨h1, h2⟩ | ⟨h1, h2⟩
    · exact ⟨k, by rw [h2]; exact hk, by rw [h1, h2]; exact hseg⟩
    · refine ⟨k, by rw [h2]; omega, ?_⟩
      rw [h1, h2, List.range_succ, List.drop_append_of_le_length (by rw [List.length_range]; exact hk),
        hseg]
  | read off =>
    simp only [Log.step]
    obtain ⟨h1, h2⟩ := Log.Read_shape cd l off
    exact ⟨k, by rw [h2]; exact hk, by rw [h1, h2]; exact hseg⟩
  | truncate lowest =>
    simp only [Log.step]
    obtain ⟨l1, segs, h1, _, _⟩ := Log.truncateLoop_live lowest l.segments l [] hI
      (by simpa using hL.live) (by simpa using hL.nodup)
    obtain ⟨k1, _, _, k4, _⟩ := Log.truncateLoop_ok lowest l.segments l [] l1 segs h1
    obtain ⟨j, hj1, hj2⟩ := filter_drop_range (l.keeps lowest) l.heap.length
      (fun p q hpq hq hp => hI.keeps_mono lowest p q hpq hq hp) _ k rfl
    unfold Log.Truncate
    rw [h1]
    dsimp only
    refine ⟨j, by rw [k4]; exact hj1, ?_⟩
    rw [k1, k4, List.nil_append, hseg, hj2]

theorem Log.run_suffix {cd : Codec} {o : Nat} (ops : List Op) :
    ∀ (l : Log) (acks : List (Nat × Record)), Log.Inv cd o l acks → l.Live → l.Suffix →
    o + (acks ++ (l.run cd ops).2).length < u64 → (l.run cd ops).1.Suffix := by
  induction ops with
  | nil => intro l acks _ _ h _; exact h
  | cons op ops ih =>
    intro l acks hI hL hS hlt
    simp only [Log.run] at hlt ⊢
    rw [← List.append_assoc] at hlt
    have h1 := (Log.step_inv hI op (by
      simp only [List.length_append] at hlt ⊢
      omega)).1
    exact ih _ _ h1 (Log.step_live hI hL op) (Log.step_suffix hI hL hS op) hlt

theorem FullChain.chain {r : List (Nat × Nat)} {a b : Nat} (h : FullChain r a b) (e : Nat) :
    List.Chain' (fun x y => x.2 = y.1) (r ++ [(b, e)]) := by
  induction r generalizing a with
  | nil => simp
  | cons x xs ih =>
    obtain ⟨h1, h2, h3⟩ := h
    rw [List.cons_append, List.chain'_cons']
    refine ⟨?_, ih h3⟩
    intro y hy
    cases xs with
    | nil =>
      simp only [FullChain] at h3
      simp only [List.nil_append, List.head?_cons, Option.mem_def, Option.some.injEq] at hy
      rw [← hy]
      exact h3
    | cons z zs =>
      simp only [List.cons_append, List.head?_cons, Option.mem_def, Option.some.injEq] at hy
      rw [← hy]
      exact h3.1.symm

theorem Log.Suffix.ranges {l : Log} (h : l.Suffix) :
    ∃ k, l.ranges = (l.heap.map segment.range).drop k := by
  obtain ⟨k, _, hseg⟩ := h
  refine ⟨k, ?_⟩
  unfold Log.ranges
  rw [hseg, List.map_drop, map_range_getElem? segment.range (0, 0) l.heap]

theorem Log.Append_fits {o : Nat} {l : Log} {acks : List (Nat × Record)} {B : Nat}
    (record : Record) (hI : Log.Inv plainCodec o l acks) (hL : l.Live)
    (hsegs : l.segments = [0]) (hlen : l.heap.length = 1)
    (hE : ∀ s ∈ l.heap, s.store.content.length = B ∧ s.index.mmap.length = mapLen l.Config)
    (hB : B + 16 + record.Value.length < l.Config.Segment.MaxStoreBytes)
    (hBu : B + 16 + record.Value.length < u64)
    (hn : 12 * (acks.length + 1) < l.Config.Segment.MaxIndexBytes)
    (hnm : 12 * (acks.length + 1) ≤ mapLen l.Config) :
    ∃ l1, l.Append plainCodec record = (l1, o + acks.length, none) ∧ l1.Config = l.Config ∧
      l1.segments = [0] ∧ l1.heap.length = 1 ∧
      ∀ s ∈ l1.heap, s.store.content.length = B + 16 + record.Value.length ∧
        s.index.mmap.length = mapLen l1.Config := by
  obtain ⟨s, hs, hnext, _⟩ := hI.active_segment
  rw [hlen] at hs
  simp only [Nat.sub_self] at hs
  obtain ⟨s0, hs0, hbase⟩ := hI.first_base
  rw [hs] at hs0
  simp only [Option.some.injEq] at hs0
  subst hs0
  have hmem : s ∈ l.heap := List.getElem?_mem hs
  obtain ⟨t, ht, hopen, _, _⟩ := hL.live 0 (by rw [hsegs]; simp)
  rw [hs] at ht
  simp only [Option.some.injEq] at ht
  subst ht
  have hS := hI.content s hmem hopen
  obtain ⟨hcl, hml⟩ := hE s hmem
  have hscfg : s.config = l.Config := hI.config s hmem
  have hE12 : entWidth = 12 := rfl
  have hisz : s.index.size = 12 * acks.length := by
    rw [hS.indexSize, hnext, hbase, hE12, Nat.add_sub_cancel_left]
  have hmar : plainCodec.Marshal { record with Offset := s.nextOffset }
      = some (putUint64 s.nextOffset ++ record.Value) := rfl
  have hcap := mapLen_lt l.Config
  obtain ⟨s1, hs1, hst, hsz, hmm, hc1⟩ := segment.Append_room hopen hmar
    (by rw [hisz, hml, hE12]; omega) (by rw [hml]; unfold u64; omega)
  obtain ⟨_, hcont, hsize, _⟩ := store.Append_open hopen.1 (putUint64 s.nextOffset ++ record.Value)
  have hplen : (putUint64 s.nextOffset ++ record.Value).length = 8 + record.Value.length := by
    simp [putUint64_length]
  have hssz : s1.store.size = B + 16 + record.Value.length := by
    rw [hst, hsize, hS.storeSize, hcl, hplen]
    simp only [lenWidth]
    rw [Nat.mod_eq_of_lt (a := 8 + record.Value.length + 8) (by omega)]
    rw [Nat.mod_eq_of_lt (a := B) (by omega)]
    rw [Nat.mod_eq_of_lt (by omega)]
    omega
  have hnm2 : s1.IsMaxed = false := by
    unfold segment.IsMaxed
    simp only [hc1, hscfg, hssz, hsz, hisz, hE12]
    simp only [ge_iff_le, Bool.or_eq_false_iff, decide_eq_false_iff_not, not_le]
    constructor <;> omega
  have hheap : l.heap = [s] := by
    match hl : l.heap, hlen, hs with
    | [x], _, h => simp at h; rw [h]
  refine ⟨{ l with heap := l.heap.set 0 s1 }, ?_, rfl, hsegs, by simp [hlen], ?_⟩
  · unfold Log.Append
    simp only [hI.active, hlen, Nat.sub_self, List.get?_eq_getElem?, hs, hs1, hnm2,
      Bool.false_eq_true, if_false, hnext]
  · intro x hx
    simp only [hheap, List.set_cons_zero, List.mem_singleton] at hx
    subst hx
    refine ⟨?_, by rw [hmm, hml]⟩
    rw [hst, hcont, List.length_append, hcl, List.length_append, putUint64_length, hplen]
    omega

theorem Log.Append_full {o : Nat} {l : Log} {acks : List (Nat × Record)} (record : Record)
    (hI : Log.Inv plainCodec o l acks) (hL : l.Live)
    (hsegs : l.segments = [0]) (hlen : l.heap.length = 1)
    (hE : ∀ s ∈ l.heap, s.index.mmap.length = mapLen l.Config)
    (hfull : mapLen l.Config < 12 * acks.length + 12) :
    (l.Append plainCodec record).2.2 = some Err.EOF := by
  obtain ⟨s, hs, hnext, _⟩ := hI.active_segment
  rw [hlen] at hs
  simp only [Nat.sub_self] at hs
  obtain ⟨s0, hs0, hbase⟩ := hI.first_base
  rw [hs] at hs0
  simp only [Option.some.injEq] at hs0
  subst hs0
  have hmem : s ∈ l.heap := List.getElem?_mem hs
  obtain ⟨t, ht, hopen, _, _⟩ := hL.live 0 (by rw [hsegs]; simp)
  rw [hs] at ht
  simp only [Option.some.injEq] at ht
  subst ht
  have hS := hI.content s hmem hopen
  have hml := hE s hmem
  have hE12 : entWidth = 12 := rfl
  have hisz : s.index.size = 12 * acks.length := by
    rw [hS.indexSize, hnext, hbase, hE12, Nat.add_sub_cancel_left]
  have hcap := mapLen_lt l.Config
  have hic := hS.indexCap
  have hmar : plainCodec.Marshal { record with Offset := s.nextOffset }
      = some (putUint64 s.nextOffset ++ record.Value) := rfl
  obtain ⟨hr, _, _, _⟩ := store.Append_open hopen.1 (putUint64 s.nextOffset ++ record.Value)
  have hw : ∀ off pos, s.index.Write off pos = (s.index, some Err.EOF) := by
    intro off pos
    unfold index.Write
    rw [Nat.mod_eq_of_lt (by rw [hE12]; unfold u64; omega),
      if_pos (by rw [hml, hisz, hE12]; omega)]
  have hseg : (s.Append plainCodec record).2.2 = some Err.EOF := by
    unfold segment.Append
    simp only [hmar]
    generalize hst : s.store.Append (putUint64 s.nextOffset ++ record.Value) = r at hr
    obtain ⟨st, n, pos, e⟩ := r
    simp only [Prod.mk.injEq] at hr
    obtain ⟨_, _, he⟩ := hr
    subst he
    simp only [hw]
  unfold Log.Append
  simp only [hI.active, hlen, Nat.sub_self, List.get?_eq_getElem?, hs]
  generalize s.Append plainCodec record = r at hseg
  obtain ⟨s1, off, e⟩ := r
  simp only at hseg
  subst hseg
  rfl

theorem emptyRecords_weight (n : Nat) : plainWeight (emptyRecords n) = 16 * n := by
  unfold emptyRecords
  induction n with
  | zero => rfl
  | succ k ih =>
    rw [List.replicate_succ, plainWeight_cons, ih]
    simp only [List.length_nil]
    omega

theorem Log.run_fits {o : Nat} (rs : List Record) : ∀ (l : Log) (acks : List (Nat × Record))
    (B : Nat), Log.Inv plainCodec o l acks → l.Live → l.segments = [0] → l.heap.length = 1 →
    (∀ s ∈ l.heap, s.store.content.length = B ∧ s.index.mmap.length = mapLen l.Config) →
    B + plainWeight rs < l.Config.Segment.MaxStoreBytes → B + plainWeight rs < u64 →
    12 * (acks.length + rs.length) < l.Config.Segment.MaxIndexBytes →
    12 * (acks.length + rs.length) ≤ mapLen l.Config →
    o + acks.length + rs.length < u64 →
    (l.run plainCodec (rs.map Op.append)).2.map Prod.snd = rs ∧
    Log.Inv plainCodec o (l.run plainCodec (rs.map Op.append)).1
      (acks ++ (l.run plainCodec (rs.map Op.append)).2) ∧
    (l.run plainCodec (rs.map Op.append)).1.Live ∧
    (l.run plainCodec (rs.map Op.append)).1.Config = l.Config ∧
    (l.run plainCodec (rs.map Op.append)).1.segments = [0] ∧
    (l.run plainCodec (rs.map Op.append)).1.heap.length = 1 ∧
    ∀ s ∈ (l.run plainCodec (rs.map Op.append)).1.heap,
      s.store.content.length = B + plainWeight rs ∧ s.index.mmap.length = mapLen l.Config := by
  induction rs with
  | nil =>
    intro l acks B hI hL hsegs hlen hE _ _ _ _ _
    simp only [List.map_nil, Log.run, List.append_nil]
    refine ⟨trivial, hI, hL, trivial, hsegs, hlen, ?_⟩
    intro s hs
    have := hE s hs
    simpa [plainWeight] using this
  | cons r rs ih =>
    intro l acks B hI hL hsegs hlen hE hB hBu hn hnm hlt
    rw [plainWeight_cons] at hB hBu
    simp only [List.length_cons] at hn hnm hlt
    obtain ⟨l1, ha, c1, c2, c3, c4⟩ := Log.Append_fits r hI hL hsegs hlen hE
      (by omega) (by omega) (by omega) (by omega)
    obtain ⟨_, hI1⟩ := Log.Append_inv_ok hI ha (by omega)
    have hL1 : l1.Live := by
      have := Log.Append_live plainCodec hL r
      rw [ha] at this
      exact this
    have hstep : l.step plainCodec (Op.append r) = (l1, [(o + acks.length, r)]) := by
      simp only [Log.step, ha]
    obtain ⟨i1, i2, i3, i4, i5, i6, i7⟩ := ih l1 (acks ++ [(o + acks.length, r)])
      (B + 16 + r.Value.length) hI1 hL1 c2 c3 c4 (by rw [c1]; omega) (by omega)
      (by rw [c1]; simp only [List.length_append, List.length_singleton]; omega)
      (by rw [c1]; simp only [List.length_append, List.length_singleton]; omega)
      (by simp only [List.length_append, List.length_singleton]; omega)
    simp only [List.map_cons, Log.run, hstep]
    refine ⟨?_, ?_, i3, by rw [i4, c1], i5, i6, ?_⟩
    · simp only [List.singleton_append, List.map_cons, i1]
    · rw [← List.append_assoc]
      exact i2
    · intro s hs
      obtain ⟨e1, e2⟩ := i7 s hs
      refine ⟨?_, by rw [e2, c1]⟩
      rw [e1, plainWeight_cons]
      omega

theorem mapLen_defaultIndexConfig : mapLen defaultIndexConfig = 1024 := by
  unfold mapLen defaultIndexConfig
  rw [toInt64_of_lt (by norm_num)]
  rfl

theorem mappable_defaultIndexConfig : Mappable defaultIndexConfig := by
  refine ⟨?_, ?_⟩
  · unfold defaultIndexConfig
    rw [toInt64_of_lt (by norm_num)]
    omega
  · rw [mapLen_defaultIndexConfig]
    norm_num

theorem NewLog_defaultIndexConfig :
    NewLog [] defaultIndexConfig = (emptyDirLog defaultIndexConfig, none) :=
  NewLog_set (by unfold defaultIndexConfig; norm_num) (by unfold defaultIndexConfig; norm_num)
    mappable_defaultIndexConfig

/-- C18. Evaluation of the program: a log is created on an empty directory
with the maximum index size 1024, the default of `NewLog`, and a maximum store
size of 4096 bytes. The first 85 appends of records of empty value succeed,
at offsets 0 to 84, and all go to the first segment, which is not rotated:
its index holds 1020 bytes, fewer than 1024. The next append fails with
`io.EOF`: the index has no room for another entry of 12 bytes. -/
theorem append_hits_index_eof :
    NewLog [] defaultIndexConfig = ((NewLog [] defaultIndexConfig).1, none) ∧
    ((NewLog [] defaultIndexConfig).1.run plainCodec ((emptyRecords 85).map Op.append)).2.map
      Prod.fst = List.range' 0 85 ∧
    ((NewLog [] defaultIndexConfig).1.run plainCodec
      ((emptyRecords 85).map Op.append)).1.segments = [0] ∧
    ((NewLog [] defaultIndexConfig).1.run plainCodec
      ((emptyRecords 85).map Op.append)).1.ranges = [(0, 85)] ∧
    (((NewLog [] defaultIndexConfig).1.run plainCodec
      ((emptyRecords 85).map Op.append)).1.Append plainCodec ⟨[], 0⟩).2.2 = some Err.EOF := by
  have hnew : NewLog [] defaultIndexConfig = ((NewLog [] defaultIndexConfig).1, none) := by
    rw [NewLog_defaultIndexConfig]
  have hI0 := (NewLog_inv plainCodec hnew).1
  have hio : defaultIndexConfig.Segment.InitialOffset = 0 := rfl
  rw [hio] at hI0
  have hL0 := NewLog_live hnew
  have hcfg : (NewLog [] defaultIndexConfig).1.Config = defaultIndexConfig := by
    rw [NewLog_defaultIndexConfig]
    rfl
  have hE0 : ∀ s ∈ (NewLog [] defaultIndexConfig).1.heap,
      s.store.content.length = 0 ∧
      s.index.mmap.length = mapLen (NewLog [] defaultIndexConfig).1.Config := by
    rw [hcfg]
    rw [NewLog_defaultIndexConfig]
    intro s hs
    simp only [emptyDirLog, List.mem_singleton] at hs
    subst hs
    refine ⟨rfl, ?_⟩
    simp only [freshSegment, List.length_replicate]
  have hlen85 : (emptyRecords 85).length = 85 := by
    unfold emptyRecords
    rw [List.length_replicate]
  obtain ⟨a1, a2, a3, a4, a5, a6, a7⟩ := Log.run_fits (emptyRecords 85)
    (NewLog [] defaultIndexConfig).1 [] 0 hI0 hL0
    (by rw [NewLog_defaultIndexConfig]; rfl) (by rw [NewLog_defaultIndexConfig]; rfl) hE0
    (by rw [hcfg, emptyRecords_weight]; unfold defaultIndexConfig; norm_num)
    (by rw [emptyRecords_weight]; unfold u64; norm_num)
    (by rw [hcfg, hlen85]; unfold defaultIndexConfig; norm_num)
    (by rw [hcfg, hlen85, mapLen_defaultIndexConfig]; norm_num)
    (by rw [hlen85]; unfold u64; norm_num)
  rw [List.nil_append] at a2
  generalize (NewLog [] defaultIndexConfig).1.run plainCodec ((emptyRecords 85).map Op.append)
    = res at a1 a2 a3 a4 a5 a6 a7
  have hcount : res.2.length = 85 := by
    have := congrArg List.length a1
    rw [List.length_map, hlen85] at this
    exact this
  refine ⟨hnew, ?_, a5, ?_, ?_⟩
  · rw [a2.offsets, hcount]
  · obtain ⟨s, hs, hnext, _⟩ := a2.active_segment
    obtain ⟨s0, hs0, hbase⟩ := a2.first_base
    rw [a6, Nat.sub_self, hs0] at hs
    simp only [Option.some.injEq] at hs
    subst hs
    unfold Log.ranges
    rw [a5]
    simp only [List.map_cons, List.map_nil, hs0, Option.map_some', Option.getD_some,
      segment.range, hbase, hnext, hcount]
  · apply Log.Append_full _ a2 a3 a5 a6
    · intro s hs
      rw [a4, hcfg]
      rw [(a7 s hs).2, hcfg]
    · rw [a4, hcfg, mapLen_defaultIndexConfig, hcount]
      norm_num

/-! ## C19: the next offset of a segment that is opened -/

theorem writeFile_lookup_self (dir : Dir) (name : String) (f : Bytes) :
    (writeFile dir name f).lookup name = some f := by
  unfold writeFile
  simp [List.lookup]

theorem writeFile_lookup_ne (dir : Dir) {name other : String} (f : Bytes) (h : other ≠ name) :
    (writeFile dir name f).lookup other = dir.lookup other := by
  unfold writeFile
  have hne : (other == name) = false := beq_eq_false_iff_ne.mpr h
  rw [List.lookup_cons, hne]
  exact lookup_filter_ne dir h

theorem slice_append_left (f z : Bytes) (lo hi : Nat) (h1 : lo ≤ hi) (h2 : hi ≤ f.length) :
    slice (f ++ z) lo hi = slice f lo hi := by
  unfold slice
  rw [List.drop_append_of_le_length (by omega),
    List.take_append_of_le_length (by rw [List.length_drop]; omega)]

theorem index.Read_last_short {i : index} (h : i.size < entWidth) :
    i.Read (-1) = .error Err.EOF := by
  have hE : entWidth = 12 := rfl
  rw [hE] at h
  apply index.Read_eof
  by_cases h0 : i.size = 0
  · exact Or.inl h0
  · right
    unfold index.slot
    rw [if_pos rfl, hE, Nat.div_eq_of_lt h]
    unfold u64 u32
    omega

theorem index.Read_last_file {i : index} {f z : Bytes}
    (hsz : i.size = f.length) (hmm : i.mmap = f ++ z) (h12 : entWidth ≤ f.length)
    (hn : f.length / entWidth ≤ 2 ^ 32) :
    ∃ pos, i.Read (-1) = .ok (lastRelative f, pos) := by
  have hE : entWidth = 12 := rfl
  have hO : offWidth = 4 := rfl
  rw [hE] at h12 hn
  have hq : 1 ≤ f.length / 12 := by omega
  have hslot : ((f.length / 12 + u64 - 1) % u64) % u32 = f.length / 12 - 1 := by
    unfold u64 u32
    omega
  have hdm := Nat.div_mul_le_self f.length 12
  have hlen : i.mmap.length = f.length + z.length := by rw [hmm, List.length_append]
  unfold index.Read
  rw [if_neg (by omega)]
  dsimp only
  rw [if_pos rfl, hsz, hE, hslot]
  rw [if_neg (by omega), if_neg (by omega)]
  refine ⟨uint64Of (slice i.mmap ((f.length / 12 - 1) * 12 + offWidth)
    ((f.length / 12 - 1) * 12 + 12)), ?_⟩
  unfold lastRelative
  rw [hmm, hE, hO, slice_append_left _ _ _ _ (by omega) (by omega), Nat.mul_comm]

theorem SegRun.start {dir d : Dir} {b : Nat} {c : Config} {s : segment}
    (h : newSegment dir b c = (d, .ok s)) (hs : (dir.lookup (storeName b)).getD [] = [])
    (hi : (dir.lookup (indexName b)).getD [] = []) : SegRun b c s 0 := by
  obtain ⟨hm, hs0⟩ := newSegment_files h
  rw [hs, hi] at hs0
  have hnew := newIndex_eq hm []
  have hI := IndexOK.fresh hnew
  have hr : (⟨fileTruncate [] (mapLen c), ([] : Bytes).length % u64, false⟩ : index).Read (-1)
      = .error Err.EOF := index.Read_eof (Or.inl rfl)
  rw [hr] at hs0
  subst hs0
  exact ⟨rfl, rfl, rfl, rfl, [], hI, rfl, fun j e he => by simp at he⟩

theorem SegRun.step {cd : Codec} {b : Nat} {c : Config} {s s1 : segment} {k off : Nat}
    {record : Record} (h : SegRun b c s k) (ha : s.Append cd record = (s1, off, none))
    (hlt : b + k + 1 < u64) : off = b + k ∧ SegRun b c s1 (k + 1) := by
  obtain ⟨hbase, hnext, hcfg, hso, es, hI, hlen, hrel⟩ := h
  unfold segment.Append at ha
  dsimp only at ha
  cases hm : cd.Marshal { record with Offset := s.nextOffset } with
  | none => rw [hm] at ha; simp at ha
  | some p =>
    rw [hm] at ha
    dsimp only at ha
    obtain ⟨a1, _, _, a4⟩ := store.Append_open hso p
    generalize s.store.Append p = r at ha a1 a4
    obtain ⟨st, n, pos, e⟩ := r
    simp only [Prod.mk.injEq] at a1
    obtain ⟨_, _, he⟩ := a1
    subst he
    dsimp only at ha a4
    have hrelv : (s.nextOffset + u64 - s.baseOffset) % u64 % u32 = k % u32 := by
      rw [hnext, hbase]
      have : (b + k + u64 - b) % u64 = k := by
        have e1 : b + k + u64 - b = k + u64 := by omega
        rw [e1, Nat.add_mod_right, Nat.mod_eq_of_lt (by omega)]
      rw [this]
    rw [hrelv] at ha
    generalize hw : s.index.Write (k % u32) pos = w at ha
    obtain ⟨idx, e2⟩ := w
    cases e2 with
    | some e2 => simp at ha
    | none =>
      simp only [Prod.mk.injEq, and_true] at ha
      obtain ⟨h1, h2⟩ := ha
      subst h1 h2
      refine ⟨hnext, hbase, ?_, hcfg, a4, es ++ [(k % u32, pos)], hI.write hw, ?_, ?_⟩
      · dsimp only
        rw [hnext, Nat.mod_eq_of_lt (by omega)]
        omega
      · rw [List.length_append, hlen, List.length_singleton]
      · intro j e he
        by_cases hj : j < es.length
        · rw [List.getElem?_append_left hj] at he
          exact hrel j e he
        · have hj2 : j = es.length := by
            have := (List.getElem?_eq_some_iff.mp he).1
            simp only [List.length_append, List.length_singleton] at this
            omega
          subst hj2
          simp only [List.getElem?_concat_length, Option.some.injEq] at he
          rw [← he, hlen]

theorem SegRun.room {cd : Codec} {b : Nat} {c : Config} {s : segment} {k : Nat} {p : Bytes}
    {record : Record} (h : SegRun b c s k)
    (hm : cd.Marshal { record with Offset := s.nextOffset } = some p)
    (hroom : entWidth * (k + 1) ≤ mapLen c) :
    ∃ s1, s.Append cd record = (s1, s.nextOffset, none) := by
  obtain ⟨_, _, _, hso, es, hI, hlen, _⟩ := h
  have hE : entWidth = 12 := rfl
  have hL := hI.small
  obtain ⟨s1, h1, _⟩ := segment.Append_room ⟨hso, hI.isOpen⟩ hm
    (by rw [hI.size, hI.cap, hlen]; rw [hE] at hroom ⊢; omega)
    (by rw [hI.cap]; unfold u64; omega)
  exact ⟨s1, h1⟩

theorem SegRun.appendAll {cd : Codec} {b : Nat} {c : Config} (rs : List Record) :
    ∀ (s : segment) (k : Nat), SegRun b c s k → (∀ x ∈ (s.appendAll cd rs).2, x.2 = none) →
    b + k + rs.length < u64 → SegRun b c (s.appendAll cd rs).1 (k + rs.length) := by
  induction rs with
  | nil =>
    intro s k h _ _
    exact h
  | cons r rs ih =>
    intro s k h hok hlt
    simp only [segment.appendAll, List.mem_cons, forall_eq_or_imp, List.length_cons] at hok hlt ⊢
    obtain ⟨h1, h2⟩ := hok
    have ha : s.Append cd r = ((s.Append cd r).1, (s.Append cd r).2.1, none) := by rw [← h1]
    obtain ⟨_, hs1⟩ := h.step ha (by omega)
    have := ih _ _ hs1 h2 (by omega)
    rw [Nat.add_assoc, Nat.add_comm 1] at this
    exact this

theorem SegRun.appendAll_room {b : Nat} {c : Config} (rs : List Record) :
    ∀ (s : segment) (k : Nat), SegRun b c s k → entWidth * (k + rs.length) ≤ mapLen c →
    b + k + rs.length < u64 → ∀ x ∈ (s.appendAll plainCodec rs).2, x.2 = none := by
  induction rs with
  | nil =>
    intro s k _ _ _ x hx
    simp [segment.appendAll] at hx
  | cons r rs ih =>
    intro s k h hroom hlt x hx
    have hE : entWidth = 12 := rfl
    simp only [List.length_cons] at hroom hlt
    rw [hE] at hroom
    have hmar : plainCodec.Marshal { r with Offset := s.nextOffset }
        = some (putUint64 s.nextOffset ++ r.Value) := rfl
    obtain ⟨s1, ha⟩ := h.room hmar (by rw [hE]; omega)
    obtain ⟨_, hs1⟩ := h.step ha (by omega)
    simp only [segment.appendAll, ha, List.mem_cons] at hx
    rcases hx with hx | hx
    · rw [hx]
    · exact ih s1 (k + 1) hs1 (by rw [hE]; omega) (by omega) x hx

theorem SegRun.reopen {b : Nat} {c : Config} {s : segment} {k : Nat} (h : SegRun b c s k)
    (hm : Mappable c) (dir : Dir) :
    ∃ s1, (s.reopen dir).2 = .ok s1 ∧ s1.baseOffset = b ∧
      s1.nextOffset = if k = 0 then b else (b + (k - 1) % 2 ^ 32 + 1) % u64 := by
  obtain ⟨hbase, hnext, hcfg, hso, es, hI, hlen, hrel⟩ := h
  obtain ⟨r1, _, r3⟩ := hI.restart hm
  obtain ⟨c1, _, _, _⟩ := store.Close_open hso
  unfold segment.reopen
  generalize s.index.Close = ic at r1 r3
  obtain ⟨i1, file, e⟩ := ic
  dsimp only at r1 r3
  subst r1
  generalize s.store.Close = sc at c1
  obtain ⟨st, e⟩ := sc
  dsimp only at c1
  subst c1
  dsimp only
  rw [hbase, hcfg]
  have hlook : ((writeFile (writeFile dir (storeName b) st.file) (indexName b) file).lookup
      (indexName b)).getD [] = file := by
    rw [writeFile_lookup_self]
    rfl
  have hon := @newSegment_on (writeFile (writeFile dir (storeName b) st.file)
    (indexName b) file) b c s.index (by rw [hlook]; exact r3)
    (index.Read_no_fault (by rw [hI.cap]; exact hI.room) (-1))
  rw [hon]
  refine ⟨_, rfl, rfl, ?_⟩
  dsimp only
  by_cases hk : k = 0
  · rw [if_pos hk]
    have : s.index.Read (-1) = .error Err.EOF :=
      index.Read_eof (Or.inl (by rw [hI.size, hlen, hk, Nat.mul_zero]))
    rw [this]
  · rw [if_neg hk]
    have hj : (k - 1) % 2 ^ 32 < es.length := by
      have := Nat.mod_le (k - 1) (2 ^ 32)
      omega
    have hget : es[(k - 1) % 2 ^ 32]? = some es[(k - 1) % 2 ^ 32] := List.getElem?_eq_getElem hj
    have hs : (k - 1) % 2 ^ 32 = s.index.slot (-1) := by
      rw [hI.slot_last (by omega), hlen]
    rw [hI.read hget hs]
    dsimp only
    rw [hrel _ _ hget]
    have : (k - 1) % 2 ^ 32 % u32 % u32 = (k - 1) % 2 ^ 32 := by
      unfold u32
      omega
    rw [this]

/-- C19 (amended). Segment next offset on (re)open: `newSegment` sets
`nextOffset = baseOffset` when the index file holds no whole entry (fewer than
12 bytes, the empty file included); when the index file holds at least one
and at most `2^32` whole entries and is not longer than the mapped region, it
sets `nextOffset = baseOffset + r + 1` (in 64 bits), with `r` the relative
offset stored in the last whole entry. Consequently a segment that was created
on empty files, took `k ≤ 2^32` successful appends, `baseOffset + k < 2^64`,
and was cleanly closed is reopened, with the same base offset and
configuration, with `nextOffset = baseOffset + k`, the value it had before. -/
theorem segment_next_offset (cd : Codec) (dir d : Dir) (b : Nat) (c : Config) (s0 : segment)
    (hnew : newSegment dir b c = (d, .ok s0)) :
    ((((dir.lookup (indexName b)).getD []).length < entWidth → s0.nextOffset = b) ∧
      (entWidth ≤ ((dir.lookup (indexName b)).getD []).length →
        ((dir.lookup (indexName b)).getD []).length ≤ mapLen c →
        ((dir.lookup (indexName b)).getD []).length / entWidth ≤ 2 ^ 32 →
        s0.nextOffset = (b + lastRelative ((dir.lookup (indexName b)).getD []) + 1) % u64)) ∧
    ∀ rs : List Record, (dir.lookup (storeName b)).getD [] = [] →
      (dir.lookup (indexName b)).getD [] = [] →
      (∀ x ∈ (s0.appendAll cd rs).2, x.2 = none) → rs.length ≤ 2 ^ 32 → b + rs.length < u64 →
      (s0.appendAll cd rs).1.nextOffset = b + rs.length ∧
      ∃ s1, ((s0.appendAll cd rs).1.reopen d).2 = .ok s1 ∧ s1.baseOffset = b ∧
        s1.nextOffset = b + rs.length := by
  obtain ⟨hm, hs0⟩ := newSegment_files hnew
  have hE : entWidth = 12 := rfl
  have hcap := mapLen_lt c
  refine ⟨⟨?_, ?_⟩, ?_⟩
  · intro hshort
    have hn := congrArg segment.nextOffset hs0
    dsimp only at hn
    have hr : (⟨fileTruncate ((dir.lookup (indexName b)).getD []) (mapLen c),
        ((dir.lookup (indexName b)).getD []).length % u64, false⟩ : index).Read (-1)
        = .error Err.EOF :=
      index.Read_last_short (lt_of_le_of_lt (Nat.mod_le _ _) hshort)
    rw [hr] at hn
    exact hn
  · intro h12 hfit hcount
    have hn := congrArg segment.nextOffset hs0
    dsimp only at hn
    obtain ⟨pos, hr⟩ := index.Read_last_file
      (i := ⟨fileTruncate ((dir.lookup (indexName b)).getD []) (mapLen c),
        ((dir.lookup (indexName b)).getD []).length % u64, false⟩)
      (f := (dir.lookup (indexName b)).getD [])
      (z := List.replicate (mapLen c - ((dir.lookup (indexName b)).getD []).length) 0)
      (Nat.mod_eq_of_lt (by unfold u64; omega))
      (by
        unfold fileTruncate
        rw [List.take_of_length_le hfit])
      h12 hcount
    rw [hr] at hn
    exact hn
  · intro rs hs hi hok hk hlt
    have hrun := SegRun.appendAll rs s0 0 (SegRun.start hnew hs hi) hok (by omega)
    rw [Nat.zero_add] at hrun
    obtain ⟨s1, r1, r2, r3⟩ := hrun.reopen hm d
    refine ⟨hrun.next, s1, r1, r2, ?_⟩
    rw [r3]
    by_cases h0 : rs.length = 0
    · rw [if_pos h0, h0, Nat.add_zero]
    · rw [if_neg h0, Nat.mod_eq_of_lt (a := rs.length - 1) (by omega),
        Nat.mod_eq_of_lt (by omega)]
      omega

/-- Witness of C19 (amended): a segment with base offset 5 is created in an
empty directory, takes two records and is reopened after a clean close; its
next offset is 7 before and after. -/
theorem segment_next_offset_witness :
    (newSegment [] 5 threeEntryConfig
        = ((newSegment [] 5 threeEntryConfig).1, .ok (freshSegment 5 threeEntryConfig)) ∧
      (∀ x ∈ ((freshSegment 5 threeEntryConfig).appendAll plainCodec
        [⟨[1], 0⟩, ⟨[2, 3], 0⟩]).2, x.2 = none)) ∧
    ((freshSegment 5 threeEntryConfig).appendAll plainCodec
        [⟨[1], 0⟩, ⟨[2, 3], 0⟩]).1.nextOffset = 5 + 2 ∧
    ((((freshSegment 5 threeEntryConfig).appendAll plainCodec
        [⟨[1], 0⟩, ⟨[2, 3], 0⟩]).1.reopen (newSegment [] 5 threeEntryConfig).1).2.map
      segment.nextOffset) = .ok 7 :=
  ⟨⟨by decide, by decide⟩,
   ((segment_next_offset plainCodec [] (newSegment [] 5 threeEntryConfig).1 5 threeEntryConfig
      (freshSegment 5 threeEntryConfig) (by decide)).2 [⟨[1], 0⟩, ⟨[2, 3], 0⟩]
      (by decide) (by decide) (by decide) (by decide) (by decide)).1,
   by decide⟩

/-- Counterexample of C19. First, an index file of one byte is not empty and
holds no entry: `newSegment` sets `nextOffset = baseOffset`. Second, a segment
with base offset 0 is created on empty files under thresholds of `2^40` bytes
and takes `2^32 + 1` records, each append succeeding; its next offset is
`2^32 + 1`. After a clean close, `newSegment` with the same base offset and
configuration yields the next offset 1: the number of the last entry, `2^32`,
is taken as the 32 bit number 0, and entry 0 stores the relative offset 0. -/
theorem segment_next_offset_counterexample :
    ((newSegment [("0.index", [9])] 0 threeEntryConfig).2.map segment.nextOffset = .ok 0) ∧
    (newSegment [] 0 bigConfig).2 = .ok (freshSegment 0 bigConfig) ∧
    (∀ x ∈ ((freshSegment 0 bigConfig).appendAll plainCodec manyRecords).2, x.2 = none) ∧
    manyRecords.length = 2 ^ 32 + 1 ∧
    ((freshSegment 0 bigConfig).appendAll plainCodec manyRecords).1.nextOffset = 2 ^ 32 + 1 ∧
    ∃ s1, (((freshSegment 0 bigConfig).appendAll plainCodec manyRecords).1.reopen
        (newSegment [] 0 bigConfig).1).2 = .ok s1 ∧
      s1.baseOffset = 0 ∧ s1.nextOffset = 1 := by
  have hfresh := @newSegment_fresh [] 0 bigConfig rfl rfl mappable_bigConfig
  have hlen : manyRecords.length = 2 ^ 32 + 1 := by
    unfold manyRecords
    rw [recordsOf_length]
  have hstart : SegRun 0 bigConfig (freshSegment 0 bigConfig) 0 := SegRun.start hfresh rfl rfl
  have hok := SegRun.appendAll_room manyRecords (freshSegment 0 bigConfig) 0 hstart
    (by
      rw [hlen, mapLen_bigConfig]
      have hE : entWidth = 12 := rfl
      rw [hE]
      norm_num)
    (by rw [hlen]; unfold u64; norm_num)
  have hrun := SegRun.appendAll manyRecords (freshSegment 0 bigConfig) 0 hstart hok
    (by rw [hlen]; unfold u64; norm_num)
  rw [hlen] at hrun
  obtain ⟨s1, r1, r2, r3⟩ := hrun.reopen mappable_bigConfig (newSegment [] 0 bigConfig).1
  refine ⟨by decide, by rw [hfresh], hok, hlen, ?_, s1, r1, r2, ?_⟩
  · rw [hrun.next]
    norm_num
  · rw [r3]
    norm_num [u64]

/-! ## C20: the segments that `setup` builds -/

theorem digitChar_isDigit (d : Nat) (h : d < 10) :
    '0' ≤ Nat.digitChar d ∧ Nat.digitChar d ≤ '9' := by
  interval_cases d <;> decide

theorem toDigitsCore_isDigit (fuel : Nat) : ∀ (n : Nat) (ds : List Char),
    (∀ c ∈ ds, '0' ≤ c ∧ c ≤ '9') → ∀ c ∈ Nat.toDigitsCore 10 fuel n ds, '0' ≤ c ∧ c ≤ '9' := by
  induction fuel with
  | zero => intro n ds h; simpa [Nat.toDigitsCore] using h
  | succ f ih =>
    intro n ds h
    have hd := digitChar_isDigit (n % 10) (Nat.mod_lt _ (by decide))
    have hds : ∀ c ∈ Nat.digitChar (n % 10) :: ds, '0' ≤ c ∧ c ≤ '9' := by
      intro c hc
      rcases List.mem_cons.mp hc with hc | hc
      · rw [hc]; exact hd
      · exact h c hc
    simp only [Nat.toDigitsCore]
    split
    · exact hds
    · exact ih _ _ hds

theorem toDigits_isDigit (n : Nat) : ∀ c ∈ Nat.toDigits 10 n, '0' ≤ c ∧ c ≤ '9' := by
  unfold Nat.toDigits
  exact toDigitsCore_isDigit _ _ _ (by simp)

theorem extLength_digits (ds : List Char) (n : Nat) (h : ∀ c ∈ ds, '0' ≤ c ∧ c ≤ '9') :
    extLength ds n = 0 := by
  induction ds generalizing n with
  | nil => rfl
  | cons c cs ih =>
    have hc := h c (List.mem_cons_self _ _)
    have h1 : c ≠ '/' := by
      intro he
      rw [he] at hc
      exact absurd hc.1 (by decide)
    have h2 : c ≠ '.' := by
      intro he
      rw [he] at hc
      exact absurd hc.1 (by decide)
    simp only [extLength, h1, h2, if_false]
    exact ih _ (fun x hx => h x (List.mem_cons_of_mem _ hx))

theorem trimExt_storeName (b : Nat) : trimExt (storeName b) = Nat.toDigits 10 b := by
  unfold trimExt
  rw [storeName_data]
  have hs : ".store".data = ['.', 's', 't', 'o', 'r', 'e'] := rfl
  rw [hs, List.reverse_append]
  have hr : ['.', 's', 't', 'o', 'r', 'e'].reverse = ['e', 'r', 'o', 't', 's', '.'] := rfl
  rw [hr]
  simp only [List.cons_append, List.nil_append, extLength]
  simp

theorem trimExt_indexName (b : Nat) : trimExt (indexName b) = Nat.toDigits 10 b := by
  unfold trimExt
  rw [indexName_data]
  have hs : ".index".data = ['.', 'i', 'n', 'd', 'e', 'x'] := rfl
  rw [hs, List.reverse_append]
  have hr : ['.', 'i', 'n', 'd', 'e', 'x'].reverse = ['x', 'e', 'd', 'n', 'i', '.'] := rfl
  rw [hr]
  simp only [List.cons_append, List.nil_append, extLength]
  simp

theorem foldl_digits_ge (cs : List Char) (a : Nat) :
    a ≤ cs.foldl (fun acc c => acc * 10 + (c.toNat - 48)) a := by
  rw [digitsVal_foldl]
  have : 1 ≤ 10 ^ cs.length := Nat.one_le_pow _ _ (by decide)
  nlinarith

theorem parseUintLoop_digits (cs : List Char) : ∀ (n : Nat),
    (∀ c ∈ cs, '0' ≤ c ∧ c ≤ '9') →
    cs.foldl (fun acc c => acc * 10 + (c.toNat - 48)) n < u64 →
    parseUintLoop cs n = cs.foldl (fun acc c => acc * 10 + (c.toNat - 48)) n := by
  induction cs with
  | nil => intro n _ _; rfl
  | cons c cs ih =>
    intro n hd hlt
    have hc := hd c (List.mem_cons_self _ _)
    simp only [List.foldl_cons] at hlt ⊢
    have hge := foldl_digits_ge cs (n * 10 + (c.toNat - 48))
    have h0 : ('0' : Char).toNat = 48 := rfl
    unfold parseUintLoop
    rw [if_pos hc]
    dsimp only
    rw [h0]
    have hu : u64 = 18446744073709551616 := rfl
    rw [hu] at hlt ⊢
    rw [if_neg (by omega), if_neg (by omega)]
    exact ih _ (fun x hx => hd x (List.mem_cons_of_mem _ hx)) (by rw [hu]; exact hlt)

theorem parseUint_toDigits (b : Nat) (h : b < u64) : parseUint (Nat.toDigits 10 b) = b := by
  unfold parseUint
  have hv := toDigits_val b
  unfold digitsVal at hv
  rw [parseUintLoop_digits _ _ (toDigits_isDigit b) (by rw [hv]; exact h), hv]

theorem sortOffsets_eq (l : List Nat) : sortOffsets l = l.insertionSort (fun a b => a ≤ b) := by
  have hins : ∀ (x : Nat) (ys : List Nat),
      insertSorted x ys = ys.orderedInsert (fun a b => a ≤ b) x := by
    intro x ys
    induction ys with
    | nil => rfl
    | cons y ys ih =>
      simp only [insertSorted, List.orderedInsert]
      split
      · rfl
      · rw [ih]
  induction l with
  | nil => rfl
  | cons x xs ih =>
    simp only [sortOffsets, List.insertionSort]
    rw [hins, ih]

theorem sortOffsets_perm (l : List Nat) : (sortOffsets l).Perm l := by
  rw [sortOffsets_eq]
  exact List.perm_insertionSort _ l

theorem sortOffsets_sorted (l : List Nat) : (sortOffsets l).Pairwise (fun a b => a ≤ b) := by
  rw [sortOffsets_eq]
  exact List.sorted_insertionSort _ l

theorem evens_double (l : List Nat) : evens (l.flatMap (fun b => [b, b])) = l := by
  induction l with
  | nil => rfl
  | cons x xs ih =>
    have e : (x :: xs).flatMap (fun b => [b, b]) = x :: x :: xs.flatMap (fun b => [b, b]) := by
      simp [List.flatMap_cons]
    rw [e, evens, ih]

theorem double_sorted {l : List Nat} (h : l.Pairwise (fun a b => a ≤ b)) :
    (l.flatMap (fun b => [b, b])).Pairwise (fun a b => a ≤ b) := by
  induction l with
  | nil => simp
  | cons x xs ih =>
    rw [List.pairwise_cons] at h
    rw [List.flatMap_cons]
    simp only [List.cons_append, List.nil_append, List.pairwise_cons]
    refine ⟨?_, ?_, ih h.2⟩
    · intro y hy
      rcases List.mem_cons.mp hy with hy | hy
      · omega
      · obtain ⟨z, hz, hyz⟩ := List.mem_flatMap.mp hy
        have := h.1 z hz
        simp only [List.mem_cons, List.mem_singleton, List.not_mem_nil, or_false, or_self] at hyz
        omega
    · intro y hy
      obtain ⟨z, hz, hyz⟩ := List.mem_flatMap.mp hy
      have := h.1 z hz
      simp only [List.mem_cons, List.mem_singleton, List.not_mem_nil, or_false, or_self] at hyz
      omega

theorem sortOffsets_double {l bs : List Nat} (h : l.Perm (bs.flatMap (fun b => [b, b]))) :
    sortOffsets l = (sortOffsets bs).flatMap (fun b => [b, b]) := by
  apply List.eq_of_perm_of_sorted (r := fun a b => a ≤ b)
  · exact (sortOffsets_perm l).trans (h.trans ((sortOffsets_perm bs).symm.flatMap_right _))
  · exact sortOffsets_sorted l
  · exact double_sorted (sortOffsets_sorted bs)

theorem NewLog_setup (dir : Dir) (c : Config) :
    ∃ c2 : Config, c2.Segment.InitialOffset = c.Segment.InitialOffset ∧
      NewLog dir c = Log.setup ⟨dir, c2, [], none, []⟩ := by
  unfold NewLog
  refine ⟨_, ?_, rfl⟩
  split_ifs <;> rfl

theorem Log.newSegment_ok {l l1 : Log} {b : Nat} (h : l.newSegment b = (l1, none)) :
    ∃ s, s.baseOffset = b ∧ l1.heap = l.heap ++ [s] ∧ l1.segments = l.segments ++ [l.heap.length] ∧
      l1.activeSegment = some l.heap.length ∧ l1.Config = l.Config := by
  unfold Log.newSegment at h
  generalize hn : CommitLog.newSegment l.dir b l.Config = r at h
  obtain ⟨d, res⟩ := r
  cases res with
  | error e => simp at h
  | ok s =>
    simp only [Prod.mk.injEq, and_true] at h
    subst h
    exact ⟨s, (newSegment_base hn).1, rfl, rfl, rfl, rfl⟩

theorem Log.setupLoop_spec (n : Nat) : ∀ (bs : List Nat) (l l1 : Log), bs.length ≤ n →
    l.setupLoop bs = (l1, none) →
    l1.heap.map segment.baseOffset = l.heap.map segment.baseOffset ++ evens bs ∧
    l1.segments = l.segments ++ List.range' l.heap.length (evens bs).length ∧
    l1.Config = l.Config ∧
    (bs ≠ [] → l1.activeSegment = some (l1.heap.length - 1)) ∧ (bs = [] → l1 = l) := by
  induction n with
  | zero =>
    intro bs l l1 hlen h
    have hb : bs = [] := List.eq_nil_of_length_eq_zero (by omega)
    subst hb
    simp only [Log.setupLoop, Prod.mk.injEq, and_true] at h
    subst h
    simp [evens]
  | succ n ih =>
    intro bs l l1 hlen h
    match bs, hlen, h with
    | [], _, h =>
      simp only [Log.setupLoop, Prod.mk.injEq, and_true] at h
      subst h
      simp [evens]
    | [b], _, h =>
      simp only [Log.setupLoop] at h
      obtain ⟨s, h1, h2, h3, h4, h5⟩ := Log.newSegment_ok h
      refine ⟨?_, ?_, h5, ?_, ?_⟩
      · rw [h2, List.map_append, List.map_singleton, h1]
        rfl
      · rw [h3]
        rfl
      · intro _
        rw [h4, h2, List.length_append, List.length_singleton, Nat.add_sub_cancel]
      · intro hne
        simp at hne
    | b :: b2 :: rest, hlen, h =>
      simp only [Log.setupLoop] at h
      generalize hn : l.newSegment b = r at h
      obtain ⟨l2, e⟩ := r
      cases e with
      | some e => simp at h
      | none =>
        simp only at h
        obtain ⟨s, h1, h2, h3, h4, h5⟩ := Log.newSegment_ok hn
        simp only [List.length_cons] at hlen
        obtain ⟨i1, i2, i3, i4, i5⟩ := ih rest l2 l1 (by omega) h
        refine ⟨?_, ?_, by rw [i3, h5], ?_, ?_⟩
        · rw [i1, h2, List.map_append, List.map_singleton, h1, List.append_assoc]
          rfl
        · rw [i2, h3, h2, List.length_append, List.length_singleton, List.append_assoc]
          simp only [evens, List.length_cons, List.singleton_append]
          rw [List.range'_succ]
        · intro _
          by_cases hr : rest = []
          · rw [i5 hr, h4, h2, List.length_append, List.length_singleton, Nat.add_sub_cancel]
          · exact i4 hr
        · intro hne
          simp at hne

theorem evens_eq_nil {bs : List Nat} (h : evens bs = []) : bs = [] := by
  match bs, h with
  | [], _ => rfl
  | [b], h => simp [evens] at h
  | b :: _ :: rest, h => simp [evens] at h

theorem Log.setup_spec {dir : Dir} {c2 : CommitLog.Config} {l1 : Log}
    (h : Log.setup ⟨dir, c2, [], none, []⟩ = (l1, none)) :
    l1.bases = (if dir = [] then [c2.Segment.InitialOffset]
      else evens (sortOffsets dir.offsets)) ∧
    l1.activeSegment = l1.segments.getLast? ∧ l1.segments = List.range l1.heap.length := by
  unfold Log.setup at h
  dsimp only at h
  generalize hloop : Log.setupLoop ⟨dir, c2, [], none, []⟩
    (sortOffsets (dir.map (fun file => parseUint (trimExt file.1)))) = r at h
  obtain ⟨l2, e⟩ := r
  cases e with
  | some e => simp at h
  | none =>
    dsimp only at h
    obtain ⟨i1, i2, i3, i4, i5⟩ := Log.setupLoop_spec _ _ _ _ (le_refl _) hloop
    simp only [List.map_nil, List.nil_append, List.length_nil] at i1 i2
    have hlen : l2.heap.length = (evens (sortOffsets dir.offsets)).length := by
      have := congrArg List.length i1
      rw [List.length_map] at this
      exact this
    by_cases hd : dir = []
    · subst hd
      have hl2 := i5 rfl
      subst hl2
      rw [if_pos rfl] at h
      obtain ⟨s, h1, h2, h3, h4, h5⟩ := Log.newSegment_ok h
      simp only [List.nil_append, List.length_nil] at h2 h3 h4
      simp only [if_true]
      refine ⟨?_, ?_, ?_⟩
      · unfold Log.bases
        rw [h3, h2]
        simp [h1]
      · rw [h4, h3]
        rfl
      · rw [h3, h2]
        rfl
    · have hne : sortOffsets dir.offsets ≠ [] := by
        intro he
        have := (sortOffsets_perm dir.offsets).length_eq
        rw [he] at this
        unfold Dir.offsets at this
        rw [List.length_map] at this
        exact hd (List.eq_nil_of_length_eq_zero this.symm)
      have hev : evens (sortOffsets dir.offsets) ≠ [] := fun he => hne (evens_eq_nil he)
      have hpos : 0 < (evens (sortOffsets dir.offsets)).length := List.length_pos.mpr hev
      have hsegs : l2.segments = List.range l2.heap.length := by
        rw [i2, hlen, List.range_eq_range']
        rfl
      have hsne : ¬ (l2.segments = []) := by
        rw [hsegs]
        intro he
        have := congrArg List.length he
        rw [List.length_range] at this
        simp only [List.length_nil] at this
        omega
      rw [if_neg hsne] at h
      simp only [Prod.mk.injEq, and_true] at h
      subst h
      rw [if_neg hd]
      refine ⟨?_, ?_, hsegs⟩
      · unfold Log.bases
        rw [hsegs, map_range_getElem? segment.baseOffset 0 l2.heap, i1]
        rfl
      · rw [i4 hne, hsegs]
        obtain ⟨k, hk⟩ : ∃ k, l2.heap.length = k + 1 := ⟨l2.heap.length - 1, by omega⟩
        rw [hk, List.range_succ, List.getLast?_append]
        simp

theorem offsets_of_names (bs : List Nat) (h : ∀ b ∈ bs, b < u64) :
    (bs.flatMap (fun b => [storeName b, indexName b])).map (fun n => parseUint (trimExt n))
      = bs.flatMap (fun b => [b, b]) := by
  induction bs with
  | nil => rfl
  | cons x xs ih =>
    have hx := h x (List.mem_cons_self _ _)
    rw [List.flatMap_cons, List.flatMap_cons, List.map_append,
      ih (fun b hb => h b (List.mem_cons_of_mem _ hb))]
    simp only [List.map_cons, List.map_nil, trimExt_storeName, trimExt_indexName,
      parseUint_toDigits x hx]

/-- C20 (amended). Directory reconstruction: when `NewLog` succeeds, the base
offsets of the segments that `setup` builds are, in order, the numeric
prefixes at the positions 0, 2, 4, ... of the ascending list of the prefixes
of all file names, and the active segment is the last one; on an empty
directory a single segment at `Config.Segment.InitialOffset` is built. When
the directory holds, for each base offset of a non-empty set of numbers below
`2^64`, exactly the store file and the index file named after it, and nothing
else, the base offsets of the segments are exactly those numbers, each once,
in ascending order. -/
theorem setup_reconstructs (dir : Dir) (c : Config) (hok : (NewLog dir c).2 = none) :
    (NewLog dir c).1.bases = (if dir = [] then [c.Segment.InitialOffset]
        else evens (sortOffsets dir.offsets)) ∧
    (NewLog dir c).1.activeSegment = (NewLog dir c).1.segments.getLast? ∧
    ∀ bs : List Nat, bs ≠ [] →
      (dir.map Prod.fst).Perm (bs.flatMap (fun b => [storeName b, indexName b])) →
      bs.Nodup → (∀ b ∈ bs, b < u64) →
      (NewLog dir c).1.bases = sortOffsets bs ∧ (NewLog dir c).1.bases.Perm bs ∧
      (NewLog dir c).1.bases.Pairwise (fun a b => a < b) := by
  obtain ⟨c2, hc2, hnew⟩ := NewLog_setup dir c
  rw [hnew] at hok ⊢
  have hs : Log.setup ⟨dir, c2, [], none, []⟩ = ((Log.setup ⟨dir, c2, [], none, []⟩).1, none) := by
    rw [← hok]
  obtain ⟨s1, s2, _⟩ := Log.setup_spec hs
  rw [hc2] at s1
  refine ⟨s1, s2, ?_⟩
  intro bs hne hnames hnd hlt
  have hd : dir ≠ [] := by
    intro he
    subst he
    have := hnames.length_eq
    simp only [List.map_nil, List.length_nil] at this
    cases bs with
    | nil => exact hne rfl
    | cons x xs => simp [List.flatMap_cons] at this
  have hperm : dir.offsets.Perm (bs.flatMap (fun b => [b, b])) := by
    have := hnames.map (fun n => parseUint (trimExt n))
    rw [offsets_of_names bs hlt, List.map_map] at this
    exact this
  have hb : (Log.setup ⟨dir, c2, [], none, []⟩).1.bases = sortOffsets bs := by
    rw [s1, if_neg hd, sortOffsets_double hperm, evens_double]
  refine ⟨hb, ?_, ?_⟩
  · rw [hb]
    exact sortOffsets_perm bs
  · rw [hb]
    have hnd2 : (sortOffsets bs).Nodup := (sortOffsets_perm bs).nodup_iff.mpr hnd
    exact ((sortOffsets_sorted bs).and hnd2).imp (fun h => lt_of_le_of_ne h.1 h.2)

/-- Witness of C20 (amended): a directory with the files of the base offsets
7 and 3; the segments have the base offsets 3 and 7. -/
theorem setup_reconstructs_witness :
    ((NewLog [("7.index", []), ("3.store", []), ("7.store", []), ("3.index", [])]
        threeEntryConfig).2 = none ∧
      (List.map Prod.fst [("7.index", ([] : Bytes)), ("3.store", []), ("7.store", []),
        ("3.index", [])]).Perm
        (List.flatMap [7, 3] (fun b => [storeName b, indexName b]))) ∧
    (NewLog [("7.index", []), ("3.store", []), ("7.store", []), ("3.index", [])]
        threeEntryConfig).1.bases = [3, 7] :=
  ⟨⟨by decide, by decide⟩,
   ((setup_reconstructs [("7.index", []), ("3.store", []), ("7.store", []), ("3.index", [])]
      threeEntryConfig (by decide)).2.2 [7, 3] (by decide) (by decide) (by decide)
      (by decide)).1⟩

/-- Counterexample of C20. A directory lists the two files `1.store` and
`2.store`: the numeric prefixes are 1 and 2, and `setup` builds one segment,
with base offset 1. A directory lists `1.index`, `1.store` and `1.txt`: the
only numeric prefix is 1, and `setup` builds two segments with base offset 1. -/
theorem setup_reconstructs_counterexample :
    (NewLog [("1.store", []), ("2.store", [])] threeEntryConfig).2 = none ∧
    Dir.offsets [("1.store", []), ("2.store", [])] = [1, 2] ∧
    (NewLog [("1.store", []), ("2.store", [])] threeEntryConfig).1.bases = [1] ∧
    (NewLog [("1.index", []), ("1.store", []), ("1.txt", [])] threeEntryConfig).2 = none ∧
    Dir.offsets [("1.index", []), ("1.store", []), ("1.txt", [])] = [1, 1, 1] ∧
    (NewLog [("1.index", []), ("1.store", []), ("1.txt", [])] threeEntryConfig).1.bases
      = [1, 1] := by
  decide

/-! ## C21: the offsets that `segment.Read` answers for -/

theorem newSegment_empty_files {dir d : Dir} {b : Nat} {c : Config} {s : segment}
    (h : newSegment dir b c = (d, .ok s)) (hs : (dir.lookup (storeName b)).getD [] = [])
    (hi : (dir.lookup (indexName b)).getD [] = []) : s = freshSegment b c := by
  obtain ⟨_, hs0⟩ := newSegment_files h
  rw [hs, hi] at hs0
  have hr : (⟨fileTruncate [] (mapLen c), ([] : Bytes).length % u64, false⟩ : index).Read (-1)
      = .error Err.EOF := index.Read_eof (Or.inl rfl)
  rw [hr] at hs0
  rw [hs0]
  unfold freshSegment fileTruncate
  simp

theorem SegFull.fresh_start (cd : Codec) (b : Nat) (c : Config) :
    SegFull cd b (freshSegment b c) [] :=
  ⟨rfl, rfl, ⟨rfl, rfl⟩, [], rfl, rfl, segOK_fresh cd b [] b c⟩

theorem SegFull.append_step {cd : Codec} {b : Nat} {s s1 : segment} {done : List Record} {off : Nat}
    {record : Record} (h : SegFull cd b s done) (ha : s.Append cd record = (s1, off, none))
    (hlt : b + done.length + 1 < u64) : SegFull cd b s1 (done ++ [record]) := by
  obtain ⟨hbase, hnext, hopen, acks, hf, hsnd, hS⟩ := h
  have hlen : acks.length = done.length := by
    have := congrArg List.length hsnd
    rw [List.length_map] at this
    exact this
  obtain ⟨b1, b2, b3, _, b5, b6⟩ := segment.Append_ok ha (fun _ => hS)
    (by rw [hbase, hnext]; omega) (by rw [hnext, hlen]) (by rw [hnext]; exact hlt)
  refine ⟨by rw [b3, hbase], ?_, b5.mpr hopen, acks ++ [(off, record)], ?_, ?_, b6 (b5.mpr hopen)⟩
  · rw [b2, hnext, List.length_append, List.length_singleton]
    omega
  · rw [List.map_append, hf, List.length_append, List.length_singleton, List.range'_concat,
      b1, hnext, hlen]
    simp
  · rw [List.map_append, hsnd]
    rfl

theorem SegFull.append_all {cd : Codec} {b : Nat} (rs : List Record) :
    ∀ (s : segment) (done : List Record), SegFull cd b s done →
    (∀ x ∈ (s.appendAll cd rs).2, x.2 = none) → b + done.length + rs.length < u64 →
    SegFull cd b (s.appendAll cd rs).1 (done ++ rs) := by
  induction rs with
  | nil =>
    intro s done h _ _
    simp only [segment.appendAll, List.append_nil]
    exact h
  | cons r rs ih =>
    intro s done h hok hlt
    simp only [segment.appendAll, List.mem_cons, forall_eq_or_imp, List.length_cons] at hok hlt ⊢
    obtain ⟨h1, h2⟩ := hok
    have ha : s.Append cd r = ((s.Append cd r).1, (s.Append cd r).2.1, none) := by rw [← h1]
    have hs1 := h.append_step ha (by omega)
    have := ih _ _ hs1 h2 (by simp only [List.length_append, List.length_singleton]; omega)
    rw [List.append_assoc] at this
    exact this

theorem segment.Read_slot_ok {cd : Codec} {b : Nat} {s : segment} {done : List Record}
    {off e : Nat} {r : Record} (h : SegFull cd b s done)
    (he : e = s.index.slot (s.relative off)) (hr : done[e]? = some r)
    (hbytes : s.store.content.length < 2 ^ 63) (hrt : cd.RoundTrips { r with Offset := b + e }) :
    (s.Read cd off).2 = .ok { r with Offset := b + e } := by
  obtain ⟨hbase, hnext, hopen, acks, hf, hsnd, hS⟩ := h
  have hel : e < done.length := (List.getElem?_eq_some_iff.mp hr).1
  have ha := acks_of_records hf hsnd hr
  obtain ⟨r1, p, pos, ha1, hm, hent, hfr⟩ := hS.records (b + e) (by rw [hbase]; omega)
    (by rw [hnext]; omega)
  rw [Nat.add_sub_cancel_left, ha] at ha1
  simp only [Option.some.injEq, Prod.mk.injEq, true_and] at ha1
  subst ha1
  have hE : entWidth = 12 := rfl
  rw [hbase, Nat.add_sub_cancel_left] at hent
  have hidx := index.Read_slot he hent
    (by rw [hS.indexSize, hnext, hbase, Nat.add_sub_cancel_left, hE]; omega) hS.indexCap
  have hposlt := hfr.end_le
  have hpm : pos % u64 % u64 = pos := by
    rw [Nat.mod_mod, Nat.mod_eq_of_lt]
    unfold u64
    omega
  unfold segment.Read
  unfold segment.relative at hidx
  dsimp only
  rw [hidx]
  simp only [hpm]
  rw [store.Read_frame hopen.1 hfr hbytes]
  simp only [hrt p hm]

theorem segment.Read_slot_eof {cd : Codec} {b : Nat} {s : segment} {done : List Record}
    {off : Nat} (h : SegFull cd b s done)
    (he : done.length ≤ s.index.slot (s.relative off)) :
    (s.Read cd off).2 = .error Err.EOF := by
  obtain ⟨hbase, hnext, hopen, acks, _, _, hS⟩ := h
  have hE : entWidth = 12 := rfl
  have hidx : s.index.Read (s.relative off) = .error Err.EOF := by
    apply index.Read_eof
    right
    rw [hS.indexSize, hnext, hbase, Nat.add_sub_cancel_left, hE]
    omega
  unfold segment.Read
  unfold segment.relative at hidx
  dsimp only
  rw [hidx]

theorem segment.slot_in_range {s : segment} {off : Nat} (h1 : s.baseOffset ≤ off)
    (h2 : off < s.baseOffset + 2 ^ 32) :
    s.index.slot (s.relative off) = off - s.baseOffset := by
  have e1 : (off + u64 - s.baseOffset) % u64 = off - s.baseOffset := by
    unfold u64 at *
    omega
  unfold segment.relative index.slot
  rw [e1, toInt64_of_lt (by omega), if_neg (by omega), toUint32_natCast,
    Nat.mod_eq_of_lt (by omega)]

/-- C21 (amended). The offsets that `segment.Read` answers for: on a segment
with base offset `b` that was created on empty files and has taken `k`
records, the store holding fewer than `2^63` bytes, `Read(off)` looks up the
entry number `e` that `index.Read` selects for `off - b`, which is `off - b`
for `b ≤ off < b + 2^32`. For these offsets `Read(off)` succeeds exactly when
`off < nextOffset = b + k`, it then returns the record that was appended at
`off`, with the offset field `off` (the codec round-trips), and it fails with
`io.EOF` for `off ≥ nextOffset`. For every offset, `Read(off)` fails with
`io.EOF` when `e ≥ k` and returns the record appended at `b + e` when
`e < k`. -/
theorem segment_read_answers (cd : Codec) (dir d : Dir) (b : Nat) (c : Config) (s0 : segment)
    (rs : List Record) (hnew : newSegment dir b c = (d, .ok s0))
    (hs : (dir.lookup (storeName b)).getD [] = [])
    (hi : (dir.lookup (indexName b)).getD [] = [])
    (hok : ∀ x ∈ (s0.appendAll cd rs).2, x.2 = none) (hlt : b + rs.length < u64)
    (hbytes : (s0.appendAll cd rs).1.store.content.length < 2 ^ 63) :
    (s0.appendAll cd rs).1.baseOffset = b ∧ (s0.appendAll cd rs).1.nextOffset = b + rs.length ∧
    (∀ off, b ≤ off → off < b + 2 ^ 32 →
      (∀ r, rs[off - b]? = some r → cd.RoundTrips { r with Offset := off } →
        ((s0.appendAll cd rs).1.Read cd off).2 = .ok { r with Offset := off }) ∧
      (b + rs.length ≤ off → ((s0.appendAll cd rs).1.Read cd off).2 = .error Err.EOF) ∧
      ((∃ rec, ((s0.appendAll cd rs).1.Read cd off).2 = .ok rec) → off < b + rs.length)) ∧
    ∀ off e, e = (s0.appendAll cd rs).1.index.slot ((s0.appendAll cd rs).1.relative off) →
      (∀ r, rs[e]? = some r → cd.RoundTrips { r with Offset := b + e } →
        ((s0.appendAll cd rs).1.Read cd off).2 = .ok { r with Offset := b + e }) ∧
      (rs.length ≤ e → ((s0.appendAll cd rs).1.Read cd off).2 = .error Err.EOF) := by
  have hfresh := newSegment_empty_files hnew hs hi
  subst hfresh
  have hF := SegFull.append_all rs (freshSegment b c) [] (SegFull.fresh_start cd b c) hok
    (by simp only [List.length_nil]; omega)
  rw [List.nil_append] at hF
  have hgen : ∀ off e,
      e = ((freshSegment b c).appendAll cd rs).1.index.slot
        (((freshSegment b c).appendAll cd rs).1.relative off) →
      (∀ r, rs[e]? = some r → cd.RoundTrips { r with Offset := b + e } →
        (((freshSegment b c).appendAll cd rs).1.Read cd off).2 = .ok { r with Offset := b + e }) ∧
      (rs.length ≤ e →
        (((freshSegment b c).appendAll cd rs).1.Read cd off).2 = .error Err.EOF) := by
    intro off e he
    refine ⟨fun r hr hrt => segment.Read_slot_ok hF he hr hbytes hrt, fun hle => ?_⟩
    exact segment.Read_slot_eof hF (by rw [← he]; exact hle)
  refine ⟨hF.base, hF.next, ?_, hgen⟩
  intro off h1 h2
  have hslot := @segment.slot_in_range ((freshSegment b c).appendAll cd rs).1 off
    (by rw [hF.base]; exact h1) (by rw [hF.base]; exact h2)
  rw [hF.base] at hslot
  obtain ⟨g1, g2⟩ := hgen off (off - b) hslot.symm
  have hoff : b + (off - b) = off := by omega
  rw [hoff] at g1
  refine ⟨g1, fun hle => g2 (by omega), ?_⟩
  intro hex
  obtain ⟨rec, hrec⟩ := hex
  by_contra hge
  rw [g2 (by omega)] at hrec
  simp at hrec

/-- Witness of C21 (amended): the segment with base offset 5 and two records;
`Read(6)` returns the record appended at offset 6. -/
theorem segment_read_answers_witness :
    (newSegment [] 5 threeEntryConfig
        = ((newSegment [] 5 threeEntryConfig).1, .ok (freshSegment 5 threeEntryConfig)) ∧
      (∀ x ∈ ((freshSegment 5 threeEntryConfig).appendAll plainCodec
        [⟨[1], 0⟩, ⟨[2, 3], 0⟩]).2, x.2 = none) ∧
      5 + ([⟨[1], 0⟩, ⟨[2, 3], 0⟩] : List Record).length < u64 ∧
      ((freshSegment 5 threeEntryConfig).appendAll plainCodec
        [⟨[1], 0⟩, ⟨[2, 3], 0⟩]).1.store.content.length < 2 ^ 63) ∧
    (((freshSegment 5 threeEntryConfig).appendAll plainCodec
        [⟨[1], 0⟩, ⟨[2, 3], 0⟩]).1.Read plainCodec 6).2 = .ok ⟨[2, 3], 6⟩ :=
  ⟨⟨by decide, by decide, by decide, by decide⟩,
   ((segment_read_answers plainCodec [] (newSegment [] 5 threeEntryConfig).1 5 threeEntryConfig
      (freshSegment 5 threeEntryConfig) [⟨[1], 0⟩, ⟨[2, 3], 0⟩]
      (by decide) (by decide) (by decide) (by decide) (by decide) (by decide)).2.2.1 6
      (by decide) (by decide)).1 ⟨[2, 3], 0⟩ (by decide)
      (plainCodec_roundTrips _ (by decide))⟩

/-- Counterexample of C21: the segment has base offset 5 and next offset 7,
with the records of values `[1]` and `[2, 3]` at the offsets 5 and 6.
`Read(4)` succeeds, below the base offset, and returns the record of offset
6: the difference `-1` is the argument by which `index.Read` selects the last
entry. `Read(5 + 2^32)` succeeds, above the next offset, and returns the
record of offset 5: the difference `2^32` is taken as the 32 bit number 0. -/
theorem segment_read_answers_counterexample :
    twoRecordSegment.baseOffset = 5 ∧ twoRecordSegment.nextOffset = 7 ∧
    (twoRecordSegment.Read plainCodec 5).2 = .ok ⟨[1], 5⟩ ∧
    (twoRecordSegment.Read plainCodec 6).2 = .ok ⟨[2, 3], 6⟩ ∧
    (twoRecordSegment.Read plainCodec 4).2 = .ok ⟨[2, 3], 6⟩ ∧
    (4294967301 : Nat) < u64 ∧
    (twoRecordSegment.Read plainCodec 4294967301).2 = .ok ⟨[1], 5⟩ := by
  decide
end CommitLog
